import Mathlib

/-!
# Verification development for `stepgen.c` (S-curve step generator, RP2350 PIO + DMA)

The C functions of `stepgen.c` are embedded as Lean functions of the same name.

* `float` / `double` values are `Fp`: a rational, an infinity or a NaN.  Every arithmetic
  operation computes the exact rational result and hands it to a rounding function taken
  from an `Arith`.  `ieee` rounds to binary32 / binary64 (round to nearest, ties to even,
  subnormals, overflow to infinity); `exact` does not round at all.
  The sign of zero is not tracked (no function of `stepgen.c` divides by a zero or inspects
  the sign of a zero), and expressions are evaluated operation by operation, as written.
* Conversions from floating point to unsigned integers truncate toward zero.  ISO C defines
  such a conversion only when the truncated value fits the target type; for the other
  arguments (NaN, infinities, values at most `-1` or at least `2 ^ bits`) `Fp.toUInt`
  returns a saturated value, NaN giving 0, which is only one of the results a platform may
  produce.  Theorems that state the value of a result carry hypotheses that keep the
  conversions they depend on in the defined range; theorems that hold for all inputs hold
  for every conversion result (they rest on the integer clamps applied after a conversion,
  or compare two results of the same conversion).
* `uint32_t` / `uint` values are naturals; wrap-around is written `% 2 ^ 32` where the
  source can wrap.
* Buffers are maps from a word index to a word; hardware registers are explicit state.
-/

namespace Stepgen

/-! ## Floating point -/

/-- A floating-point datum: NaN, a signed infinity, or a finite rational value. -/
inductive Fp where
  | nan
  | inf (neg : Bool)
  | fin (q : ℚ)
deriving DecidableEq

/-- A binary interchange format: precision in bits and largest exponent. -/
structure Format where
  prec : ℕ
  emax : ℤ

/-- The `float` format of the target. -/
def binary32 : Format := ⟨24, 127⟩

/-- The `double` format of the target. -/
def binary64 : Format := ⟨53, 1023⟩

/-- Two to an integer power. -/
def pow2 (k : ℤ) : ℚ := (2 : ℚ) ^ k

/-- Floor of the binary logarithm of a natural, by repeated halving. -/
def log2Fuel : ℕ → ℕ → ℕ
  | 0, _ => 0
  | fuel + 1, n => if 2 ≤ n then log2Fuel fuel (n / 2) + 1 else 0

/-- Floor of the binary logarithm of a natural (0 for 0). -/
def nlog2 (n : ℕ) : ℕ := log2Fuel n n

/-- Floor of the binary logarithm of the magnitude of a non-zero rational. -/
def ilog2 (q : ℚ) : ℤ :=
  let e0 : ℤ := (nlog2 q.num.natAbs : ℤ) - (nlog2 q.den : ℤ)
  if pow2 e0 ≤ |q| then e0 else e0 - 1

/-- Round a rational to the nearest integer, ties to the even one. -/
def rne (x : ℚ) : ℤ :=
  let f := ⌊x⌋
  let r := x - f
  if r < 1 / 2 then f else if 1 / 2 < r then f + 1 else if f % 2 = 0 then f else f + 1

/-- Round a rational into a format: to nearest, ties to even, gradual underflow,
overflow to the infinity of its sign. -/
def roundFp (F : Format) (q : ℚ) : Fp :=
  if q = 0 then .fin 0 else
  let e := max (ilog2 q) (1 - F.emax)
  let u := pow2 (e - (F.prec - 1))
  let r := (rne (q / u) : ℚ) * u
  if |r| < pow2 (F.emax + 1) then .fin r else .inf (decide (q < 0))

/-- The side conditions on a format under which the rounding lemmas hold. -/
def Format.ok (F : Format) : Prop := 1 ≤ F.prec ∧ (F.prec : ℤ) ≤ F.emax

instance (F : Format) : Decidable F.ok := by
  unfold Format.ok
  infer_instance

/-- The exponent of the quantum `roundFp` uses for `q`. -/
def ulpExp (F : Format) (q : ℚ) : ℤ := max (ilog2 q) (1 - F.emax) - (F.prec - 1)

/-- The rounding applied after each `float` operation (`rf`) and each `double`
operation (`rd`). -/
structure Arith where
  rf : ℚ → Fp
  rd : ℚ → Fp

/-- The arithmetic of the target: IEEE-754 binary32 and binary64. -/
def ieee : Arith := ⟨roundFp binary32, roundFp binary64⟩

/-- Arithmetic over exact rationals: no operation rounds.  An idealisation, not the
arithmetic the program runs; it is used only in statements that name it. -/
def exact : Arith := ⟨Fp.fin, Fp.fin⟩

namespace Fp

/-- Negation. -/
def neg : Fp → Fp
  | nan => nan
  | inf s => inf (!s)
  | fin q => fin (-q)

/-- Addition, the exact sum rounded by `rnd`. -/
def add (rnd : ℚ → Fp) : Fp → Fp → Fp
  | nan, _ => nan
  | _, nan => nan
  | inf a, inf b => if a = b then inf a else nan
  | inf a, fin _ => inf a
  | fin _, inf b => inf b
  | fin x, fin y => rnd (x + y)

/-- Subtraction. -/
def sub (rnd : ℚ → Fp) (a b : Fp) : Fp := add rnd a (neg b)

/-- Multiplication, the exact product rounded by `rnd`. -/
def mul (rnd : ℚ → Fp) : Fp → Fp → Fp
  | nan, _ => nan
  | _, nan => nan
  | inf a, inf b => inf (a != b)
  | inf a, fin y => if y = 0 then nan else inf (a != decide (y < 0))
  | fin x, inf b => if x = 0 then nan else inf (decide (x < 0) != b)
  | fin x, fin y => rnd (x * y)

/-- Division, the exact quotient rounded by `rnd`; a zero divisor counts as `+0`. -/
def div (rnd : ℚ → Fp) : Fp → Fp → Fp
  | nan, _ => nan
  | _, nan => nan
  | inf _, inf _ => nan
  | inf a, fin y => inf (a != decide (y < 0))
  | fin _, inf _ => fin 0
  | fin x, fin y =>
    if y = 0 then (if x = 0 then nan else inf (decide (x < 0))) else rnd (x / y)

/-- The comparison `a < b` of C: false as soon as one side is a NaN. -/
def lt : Fp → Fp → Bool
  | nan, _ => false
  | _, nan => false
  | inf a, inf b => a && !b
  | inf a, fin _ => a
  | fin _, inf b => !b
  | fin x, fin y => decide (x < y)

/-- The comparison `a <= b` of C: false as soon as one side is a NaN. -/
def le : Fp → Fp → Bool
  | nan, _ => false
  | _, nan => false
  | inf a, inf b => a || !b
  | inf a, fin _ => a
  | fin _, inf b => !b
  | fin x, fin y => decide (x ≤ y)

/-- Conversion to an unsigned integer of `bits` bits: truncation toward zero.  C defines
it for finite values in `(-1, 2 ^ bits)` only; outside that range this definition
saturates, NaN to 0, which a platform need not do. -/
def toUInt (bits : ℕ) : Fp → ℕ
  | nan => 0
  | inf s => if s then 0 else 2 ^ bits - 1
  | fin q => min ⌊q⌋.toNat (2 ^ bits - 1)

end Fp

/-! ## The pure functions of `stepgen.c` -/

/-- The default of the macro `STEPGEN_DMA_MAX_STEPS`. -/
def STEPGEN_DMA_MAX_STEPS : ℕ := 256

/-- The conversion `(float)n` of a `uint32_t` / `uint`. -/
def u32_to_float (A : Arith) (n : ℕ) : Fp := A.rf (n : ℚ)

/-- The conversion `(double)n` of a `uint32_t`, which is exact. -/
def u32_to_double (n : ℕ) : Fp := .fin (n : ℚ)

/-- The `uint` subtraction `a - b`, which wraps. -/
def u32_sub (a b : ℕ) : ℕ := (a + 2 ^ 32 - b) % 2 ^ 32

/-- The C function `smoothstep`. -/
def smoothstep (A : Arith) (t : Fp) : Fp :=
  if Fp.le t (.fin 0) then .fin 0
  else if Fp.le (.fin 1) t then .fin 1
  else Fp.mul A.rf (Fp.mul A.rf t t) (Fp.sub A.rf (.fin 3) (Fp.mul A.rf (.fin 2) t))

/-- The C function `clamp_u32`; `v` is a `uint64_t`. -/
def clamp_u32 (v lo hi : ℕ) : ℕ :=
  if v < lo then lo else if v > hi then hi else v % 2 ^ 32

/-- The C function `split_total_cycles`; the result is `(high_cycles, low_cycles)`. -/
def split_total_cycles (A : Arith) (total_cycles : ℕ) (duty_cycle : Fp) : ℕ × ℕ :=
  let total_cycles := if total_cycles < 3 then 3 else total_cycles
  let high_cycles := Fp.toUInt 32 (Fp.mul A.rf (u32_to_float A total_cycles) duty_cycle)
  let high_cycles := if high_cycles < 1 then 1 else high_cycles
  let high_cycles := if high_cycles ≥ total_cycles then total_cycles - 1 else high_cycles
  (high_cycles, total_cycles - high_cycles)

/-- The frequency floored at `0.1f`, as both builders do before dividing. -/
def safe_f_hz (A : Arith) (f_hz : Fp) : Fp :=
  if Fp.lt f_hz (A.rf (1 / 10)) then A.rf (1 / 10) else f_hz

/-- The cycle count `clamp_u32((uint64_t)((double)sys_hz / (double)safe_f_hz), 3, 0x7fffffff)`
that both builders compute from a frequency. -/
def total_cycles_of (A : Arith) (sys_hz : ℕ) (f_hz : Fp) : ℕ :=
  clamp_u32 (Fp.toUInt 64 (Fp.div A.rd (u32_to_double sys_hz) (safe_f_hz A f_hz))) (1 + 2) 0x7fffffff

/-- The frequency of step `i` in the loop of `build_s_curve_cycles`. -/
def s_curve_f_hz (A : Arith) (steps : ℕ) (f0_hz f1_hz : Fp) (i : ℕ) : Fp :=
  let t := Fp.div A.rf (u32_to_float A i) (u32_to_float A (u32_sub steps 1))
  let s := smoothstep A t
  Fp.add A.rf f0_hz (Fp.mul A.rf (Fp.sub A.rf f1_hz f0_hz) s)

/-- The pair computed by iteration `i` of the loop of `build_s_curve_cycles`. -/
def s_curve_pair (A : Arith) (sys_hz steps : ℕ) (f0_hz f1_hz duty_cycle : Fp) (i : ℕ) : ℕ × ℕ :=
  split_total_cycles A (total_cycles_of A sys_hz (s_curve_f_hz A steps f0_hz f1_hz i)) duty_cycle

/-- The two stores `out_words[2u*i + 0u] = high; out_words[2u*i + 1u] = low`. -/
def store_pair (out_words : ℕ → ℕ) (i : ℕ) (p : ℕ × ℕ) : ℕ → ℕ :=
  fun j =>
    if j = (2 * i + 1) % 2 ^ 32 then p.2
    else if j = (2 * i + 0) % 2 ^ 32 then p.1
    else out_words j

/-- The C function `build_s_curve_cycles`; the result is the buffer after the loop. -/
def build_s_curve_cycles (A : Arith) (sys_hz : ℕ) (out_words : ℕ → ℕ) (steps : ℕ)
    (f0_hz f1_hz duty_cycle : Fp) : ℕ → ℕ :=
  let steps := if steps < 2 then 2 else steps
  (List.range steps).foldl
    (fun out i => store_pair out i (s_curve_pair A sys_hz steps f0_hz f1_hz duty_cycle i))
    out_words

/-- The C function `build_constant_cycles_pair`; the result is `(out_pair[0], out_pair[1])`. -/
def build_constant_cycles_pair (A : Arith) (sys_hz : ℕ) (freq_hz duty_cycle : Fp) : ℕ × ℕ :=
  split_total_cycles A (total_cycles_of A sys_hz freq_hz) duty_cycle

/-! ## Instances, the registry and the hardware the SDK calls act on -/

/-- The address of a `stepgen_t` object. -/
abbrev Ptr := ℕ

/-- The C struct `stepgen_t`; a buffer maps a word index to the word stored there. -/
structure stepgen_t where
  pio : ℕ
  sm : ℕ
  offset : ℕ
  pin : ℕ
  dma_ramp_ch : ℤ
  dma_steady_ch : ℤ
  dma_stop_ch : ℤ
  duty_cycle : Fp
  freq_start_hz : Fp
  freq_target_hz : Fp
  ramp_steps : ℕ
  ramp_buf : ℕ → ℕ
  stop_buf : ℕ → ℕ
  steady_buf : ℕ → ℕ

/-- The three buffers of an instance. -/
inductive BufId where
  | ramp_buf
  | stop_buf
  | steady_buf
deriving DecidableEq

/-- An address a channel reads from or writes to. -/
inductive Addr where
  | null
  | txf (pio sm : ℕ)
  | buf (ctx : Ptr) (b : BufId)
deriving DecidableEq

/-- A transfer-request (pacing) signal. -/
inductive Dreq where
  | force
  | pio_tx (pio sm : ℕ)
deriving DecidableEq

/-- The `dma_channel_config` fields that `stepgen.c` sets or relies on. -/
structure DmaConfig where
  data_size : ℕ
  read_increment : Bool
  write_increment : Bool
  dreq : Dreq
  chain_to : ℕ
  ring_write : Bool
  ring_size_bits : ℕ
deriving DecidableEq

/-- What a channel is doing. -/
inductive ChanStatus where
  | idle
  | aborted
  | configured
  | running
deriving DecidableEq

/-- The registers of one DMA channel. -/
structure DmaChannel where
  cfg : DmaConfig
  write_addr : Addr
  read_addr : Addr
  transfer_count : ℕ
  status : ChanStatus
deriving DecidableEq

/-- The state of one PIO state machine. -/
structure SmState where
  enabled : Bool
  pc : ℕ
  pins : ℕ
  tx_fifo : List ℕ
  rx_fifo : List ℕ
deriving DecidableEq

/-- Constants of the SDK and of the generated PIO header that `stepgen.c` uses. -/
structure Platform where
  sys_hz : ℕ
  NUM_DMA_CHANNELS : ℕ
  stepgen_offset_dma_stream : ℕ
  DMA_SIZE_32 : ℕ

/-- Memory, the registry `g_dma_ctx_map` and the hardware registers. -/
structure World where
  heap : Ptr → stepgen_t
  g_dma_ctx_map : ℕ → Option Ptr
  chan : ℕ → DmaChannel
  claimed : ℕ → Bool
  inte0 : ℕ → Bool
  ints0 : ℕ
  sm : ℕ × ℕ → SmState
  irq0_handler : Bool
  irq0_enabled : Bool

/-- The conversion of an `int` to `uint`. -/
def int_to_uint (z : ℤ) : ℕ := (z % 2 ^ 32).toNat

/-- SDK call `dma_channel_abort`: the channel stops and is no longer busy. -/
def dma_channel_abort (w : World) (channel : ℕ) : World :=
  { w with chan := Function.update w.chan channel ({ w.chan channel with status := .aborted } : DmaChannel) }

/-- SDK call `dma_channel_get_default_config`: 32-bit transfers, read increment only,
unpaced, chained to itself (that is, to no other channel), no ring. -/
def dma_channel_get_default_config (P : Platform) (channel : ℕ) : DmaConfig :=
  { data_size := P.DMA_SIZE_32, read_increment := true, write_increment := false,
    dreq := .force, chain_to := channel, ring_write := false, ring_size_bits := 0 }

/-- SDK call `dma_channel_configure`: program the channel and start it when `trigger`. -/
def dma_channel_configure (w : World) (channel : ℕ) (config : DmaConfig)
    (write_addr read_addr : Addr) (transfer_count : ℕ) (trigger : Bool) : World :=
  { w with chan := (Function.update w.chan channel
      ({ cfg := config, write_addr := write_addr, read_addr := read_addr,
         transfer_count := transfer_count,
         status := if trigger then .running else .configured } : DmaChannel)) }

/-- SDK call `dma_channel_set_irq0_enabled`. -/
def dma_channel_set_irq0_enabled (w : World) (channel : ℕ) (enabled : Bool) : World :=
  { w with inte0 := Function.update w.inte0 channel enabled }

/-- SDK call `dma_claim_unused_channel(true)`: the lowest unclaimed channel, or a panic
(`none`) when every channel is claimed. -/
def dma_claim_unused_channel (P : Platform) (w : World) : Option (World × ℕ) :=
  match (List.range P.NUM_DMA_CHANNELS).find? (fun c => !w.claimed c) with
  | none => none
  | some c => some ({ w with claimed := Function.update w.claimed c true }, c)

/-- SDK call `pio_sm_set_enabled`. -/
def pio_sm_set_enabled (w : World) (pio sm : ℕ) (enabled : Bool) : World :=
  { w with sm := Function.update w.sm (pio, sm) ({ w.sm (pio, sm) with enabled := enabled } : SmState) }

/-- SDK call `pio_sm_clear_fifos`. -/
def pio_sm_clear_fifos (w : World) (pio sm : ℕ) : World :=
  { w with sm := (Function.update w.sm (pio, sm)
      ({ w.sm (pio, sm) with tx_fifo := [], rx_fifo := [] } : SmState)) }

/-- SDK call `pio_sm_exec` of `pio_encode_jmp(addr)`: the state machine jumps to `addr`. -/
def pio_sm_exec_jmp (w : World) (pio sm addr : ℕ) : World :=
  { w with sm := Function.update w.sm (pio, sm) ({ w.sm (pio, sm) with pc := addr } : SmState) }

/-- SDK call `pio_sm_set_pins`: the pin levels driven through this state machine. -/
def pio_sm_set_pins (w : World) (pio sm pins : ℕ) : World :=
  { w with sm := Function.update w.sm (pio, sm) ({ w.sm (pio, sm) with pins := pins } : SmState) }

/-- A write of `v` to the write-one-to-clear register `INTS0`. -/
def write_ints0 (w : World) (v : ℕ) : World :=
  { w with ints0 := w.ints0 ^^^ (w.ints0 &&& v) }

/-- The value `1u << ch`. -/
def bit_u32 (ch : ℕ) : ℕ := (1 <<< ch) % 2 ^ 32

/-! ## The stateful functions of `stepgen.c` -/

/-- One iteration of the loop of `stepgen_dma_irq0_handler`, for channel `ch`;
`ints` is the snapshot of `INTS0` taken on entry. -/
def irq0_channel (w : World) (ints ch : ℕ) : World :=
  if ints &&& bit_u32 ch ≠ 0 then
    match w.g_dma_ctx_map ch with
    | none => w
    | some ctx =>
      if (w.heap ctx).dma_stop_ch = (ch : ℤ) then
        let w := write_ints0 w (bit_u32 ch)
        let w := pio_sm_set_enabled w (w.heap ctx).pio (w.heap ctx).sm false
        let w := pio_sm_set_pins w (w.heap ctx).pio (w.heap ctx).sm 0
        pio_sm_clear_fifos w (w.heap ctx).pio (w.heap ctx).sm
      else w
  else w

/-- The C function `stepgen_dma_irq0_handler`. -/
def stepgen_dma_irq0_handler (P : Platform) (w : World) : World :=
  let ints := w.ints0
  (List.range P.NUM_DMA_CHANNELS).foldl (fun w ch => irq0_channel w ints ch) w

/-- The C function `stepgen_init`; `none` when the SDK panics for lack of a free channel. -/
def stepgen_init (P : Platform) (w : World) (ctx : Ptr) (pio sm offset pin : ℕ) :
    Option World :=
  let w := { w with heap := (Function.update w.heap ctx
    ({ w.heap ctx with pio := pio, sm := sm, offset := offset, pin := pin } : stepgen_t)) }
  match dma_claim_unused_channel P w with
  | none => none
  | some (w, ramp) =>
    let w := { w with heap := (Function.update w.heap ctx
      ({ w.heap ctx with dma_ramp_ch := (ramp : ℤ) } : stepgen_t)) }
    match dma_claim_unused_channel P w with
    | none => none
    | some (w, steady) =>
      let w := { w with heap := (Function.update w.heap ctx
        ({ w.heap ctx with dma_steady_ch := (steady : ℤ) } : stepgen_t)) }
      match dma_claim_unused_channel P w with
      | none => none
      | some (w, stop) =>
        let w := { w with heap := (Function.update w.heap ctx
          ({ w.heap ctx with dma_stop_ch := (stop : ℤ) } : stepgen_t)) }
        let w := { w with g_dma_ctx_map :=
          (Function.update w.g_dma_ctx_map (w.heap ctx).dma_stop_ch.toNat (some ctx)) }
        some { w with irq0_handler := true, irq0_enabled := true }

/-- The clamp of `ramp_steps` at the head of the start and stop functions. -/
def clamp_ramp_steps (ramp_steps : ℕ) : ℕ :=
  let ramp_steps := if ramp_steps > STEPGEN_DMA_MAX_STEPS then STEPGEN_DMA_MAX_STEPS else ramp_steps
  if ramp_steps < 2 then 2 else ramp_steps

/-- The sequence `set_enabled(false); clear_fifos; exec(jmp dma_stream); set_enabled(true)`
of the start and stop functions. -/
def restart_sm (P : Platform) (w : World) (ctx : Ptr) : World :=
  let w := pio_sm_set_enabled w (w.heap ctx).pio (w.heap ctx).sm false
  let w := pio_sm_clear_fifos w (w.heap ctx).pio (w.heap ctx).sm
  let w := pio_sm_exec_jmp w (w.heap ctx).pio (w.heap ctx).sm
    ((w.heap ctx).offset + P.stepgen_offset_dma_stream)
  pio_sm_set_enabled w (w.heap ctx).pio (w.heap ctx).sm true

/-- The three calls of `dma_channel_abort` of the start and stop functions. -/
def abort_all (w : World) (ctx : Ptr) : World :=
  let w := dma_channel_abort w (int_to_uint (w.heap ctx).dma_ramp_ch)
  let w := dma_channel_abort w (int_to_uint (w.heap ctx).dma_steady_ch)
  dma_channel_abort w (int_to_uint (w.heap ctx).dma_stop_ch)

/-- The C function `stepgen_start_s_curve_dma`. -/
def stepgen_start_s_curve_dma (A : Arith) (P : Platform) (w : World) (ctx : Ptr)
    (freq_start_hz freq_target_hz duty_cycle : Fp) (ramp_steps : ℕ) : World :=
  let ramp_steps := clamp_ramp_steps ramp_steps
  let w := { w with heap := (Function.update w.heap ctx
    ({ w.heap ctx with
         freq_start_hz := freq_start_hz
         freq_target_hz := freq_target_hz
         duty_cycle := duty_cycle
         ramp_steps := ramp_steps } : stepgen_t)) }
  let w := { w with heap := (Function.update w.heap ctx
    ({ w.heap ctx with
         ramp_buf := (build_s_curve_cycles A P.sys_hz (w.heap ctx).ramp_buf
           ramp_steps freq_start_hz freq_target_hz duty_cycle) } : stepgen_t)) }
  let pair := build_constant_cycles_pair A P.sys_hz freq_target_hz duty_cycle
  let w := { w with heap := (Function.update w.heap ctx
    ({ w.heap ctx with
         steady_buf := (fun j =>
           if j = 1 then pair.2 else if j = 0 then pair.1
           else (w.heap ctx).steady_buf j) } : stepgen_t)) }
  let dreq := Dreq.pio_tx (w.heap ctx).pio (w.heap ctx).sm
  let pio_txf := Addr.txf (w.heap ctx).pio (w.heap ctx).sm
  let w := abort_all w ctx
  let w := restart_sm P w ctx
  let c_steady := dma_channel_get_default_config P (int_to_uint (w.heap ctx).dma_steady_ch)
  let c_steady := { c_steady with data_size := P.DMA_SIZE_32 }
  let c_steady := { c_steady with read_increment := true }
  let c_steady := { c_steady with write_increment := false }
  let c_steady := { c_steady with dreq := dreq }
  let c_steady := { c_steady with ring_write := false, ring_size_bits := 3 }
  let w := dma_channel_configure w (int_to_uint (w.heap ctx).dma_steady_ch) c_steady
    pio_txf (.buf ctx .steady_buf) 0xffffffff false
  let c_ramp := dma_channel_get_default_config P (int_to_uint (w.heap ctx).dma_ramp_ch)
  let c_ramp := { c_ramp with data_size := P.DMA_SIZE_32 }
  let c_ramp := { c_ramp with read_increment := true }
  let c_ramp := { c_ramp with write_increment := false }
  let c_ramp := { c_ramp with dreq := dreq }
  let c_ramp := { c_ramp with chain_to := int_to_uint (w.heap ctx).dma_steady_ch }
  dma_channel_configure w (int_to_uint (w.heap ctx).dma_ramp_ch) c_ramp
    pio_txf (.buf ctx .ramp_buf) ((2 * ramp_steps) % 2 ^ 32) true

/-- The C function `stepgen_stop_s_curve_dma`. -/
def stepgen_stop_s_curve_dma (A : Arith) (P : Platform) (w : World) (ctx : Ptr)
    (freq_end_hz : Fp) (ramp_steps : ℕ) : World :=
  let ramp_steps := clamp_ramp_steps ramp_steps
  let f_end := safe_f_hz A freq_end_hz
  let w := { w with heap := (Function.update w.heap ctx
    ({ w.heap ctx with
         stop_buf := (build_s_curve_cycles A P.sys_hz (w.heap ctx).stop_buf
           ramp_steps (w.heap ctx).freq_target_hz f_end (w.heap ctx).duty_cycle) } : stepgen_t)) }
  let dreq := Dreq.pio_tx (w.heap ctx).pio (w.heap ctx).sm
  let pio_txf := Addr.txf (w.heap ctx).pio (w.heap ctx).sm
  let w := abort_all w ctx
  let w := restart_sm P w ctx
  let w := dma_channel_set_irq0_enabled w (int_to_uint (w.heap ctx).dma_stop_ch) true
  let c_stop := dma_channel_get_default_config P (int_to_uint (w.heap ctx).dma_stop_ch)
  let c_stop := { c_stop with data_size := P.DMA_SIZE_32 }
  let c_stop := { c_stop with read_increment := true }
  let c_stop := { c_stop with write_increment := false }
  let c_stop := { c_stop with dreq := dreq }
  dma_channel_configure w (int_to_uint (w.heap ctx).dma_stop_ch) c_stop
    pio_txf (.buf ctx .stop_buf) ((2 * ramp_steps) % 2 ^ 32) true

/-! ## Sequences of calls -/

/-- A call of `stepgen_start_s_curve_dma` or of `stepgen_stop_s_curve_dma` on the instance
at `ctx`, with its arguments. -/
inductive Call where
  | start (ctx : Ptr) (freq_start_hz freq_target_hz duty_cycle : Fp) (ramp_steps : ℕ)
  | stop (ctx : Ptr) (freq_end_hz : Fp) (ramp_steps : ℕ)

/-- The world after one call. -/
def run_call (A : Arith) (P : Platform) (w : World) : Call → World
  | .start ctx fs ft duty r => stepgen_start_s_curve_dma A P w ctx fs ft duty r
  | .stop ctx fe r => stepgen_stop_s_curve_dma A P w ctx fe r

/-- The world after a sequence of calls, first call first. -/
def run_calls (A : Arith) (P : Platform) (w : World) (calls : List Call) : World :=
  calls.foldl (run_call A P) w

/-! ## A concrete platform and world, used by the witnesses -/

/-- A platform with a 125 MHz system clock and 16 DMA channels. -/
def demo_platform : Platform :=
  { sys_hz := 125000000, NUM_DMA_CHANNELS := 16, stepgen_offset_dma_stream := 7,
    DMA_SIZE_32 := 2 }

/-- An instance on state machine 1 of PIO 0 that owns the channels 0, 1 and 2. -/
def demo_instance : stepgen_t :=
  { pio := 0, sm := 1, offset := 3, pin := 16,
    dma_ramp_ch := 0, dma_steady_ch := 1, dma_stop_ch := 2,
    duty_cycle := .fin 0, freq_start_hz := .fin 0, freq_target_hz := .fin 0, ramp_steps := 0,
    ramp_buf := fun _ => 0, stop_buf := fun _ => 0, steady_buf := fun _ => 0 }

/-- A world in which every address holds `demo_instance`, channel 2 is registered for the
instance at address 0, the channels 2 and 5 have a completion pending and nothing runs. -/
def demo_world : World :=
  { heap := fun _ => demo_instance,
    g_dma_ctx_map := fun ch => if ch = 2 then some 0 else none,
    chan := fun _ =>
      { cfg := { data_size := 0, read_increment := false, write_increment := false,
                 dreq := .force, chain_to := 0, ring_write := false, ring_size_bits := 0 },
        write_addr := .null, read_addr := .null, transfer_count := 0, status := .idle },
    claimed := fun ch => decide (ch < 3),
    inte0 := fun _ => false,
    ints0 := 36,
    sm := fun _ => { enabled := true, pc := 0, pins := 1, tx_fifo := [5, 6], rx_fifo := [] },
    irq0_handler := true,
    irq0_enabled := true }

/-! ## Definitions that follow the wording of the specification -/

/-- The split as the specification words it: `high = round(total_cycles * duty)` clamped
to `[1, total_cycles - 1]`, `low = total_cycles - high`. -/
def split_rounded_spec (total_cycles : ℕ) (duty : ℚ) : ℕ × ℕ :=
  let high := max 1 (min (round ((total_cycles : ℚ) * duty)).toNat (total_cycles - 1))
  (high, total_cycles - high)


/-- What the handler does to the state machine of an instance it services: disabled,
pins low, both FIFOs empty. -/
def silence_sm (s : SmState) : SmState :=
  { s with enabled := false, pins := 0, tx_fifo := [], rx_fifo := [] }

/-- The state machine an instance drives. -/
def lane_of (w : World) (ctx : Ptr) : ℕ × ℕ := ((w.heap ctx).pio, (w.heap ctx).sm)

/-- The pending bit of channel `ch` is set, the registry maps `ch` to `ctx`, and `ch` is
the stop channel of `ctx`. -/
def pending_stop (w : World) (ch : ℕ) (ctx : Ptr) : Prop :=
  w.ints0.testBit ch = true ∧ w.g_dma_ctx_map ch = some ctx ∧
    (w.heap ctx).dma_stop_ch = (ch : ℤ)

/-- Channel `ch` is one the handler looks at and services for the instance `ctx`. -/
def serviced (P : Platform) (w : World) (ch : ℕ) (ctx : Ptr) : Prop :=
  ch < P.NUM_DMA_CHANNELS ∧ pending_stop w ch ctx

instance (w : World) (ch : ℕ) (ctx : Ptr) : Decidable (pending_stop w ch ctx) := by
  unfold pending_stop
  infer_instance

instance (P : Platform) (w : World) (ch : ℕ) (ctx : Ptr) : Decidable (serviced P w ch ctx) := by
  unfold serviced
  infer_instance

/-- The period of step `k` in a buffer of pairs: `high + low`, the words `2 * k` and
`2 * k + 1`. -/
def pair_period (words : ℕ → ℕ) (k : ℕ) : ℕ := words (2 * k) + words (2 * k + 1)

/-! ## Lemmas on rounding -/

theorem log2Fuel_spec : ∀ (fuel n : ℕ), n ≤ fuel → 1 ≤ n →
    2 ^ log2Fuel fuel n ≤ n ∧ n < 2 ^ (log2Fuel fuel n + 1) := by
  intro fuel
  induction fuel with
  | zero => intro n h0 h1; omega
  | succ k ih =>
    intro n hn h1
    unfold log2Fuel
    by_cases h2 : 2 ≤ n
    · rw [if_pos h2]
      obtain ⟨ha, hb⟩ := ih (n / 2) (by omega) (by omega)
      constructor
      · rw [pow_succ]; omega
      · rw [pow_succ]; omega
    · rw [if_neg h2]
      have : n = 1 := by omega
      subst this
      norm_num

theorem nlog2_spec (n : ℕ) (h1 : 1 ≤ n) : 2 ^ nlog2 n ≤ n ∧ n < 2 ^ (nlog2 n + 1) :=
  log2Fuel_spec n n le_rfl h1

theorem pow2_pos (k : ℤ) : 0 < pow2 k := by
  unfold pow2; positivity

theorem pow2_add (a b : ℤ) : pow2 (a + b) = pow2 a * pow2 b := by
  unfold pow2; exact zpow_add₀ (by norm_num) a b

theorem pow2_sub (a b : ℤ) : pow2 (a - b) = pow2 a / pow2 b := by
  unfold pow2; exact zpow_sub₀ (by norm_num) a b

theorem pow2_natCast (n : ℕ) : pow2 (n : ℤ) = (2 : ℚ) ^ n := by
  unfold pow2; exact zpow_natCast 2 n

theorem pow2_le_pow2 {a b : ℤ} (h : a ≤ b) : pow2 a ≤ pow2 b := by
  unfold pow2; exact zpow_le_zpow_right₀ (by norm_num) h

theorem pow2_lt_pow2 {a b : ℤ} (h : a < b) : pow2 a < pow2 b := by
  unfold pow2; exact zpow_lt_zpow_right₀ (by norm_num) h

theorem lt_of_pow2_lt_pow2 {a b : ℤ} (h : pow2 a < pow2 b) : a < b := by
  by_contra hc
  exact absurd (pow2_le_pow2 (not_lt.1 hc)) (not_le.2 h)

theorem ilog2_spec (q : ℚ) (hq : q ≠ 0) :
    pow2 (ilog2 q) ≤ |q| ∧ |q| < pow2 (ilog2 q + 1) := by
  have hn1 : 1 ≤ q.num.natAbs := Nat.one_le_iff_ne_zero.2 (by simpa using hq)
  have hd1 : 1 ≤ q.den := q.den_pos
  obtain ⟨na, nb⟩ := nlog2_spec _ hn1
  obtain ⟨da, db⟩ := nlog2_spec _ hd1
  have habs : |q| = (q.num.natAbs : ℚ) / (q.den : ℚ) := by
    conv_lhs => rw [← Rat.num_div_den q]
    rw [abs_div, Nat.abs_cast, Nat.cast_natAbs, Int.cast_abs]
  have hdpos : (0 : ℚ) < q.den := by exact_mod_cast q.den_pos
  have na' : ((2 : ℚ) ^ nlog2 q.num.natAbs) ≤ (q.num.natAbs : ℚ) := by exact_mod_cast na
  have nb' : (q.num.natAbs : ℚ) < (2 : ℚ) ^ (nlog2 q.num.natAbs + 1) := by exact_mod_cast nb
  have da' : ((2 : ℚ) ^ nlog2 q.den) ≤ (q.den : ℚ) := by exact_mod_cast da
  have db' : (q.den : ℚ) < (2 : ℚ) ^ (nlog2 q.den + 1) := by exact_mod_cast db
  have hpa : (0 : ℚ) < 2 ^ nlog2 q.num.natAbs := by positivity
  have hpb : (0 : ℚ) < 2 ^ nlog2 q.den := by positivity
  unfold ilog2
  simp only
  split_ifs with hc
  · refine ⟨hc, ?_⟩
    rw [habs, add_comm, ← add_sub_assoc, pow2_sub, pow2_natCast, add_comm]
    have : pow2 (↑(nlog2 q.num.natAbs) + 1) = (2 : ℚ) ^ (nlog2 q.num.natAbs + 1) := by
      rw [← pow2_natCast]; push_cast; rfl
    rw [this, div_lt_div_iff₀ hdpos hpb]
    calc (q.num.natAbs : ℚ) * 2 ^ nlog2 q.den ≤ (q.num.natAbs : ℚ) * q.den :=
          mul_le_mul_of_nonneg_left da' (by positivity)
      _ < 2 ^ (nlog2 q.num.natAbs + 1) * q.den := mul_lt_mul_of_pos_right nb' hdpos
  · refine ⟨?_, ?_⟩
    · rw [habs]
      have : (↑(nlog2 q.num.natAbs) : ℤ) - ↑(nlog2 q.den) - 1
          = ↑(nlog2 q.num.natAbs) - (↑(nlog2 q.den + 1 : ℕ) : ℤ) := by push_cast; ring
      rw [this, pow2_sub, pow2_natCast, pow2_natCast]
      rw [div_le_div_iff₀ (by positivity) hdpos]
      calc (2 : ℚ) ^ nlog2 q.num.natAbs * q.den ≤ (q.num.natAbs : ℚ) * q.den :=
            mul_le_mul_of_nonneg_right na' hdpos.le
        _ ≤ (q.num.natAbs : ℚ) * 2 ^ (nlog2 q.den + 1) :=
            mul_le_mul_of_nonneg_left db'.le (by positivity)
    · simpa using not_le.1 hc

theorem rne_cases (x : ℚ) : rne x = ⌊x⌋ ∨ (rne x = ⌊x⌋ + 1 ∧ (⌊x⌋ : ℚ) < x) := by
  unfold rne
  simp only
  split_ifs with h1 h2 h3
  · left; rfl
  · right; exact ⟨rfl, by linarith⟩
  · left; rfl
  · right; exact ⟨rfl, by linarith [not_lt.1 h1]⟩

theorem le_rne {x : ℚ} {z : ℤ} (h : (z : ℚ) ≤ x) : z ≤ rne x := by
  have hz : z ≤ ⌊x⌋ := Int.le_floor.2 h
  rcases rne_cases x with h1 | ⟨h1, _⟩ <;> omega

theorem rne_le {x : ℚ} {z : ℤ} (h : x ≤ (z : ℚ)) : rne x ≤ z := by
  rcases rne_cases x with h1 | ⟨h1, h2⟩
  · rw [h1]
    have : (⌊x⌋ : ℚ) ≤ z := le_trans (Int.floor_le x) h
    exact_mod_cast this
  · rw [h1]
    have : (⌊x⌋ : ℚ) < z := lt_of_lt_of_le h2 h
    have : ⌊x⌋ < z := by exact_mod_cast this
    omega

theorem rne_intCast (z : ℤ) : rne (z : ℚ) = z :=
  le_antisymm (rne_le le_rfl) (le_rne le_rfl)

theorem roundFp_eq (F : Format) (q : ℚ) (hq : q ≠ 0) :
    roundFp F q =
      if |(rne (q / pow2 (ulpExp F q)) : ℚ) * pow2 (ulpExp F q)| < pow2 (F.emax + 1)
      then .fin ((rne (q / pow2 (ulpExp F q)) : ℚ) * pow2 (ulpExp F q))
      else .inf (decide (q < 0)) := by
  unfold roundFp ulpExp
  rw [if_neg hq]

/-- Scaling an integer anchor: bounds on `q` by `z * u` carry over to the rounded value. -/
theorem scaled_le_rne {q u : ℚ} (hu : 0 < u) {z : ℤ} (h : (z : ℚ) * u ≤ q) :
    (z : ℚ) * u ≤ (rne (q / u) : ℚ) * u := by
  have h1 : (z : ℚ) ≤ q / u := (le_div_iff₀ hu).2 h
  have h2 : z ≤ rne (q / u) := le_rne h1
  have h3 : (z : ℚ) ≤ (rne (q / u) : ℚ) := by exact_mod_cast h2
  exact mul_le_mul_of_nonneg_right h3 hu.le

theorem rne_scaled_le {q u : ℚ} (hu : 0 < u) {z : ℤ} (h : q ≤ (z : ℚ) * u) :
    (rne (q / u) : ℚ) * u ≤ (z : ℚ) * u := by
  have h1 : q / u ≤ (z : ℚ) := (div_le_iff₀ hu).2 h
  have h2 : rne (q / u) ≤ z := rne_le h1
  have h3 : (rne (q / u) : ℚ) ≤ (z : ℚ) := by exact_mod_cast h2
  exact mul_le_mul_of_nonneg_right h3 hu.le

theorem abs_rne_scaled_le {q u : ℚ} (hu : 0 < u) {z : ℤ} (h : |q| ≤ (z : ℚ) * u) :
    |(rne (q / u) : ℚ) * u| ≤ (z : ℚ) * u := by
  rw [abs_le] at h ⊢
  constructor
  · have := scaled_le_rne hu (z := -z) (q := q) (by push_cast; linarith [h.1])
    push_cast at this
    linarith
  · exact rne_scaled_le hu h.2

theorem ilog2_le_of_abs_le {q : ℚ} (hq : q ≠ 0) {k : ℤ} (h : |q| ≤ pow2 k) : ilog2 q ≤ k := by
  have h1 := (ilog2_spec q hq).1
  by_contra hc
  have h2 : pow2 k < pow2 (ilog2 q) := pow2_lt_pow2 (not_le.1 hc)
  linarith

theorem le_ilog2_of_le_abs {q : ℚ} (hq : q ≠ 0) {k : ℤ} (h : pow2 k ≤ |q|) : k ≤ ilog2 q := by
  have h1 := (ilog2_spec q hq).2
  have h2 : pow2 k < pow2 (ilog2 q + 1) := lt_of_le_of_lt h h1
  have := lt_of_pow2_lt_pow2 h2
  omega

theorem scaled_of_exp_le (m j : ℕ) {k : ℤ} (hk : k ≤ j) :
    ∃ z : ℤ, 0 ≤ z ∧ (m : ℚ) * 2 ^ j = (z : ℚ) * pow2 k := by
  refine ⟨(m : ℤ) * 2 ^ ((j : ℤ) - k).toNat, by positivity, ?_⟩
  have h1 : (((j : ℤ) - k).toNat : ℤ) = (j : ℤ) - k := Int.toNat_of_nonneg (by omega)
  have h2 : (2 : ℚ) ^ ((j : ℤ) - k).toNat = pow2 ((j : ℤ) - k) := by
    rw [← pow2_natCast, h1]
  push_cast
  rw [h2, mul_assoc, ← pow2_add, ← pow2_natCast]
  congr 2
  ring

theorem anchor_le_pow2 (F : Format) {m j : ℕ} (hm : m ≤ 2 ^ F.prec) :
    (m : ℚ) * 2 ^ j ≤ pow2 ((F.prec : ℤ) + j) := by
  rw [pow2_add, pow2_natCast, pow2_natCast]
  have : (m : ℚ) ≤ 2 ^ F.prec := by exact_mod_cast hm
  exact mul_le_mul_of_nonneg_right this (by positivity)

theorem pow2_ilog2_eq (F : Format) (hF : F.ok) {q : ℚ}
    (h : (1 - F.emax) ≤ ilog2 q) :
    pow2 (ilog2 q) = ((2 ^ (F.prec - 1) : ℤ) : ℚ) * pow2 (ulpExp F q) := by
  unfold ulpExp
  rw [max_eq_left h]
  push_cast
  rw [← pow2_natCast, ← pow2_add]
  congr 1
  have : ((F.prec - 1 : ℕ) : ℤ) = (F.prec : ℤ) - 1 := by
    have := hF.1
    omega
  rw [this]; ring

/-- A value `m * 2 ^ j` with `m ≤ 2 ^ prec` that bounds `|q|` is a multiple of the quantum of `q`. -/
theorem anchor_scaled_of_abs_le (F : Format) (hF : F.ok) {q : ℚ} (hq : q ≠ 0) {m j : ℕ}
    (hm : m ≤ 2 ^ F.prec) (h : |q| ≤ (m : ℚ) * 2 ^ j) :
    ∃ z : ℤ, 0 ≤ z ∧ (m : ℚ) * 2 ^ j = (z : ℚ) * pow2 (ulpExp F q) := by
  have hx := anchor_le_pow2 F (j := j) hm
  have he : ilog2 q ≤ (F.prec : ℤ) + j := ilog2_le_of_abs_le hq (le_trans h hx)
  have hp1 := hF.1
  have hp2 := hF.2
  by_cases hk : ulpExp F q ≤ j
  · exact scaled_of_exp_le m j hk
  · have hk' : (j : ℤ) < ulpExp F q := not_le.1 hk
    have hmax : (1 - F.emax) ≤ ilog2 q := by
      unfold ulpExp at hk'
      rcases le_total (ilog2 q) (1 - F.emax) with hc | hc
      · rw [max_eq_right hc] at hk'; omega
      · exact hc
    have hee : ilog2 q = (F.prec : ℤ) + j := by
      unfold ulpExp at hk'
      rw [max_eq_left hmax] at hk'
      omega
    have h1 := (ilog2_spec q hq).1
    rw [hee] at h1
    have hxe : (m : ℚ) * 2 ^ j = pow2 ((F.prec : ℤ) + j) := le_antisymm hx (le_trans h1 h)
    refine ⟨2 ^ (F.prec - 1), by positivity, ?_⟩
    rw [hxe, ← hee]
    exact pow2_ilog2_eq F hF hmax

/-- A positive value `m * 2 ^ j` with `m ≤ 2 ^ prec` below `q` stays below the rounded `q`. -/
theorem anchor_le_scaled_rne (F : Format) (hF : F.ok) {q : ℚ} (hq : 0 < q) {m j : ℕ}
    (hm : m ≤ 2 ^ F.prec) (h : (m : ℚ) * 2 ^ j ≤ q) :
    (m : ℚ) * 2 ^ j ≤ (rne (q / pow2 (ulpExp F q)) : ℚ) * pow2 (ulpExp F q) := by
  have hx := anchor_le_pow2 F (j := j) hm
  have hp1 := hF.1
  have hp2 := hF.2
  have hu := pow2_pos (ulpExp F q)
  by_cases hk : ulpExp F q ≤ j
  · obtain ⟨z, _, hz⟩ := scaled_of_exp_le m j hk
    rw [hz] at h ⊢
    exact scaled_le_rne hu h
  · have hk' : (j : ℤ) < ulpExp F q := not_le.1 hk
    have hmax : (1 - F.emax) ≤ ilog2 q := by
      unfold ulpExp at hk'
      rcases le_total (ilog2 q) (1 - F.emax) with hc | hc
      · rw [max_eq_right hc] at hk'; omega
      · exact hc
    have hee : (F.prec : ℤ) + j ≤ ilog2 q := by
      unfold ulpExp at hk'
      rw [max_eq_left hmax] at hk'
      omega
    have h1 := (ilog2_spec q hq.ne').1
    rw [abs_of_pos hq, pow2_ilog2_eq F hF hmax] at h1
    have h2 := scaled_le_rne hu h1
    rw [← pow2_ilog2_eq F hF hmax] at h2
    exact le_trans hx (le_trans (pow2_le_pow2 hee) h2)

theorem roundFp_zero (F : Format) : roundFp F 0 = .fin 0 := by
  unfold roundFp
  rw [if_pos rfl]

/-- A value that is an integer multiple of its own quantum and below the overflow
threshold rounds to itself. -/
theorem roundFp_of_scaled (F : Format) {q : ℚ} {z : ℤ}
    (hz : q = (z : ℚ) * pow2 (ulpExp F q)) (hfin : |q| < pow2 (F.emax + 1)) :
    roundFp F q = .fin q := by
  by_cases hq : q = 0
  · rw [hq]; exact roundFp_zero F
  · have hu := pow2_pos (ulpExp F q)
    have h1 : q / pow2 (ulpExp F q) = (z : ℚ) := by
      rw [div_eq_iff hu.ne']; exact hz
    rw [roundFp_eq F q hq, h1, rne_intCast, ← hz, if_pos hfin]

theorem pow2_lt_overflow (F : Format) {m j : ℕ} (hm : m ≤ 2 ^ F.prec)
    (hj : (F.prec : ℤ) + j ≤ F.emax) : (m : ℚ) * 2 ^ j < pow2 (F.emax + 1) :=
  lt_of_le_of_lt (anchor_le_pow2 F hm) (pow2_lt_pow2 (by omega))

/-- Rounding never moves a value across a bound of the form `m * 2 ^ j`, `m ≤ 2 ^ prec`. -/
theorem roundFp_abs_le (F : Format) (hF : F.ok) {q : ℚ} {m j : ℕ} (hm : m ≤ 2 ^ F.prec)
    (hj : (F.prec : ℤ) + j ≤ F.emax) (h : |q| ≤ (m : ℚ) * 2 ^ j) :
    ∃ r, roundFp F q = .fin r ∧ |r| ≤ (m : ℚ) * 2 ^ j := by
  by_cases hq : q = 0
  · refine ⟨0, by rw [hq]; exact roundFp_zero F, ?_⟩
    rw [abs_zero]; positivity
  · obtain ⟨z, _, hz⟩ := anchor_scaled_of_abs_le F hF hq hm h
    have hu := pow2_pos (ulpExp F q)
    have hb := abs_rne_scaled_le hu (q := q) (z := z) (by rw [← hz]; exact h)
    rw [← hz] at hb
    refine ⟨_, ?_, hb⟩
    rw [roundFp_eq F q hq, if_pos (lt_of_le_of_lt hb (pow2_lt_overflow F hm hj))]

theorem roundFp_ge (F : Format) (hF : F.ok) {q : ℚ} (hq : 0 < q) {m j : ℕ}
    (hm : m ≤ 2 ^ F.prec) (h : (m : ℚ) * 2 ^ j ≤ q) :
    roundFp F q = .inf false ∨ ∃ r, roundFp F q = .fin r ∧ (m : ℚ) * 2 ^ j ≤ r := by
  rw [roundFp_eq F q hq.ne']
  split_ifs with hc
  · exact Or.inr ⟨_, rfl, anchor_le_scaled_rne F hF hq hm h⟩
  · left
    rw [decide_eq_false (not_lt.2 hq.le)]

theorem roundFp_nonneg (F : Format) {q : ℚ} (hq : 0 ≤ q) :
    roundFp F q = .inf false ∨ ∃ r, roundFp F q = .fin r ∧ 0 ≤ r := by
  by_cases h0 : q = 0
  · exact Or.inr ⟨0, by rw [h0]; exact roundFp_zero F, le_rfl⟩
  · rw [roundFp_eq F q h0]
    split_ifs with hc
    · refine Or.inr ⟨_, rfl, ?_⟩
      have := scaled_le_rne (pow2_pos (ulpExp F q)) (q := q) (z := 0) (by simpa using hq)
      simpa using this
    · left
      rw [decide_eq_false (not_lt.2 hq)]

theorem roundFp_nonpos (F : Format) {q : ℚ} (hq : q ≤ 0) :
    roundFp F q = .inf true ∨ ∃ r, roundFp F q = .fin r ∧ r ≤ 0 := by
  by_cases h0 : q = 0
  · exact Or.inr ⟨0, by rw [h0]; exact roundFp_zero F, le_rfl⟩
  · rw [roundFp_eq F q h0]
    split_ifs with hc
    · refine Or.inr ⟨_, rfl, ?_⟩
      have := rne_scaled_le (pow2_pos (ulpExp F q)) (q := q) (z := 0) (by simpa using hq)
      simpa using this
    · left
      rw [decide_eq_true (lt_of_le_of_ne hq h0)]

/-- Values `m * 2 ^ j` with `m ≤ 2 ^ prec` in range are representable. -/
theorem roundFp_anchor (F : Format) (hF : F.ok) {m j : ℕ} (hm : m ≤ 2 ^ F.prec)
    (hj : (F.prec : ℤ) + j ≤ F.emax) :
    roundFp F ((m : ℚ) * 2 ^ j) = .fin ((m : ℚ) * 2 ^ j) := by
  have hx0 : (0 : ℚ) ≤ (m : ℚ) * 2 ^ j := by positivity
  obtain ⟨r, hr, hb⟩ := roundFp_abs_le F hF hm hj (q := (m : ℚ) * 2 ^ j) (by rw [abs_of_nonneg hx0])
  rcases eq_or_lt_of_le hx0 with h0 | hpos
  · rw [← h0]; exact roundFp_zero F
  · rcases roundFp_ge F hF hpos hm le_rfl with h1 | ⟨r', hr', hb'⟩
    · rw [h1] at hr; cases hr
    · rw [hr] at hr'
      cases hr'
      have : r = (m : ℚ) * 2 ^ j := le_antisymm (le_trans (le_abs_self r) hb) hb'
      rw [hr, this]

theorem roundFp_natCast (F : Format) (hF : F.ok) {n : ℕ} (hn : n ≤ 2 ^ F.prec) :
    roundFp F (n : ℚ) = .fin (n : ℚ) := by
  have := roundFp_anchor F hF (j := 0) hn (by have := hF.2; simpa using this)
  simpa using this

theorem int_scaled_of_exp_le (Z : ℤ) {k k' : ℤ} (hk : k' ≤ k) :
    ∃ z : ℤ, (Z : ℚ) * pow2 k = (z : ℚ) * pow2 k' := by
  refine ⟨Z * 2 ^ (k - k').toNat, ?_⟩
  have h1 : ((k - k').toNat : ℤ) = k - k' := Int.toNat_of_nonneg (by omega)
  have h2 : (2 : ℚ) ^ (k - k').toNat = pow2 (k - k') := by
    rw [← pow2_natCast, h1]
  push_cast
  rw [h2, mul_assoc, ← pow2_add]
  congr 2
  ring

/-- Rounding is idempotent: a rounded value rounds to itself. -/
theorem roundFp_idem (F : Format) (hF : F.ok) {q r : ℚ} (h : roundFp F q = .fin r) :
    roundFp F r = .fin r := by
  by_cases hq : q = 0
  · rw [hq, roundFp_zero] at h
    cases h
    exact roundFp_zero F
  by_cases hr0 : r = 0
  · rw [hr0]; exact roundFp_zero F
  rw [roundFp_eq F q hq] at h
  split_ifs at h with hfin
  have hr : (rne (q / pow2 (ulpExp F q)) : ℚ) * pow2 (ulpExp F q) = r := by
    cases h; rfl
  rw [hr] at hfin
  have hp1 := hF.1
  have hp2 := hF.2
  have hu := pow2_pos (ulpExp F q)
  -- the magnitude of `r` is at most `2 ^ prec` quanta
  have hqb : |q| ≤ ((2 ^ F.prec : ℤ) : ℚ) * pow2 (ulpExp F q) := by
    have h1 := (ilog2_spec q hq).2
    have h2 : pow2 (ilog2 q + 1) ≤ pow2 ((F.prec : ℤ) + ulpExp F q) := by
      apply pow2_le_pow2
      unfold ulpExp
      have := le_max_left (ilog2 q) (1 - F.emax)
      omega
    have h3 : pow2 ((F.prec : ℤ) + ulpExp F q) = 2 ^ F.prec * pow2 (ulpExp F q) := by
      rw [pow2_add, pow2_natCast]
    rw [h3] at h2
    push_cast
    linarith
  have hrb : |r| ≤ pow2 ((F.prec : ℤ) + ulpExp F q) := by
    have := abs_rne_scaled_le hu hqb
    rw [hr] at this
    rw [pow2_add, pow2_natCast]
    push_cast at this
    exact this
  have he' : ilog2 r ≤ (F.prec : ℤ) + ulpExp F q := ilog2_le_of_abs_le hr0 hrb
  have hEmin : (1 - F.emax) - ((F.prec : ℤ) - 1) ≤ ulpExp F q := by
    unfold ulpExp
    have := le_max_right (ilog2 q) (1 - F.emax)
    omega
  by_cases hcase : ulpExp F r ≤ ulpExp F q
  · obtain ⟨z, hz⟩ := int_scaled_of_exp_le (rne (q / pow2 (ulpExp F q))) hcase
    rw [hr] at hz
    exact roundFp_of_scaled F hz hfin
  · have hk : ulpExp F q < ulpExp F r := not_le.1 hcase
    have hmax : (1 - F.emax) ≤ ilog2 r := by
      unfold ulpExp at hk
      rcases le_total (ilog2 r) (1 - F.emax) with hc | hc
      · rw [max_eq_right hc] at hk
        have := le_max_right (ilog2 q) (1 - F.emax)
        omega
      · exact hc
    have hee : ilog2 r = (F.prec : ℤ) + ulpExp F q := by
      have : ulpExp F r = ilog2 r - ((F.prec : ℤ) - 1) := by
        unfold ulpExp; rw [max_eq_left hmax]
      omega
    have habs : |r| = pow2 (ilog2 r) := by
      apply le_antisymm
      · rw [hee]; exact hrb
      · exact (ilog2_spec r hr0).1
    rw [pow2_ilog2_eq F hF hmax] at habs
    rcases abs_cases r with ⟨h1, _⟩ | ⟨h1, _⟩
    · rw [h1] at habs
      exact roundFp_of_scaled F habs hfin
    · have : r = ((-(2 ^ (F.prec - 1)) : ℤ) : ℚ) * pow2 (ulpExp F r) := by
        push_cast
        push_cast at habs
        linarith
      exact roundFp_of_scaled F this hfin

/-! ## Lemmas on the pure functions -/

theorem binary32_ok : binary32.ok := by
  unfold Format.ok binary32; decide

theorem binary64_ok : binary64.ok := by
  unfold Format.ok binary64; decide

theorem split_core (A : Arith) (total_cycles : ℕ) (duty : Fp) (h3 : 3 ≤ total_cycles) :
    1 ≤ (split_total_cycles A total_cycles duty).1 ∧
    (split_total_cycles A total_cycles duty).1 ≤ total_cycles - 1 ∧
    (split_total_cycles A total_cycles duty).2
      = total_cycles - (split_total_cycles A total_cycles duty).1 := by
  unfold split_total_cycles
  simp only [if_neg (not_lt.2 h3)]
  generalize Fp.toUInt 32 (Fp.mul A.rf (u32_to_float A total_cycles) duty) = h
  split_ifs <;> simp <;> omega

theorem clamp_u32_range (v lo hi : ℕ) (h : lo ≤ hi) (hhi : hi < 2 ^ 32) :
    lo ≤ clamp_u32 v lo hi ∧ clamp_u32 v lo hi ≤ hi := by
  unfold clamp_u32
  split_ifs with h1 h2
  · exact ⟨le_rfl, h⟩
  · exact ⟨h, le_rfl⟩
  · have : v % 2 ^ 32 = v := Nat.mod_eq_of_lt (by omega)
    rw [this]; omega

theorem total_cycles_of_range (A : Arith) (sys_hz : ℕ) (f : Fp) :
    3 ≤ total_cycles_of A sys_hz f ∧ total_cycles_of A sys_hz f ≤ 0x7fffffff := by
  unfold total_cycles_of
  exact clamp_u32_range _ _ _ (by norm_num) (by norm_num)

theorem store_pair_apply (o : ℕ → ℕ) (i : ℕ) (p : ℕ × ℕ) (j : ℕ) :
    store_pair o i p j
      = if j = (2 * i + 1) % 2 ^ 32 then p.2 else if j = (2 * i + 0) % 2 ^ 32 then p.1 else o j :=
  rfl

/-- The buffer after the first `n` iterations of a loop storing the pair `g i` at step `i`. -/
theorem fill_get (g : ℕ → ℕ × ℕ) (out : ℕ → ℕ) :
    ∀ n, n ≤ 2 ^ 31 → ∀ j,
      (List.range n).foldl (fun o i => store_pair o i (g i)) out j
        = if j < 2 * n then (if j % 2 = 0 then (g (j / 2)).1 else (g (j / 2)).2) else out j := by
  intro n
  induction n with
  | zero => intro _ j; simp
  | succ n ih =>
    intro hn j
    rw [List.range_succ, List.foldl_append]
    simp only [List.foldl_cons, List.foldl_nil]
    have h1 : (2 * n + 1) % 2 ^ 32 = 2 * n + 1 := Nat.mod_eq_of_lt (by omega)
    have h0 : (2 * n + 0) % 2 ^ 32 = 2 * n := Nat.mod_eq_of_lt (by omega)
    rw [store_pair_apply, h1, h0, ih (by omega) j]
    by_cases hj1 : j = 2 * n + 1
    · subst hj1
      have e1 : ¬ (2 * n + 1) % 2 = 0 := by omega
      have e2 : (2 * n + 1) / 2 = n := by omega
      rw [if_pos rfl, if_pos (by omega), if_neg e1, e2]
    · by_cases hj0 : j = 2 * n
      · subst hj0
        have e1 : (2 * n) % 2 = 0 := by omega
        have e2 : (2 * n) / 2 = n := by omega
        rw [if_neg hj1, if_pos rfl, if_pos (by omega), if_pos e1, e2]
      · rw [if_neg hj1, if_neg hj0]
        by_cases hlt : j < 2 * n
        · rw [if_pos hlt, if_pos (show j < 2 * (n + 1) by omega)]
        · rw [if_neg hlt, if_neg (show ¬ j < 2 * (n + 1) by omega)]

theorem build_s_curve_cycles_get (A : Arith) (sys_hz : ℕ) (out : ℕ → ℕ) (steps : ℕ)
    (f0 f1 duty : Fp) (h2 : 2 ≤ steps) (hmax : steps ≤ 2 ^ 31) (j : ℕ) :
    build_s_curve_cycles A sys_hz out steps f0 f1 duty j
      = if j < 2 * steps then
          (if j % 2 = 0 then (s_curve_pair A sys_hz steps f0 f1 duty (j / 2)).1
           else (s_curve_pair A sys_hz steps f0 f1 duty (j / 2)).2)
        else out j := by
  unfold build_s_curve_cycles
  simp only [if_neg (not_lt.2 h2)]
  exact fill_get _ out steps hmax j

theorem build_s_curve_cycles_high (A : Arith) (sys_hz : ℕ) (out : ℕ → ℕ) (steps : ℕ)
    (f0 f1 duty : Fp) (h2 : 2 ≤ steps) (hmax : steps ≤ 2 ^ 31) (k : ℕ) (hk : k < steps) :
    build_s_curve_cycles A sys_hz out steps f0 f1 duty (2 * k)
      = (s_curve_pair A sys_hz steps f0 f1 duty k).1 := by
  rw [build_s_curve_cycles_get A sys_hz out steps f0 f1 duty h2 hmax, if_pos (by omega),
    if_pos (by omega)]
  congr 3
  omega

theorem build_s_curve_cycles_low (A : Arith) (sys_hz : ℕ) (out : ℕ → ℕ) (steps : ℕ)
    (f0 f1 duty : Fp) (h2 : 2 ≤ steps) (hmax : steps ≤ 2 ^ 31) (k : ℕ) (hk : k < steps) :
    build_s_curve_cycles A sys_hz out steps f0 f1 duty (2 * k + 1)
      = (s_curve_pair A sys_hz steps f0 f1 duty k).2 := by
  rw [build_s_curve_cycles_get A sys_hz out steps f0 f1 duty h2 hmax, if_pos (by omega),
    if_neg (by omega)]
  congr 3
  omega

theorem max_steps_le : STEPGEN_DMA_MAX_STEPS ≤ 2 ^ 31 := by
  unfold STEPGEN_DMA_MAX_STEPS; norm_num

/-! ## The claims -/

/-- C1: for every `total_cycles` with `3 ≤ total_cycles ≤ 0x7fffffff` and every duty in
`[0, 1]`, whatever the rounding of the arithmetic, `split_total_cycles` returns `high` and
`low` with `1 ≤ high ≤ total_cycles - 1`, `low = total_cycles - high`, hence
`high + low = total_cycles` and `low ≥ 1`; and `total_cycles = 3` with duty `0.999f` gives
`high = 2`, `low = 1`. -/
theorem split_total_cycles_range (A : Arith) (total_cycles : ℕ) (d : ℚ)
    (h3 : 3 ≤ total_cycles) (_hmax : total_cycles ≤ 0x7fffffff) (_hd0 : 0 ≤ d) (_hd1 : d ≤ 1) :
    (1 ≤ (split_total_cycles A total_cycles (.fin d)).1 ∧
     (split_total_cycles A total_cycles (.fin d)).1 ≤ total_cycles - 1 ∧
     (split_total_cycles A total_cycles (.fin d)).2
       = total_cycles - (split_total_cycles A total_cycles (.fin d)).1 ∧
     (split_total_cycles A total_cycles (.fin d)).1
       + (split_total_cycles A total_cycles (.fin d)).2 = total_cycles ∧
     1 ≤ (split_total_cycles A total_cycles (.fin d)).2) ∧
    split_total_cycles ieee 3 (ieee.rf (999 / 1000)) = (2, 1) := by
  obtain ⟨h1, h2, h4⟩ := split_core A total_cycles (.fin d) h3
  refine ⟨⟨h1, h2, h4, ?_, ?_⟩, by decide!⟩ <;> omega

/-- Witness of C1: the binary32 split of 1000 cycles at duty `0.25`. -/
theorem split_total_cycles_range_witness :
    (1 ≤ (split_total_cycles ieee 1000 (.fin (1 / 4))).1 ∧
     (split_total_cycles ieee 1000 (.fin (1 / 4))).1 ≤ 1000 - 1 ∧
     (split_total_cycles ieee 1000 (.fin (1 / 4))).2
       = 1000 - (split_total_cycles ieee 1000 (.fin (1 / 4))).1 ∧
     (split_total_cycles ieee 1000 (.fin (1 / 4))).1
       + (split_total_cycles ieee 1000 (.fin (1 / 4))).2 = 1000 ∧
     1 ≤ (split_total_cycles ieee 1000 (.fin (1 / 4))).2) ∧
    split_total_cycles ieee 3 (ieee.rf (999 / 1000)) = (2, 1) :=
  split_total_cycles_range ieee 1000 (1 / 4) (by decide) (by decide) (by norm_num) (by norm_num)

theorem roundFp_range (F : Format) (hF : F.ok) {q : ℚ} {m j : ℕ} (hm : m ≤ 2 ^ F.prec)
    (hj : (F.prec : ℤ) + j ≤ F.emax) (h0 : 0 ≤ q) (h : q ≤ (m : ℚ) * 2 ^ j) :
    ∃ r, roundFp F q = .fin r ∧ 0 ≤ r ∧ r ≤ (m : ℚ) * 2 ^ j := by
  obtain ⟨r, hr, hb⟩ := roundFp_abs_le F hF hm hj (q := q) (by rw [abs_of_nonneg h0]; exact h)
  refine ⟨r, hr, ?_, le_trans (le_abs_self r) hb⟩
  rcases roundFp_nonneg F h0 with h1 | ⟨r', hr', h2⟩
  · rw [h1] at hr; cases hr
  · rw [hr] at hr'; cases hr'; exact h2

/-- Conversion of a cycle count up to `2 ^ 31` to `float` is finite and stays in range. -/
theorem u32_to_float_range {n : ℕ} (hn : n ≤ 2 ^ 31) :
    ∃ x, u32_to_float ieee n = .fin x ∧ 0 ≤ x ∧ x ≤ 2 ^ 31 := by
  have h := roundFp_range binary32 binary32_ok (q := (n : ℚ)) (m := 1) (j := 31)
    (by unfold binary32; norm_num) (by unfold binary32; norm_num) (by positivity)
    (by have : (n : ℚ) ≤ ((2 ^ 31 : ℕ) : ℚ) := by exact_mod_cast hn
        rw [Nat.cast_one, one_mul]
        exact_mod_cast this)
  simpa [u32_to_float, ieee] using h

theorem toUInt_fin_of_le (bits : ℕ) {p : ℚ} {B : ℕ} (hB : B ≤ 2 ^ bits - 1) (hp : p ≤ B) :
    Fp.toUInt bits (.fin p) = ⌊p⌋.toNat := by
  unfold Fp.toUInt
  apply min_eq_left
  have h1 : ⌊p⌋ ≤ (B : ℤ) := by
    have : (⌊p⌋ : ℚ) ≤ (B : ℚ) := le_trans (Int.floor_le p) hp
    exact_mod_cast this
  have h2 : ⌊p⌋.toNat ≤ B := by omega
  exact le_trans h2 hB

theorem clamp_high_eq (h total : ℕ) (h3 : 3 ≤ total) :
    (if (if h < 1 then 1 else h) ≥ total then total - 1 else (if h < 1 then 1 else h))
      = max 1 (min h (total - 1)) := by
  split_ifs <;> omega

theorem split_total_cycles_fst (A : Arith) (total_cycles : ℕ) (duty : Fp) (h3 : 3 ≤ total_cycles) :
    (split_total_cycles A total_cycles duty).1
      = max 1 (min (Fp.toUInt 32 (Fp.mul A.rf (u32_to_float A total_cycles) duty))
          (total_cycles - 1)) := by
  unfold split_total_cycles
  simp only [if_neg (not_lt.2 h3)]
  exact clamp_high_eq _ _ h3

/-- C2, as amended: for `3 ≤ total_cycles ≤ 0x7fffffff` and a duty in `[0, 1]` the float
product `(float)total_cycles * duty` is finite and `high` is that product truncated toward
zero (not rounded to nearest), then clamped to `[1, total_cycles - 1]`, and
`low = total_cycles - high`; over exact arithmetic `high` is `⌊total_cycles * duty⌋`
clamped; `total_cycles = 10` with duty `0.26f` gives `high = 2`, `low = 8`. -/
theorem split_total_cycles_truncates (total_cycles : ℕ) (d : ℚ)
    (h3 : 3 ≤ total_cycles) (hmax : total_cycles ≤ 0x7fffffff) (hd0 : 0 ≤ d) (hd1 : d ≤ 1) :
    (∃ x p : ℚ, u32_to_float ieee total_cycles = .fin x ∧
        Fp.mul ieee.rf (.fin x) (.fin d) = .fin p ∧ 0 ≤ p ∧
        (split_total_cycles ieee total_cycles (.fin d)).1
          = max 1 (min ⌊p⌋.toNat (total_cycles - 1))) ∧
    (split_total_cycles ieee total_cycles (.fin d)).2
      = total_cycles - (split_total_cycles ieee total_cycles (.fin d)).1 ∧
    (split_total_cycles exact total_cycles (.fin d)).1
      = max 1 (min ⌊(total_cycles : ℚ) * d⌋.toNat (total_cycles - 1)) ∧
    split_total_cycles ieee 10 (ieee.rf (26 / 100)) = (2, 8) := by
  refine ⟨?_, (split_core ieee total_cycles (.fin d) h3).2.2, ?_, by decide!⟩
  · obtain ⟨x, hx, hx0, hx1⟩ := u32_to_float_range (n := total_cycles) (by omega)
    have hq0 : 0 ≤ x * d := mul_nonneg hx0 hd0
    have hq1 : x * d ≤ ((1 : ℕ) : ℚ) * 2 ^ 31 := by
      have : x * d ≤ x * 1 := mul_le_mul_of_nonneg_left hd1 hx0
      simp only [Nat.cast_one, one_mul]
      linarith
    obtain ⟨p, hp, hp0, hp1⟩ := roundFp_range binary32 binary32_ok (q := x * d) (m := 1) (j := 31)
      (by unfold binary32; norm_num) (by unfold binary32; norm_num) hq0 hq1
    have hmul : Fp.mul ieee.rf (.fin x) (.fin d) = .fin p := hp
    refine ⟨x, p, hx, hmul, hp0, ?_⟩
    rw [split_total_cycles_fst ieee total_cycles (.fin d) h3, hx, hmul,
      toUInt_fin_of_le 32 (B := 2 ^ 31) (by norm_num) (by push_cast; simpa using hp1)]
  · rw [split_total_cycles_fst exact total_cycles (.fin d) h3]
    have hq1 : (total_cycles : ℚ) * d ≤ ((2 ^ 31 : ℕ) : ℚ) := by
      have h1 : (total_cycles : ℚ) ≤ ((2 ^ 31 : ℕ) : ℚ) := by
        exact_mod_cast (show total_cycles ≤ 2 ^ 31 by omega)
      have h2 : (total_cycles : ℚ) * d ≤ (total_cycles : ℚ) * 1 :=
        mul_le_mul_of_nonneg_left hd1 (by positivity)
      linarith
    have : Fp.mul exact.rf (u32_to_float exact total_cycles) (.fin d)
        = .fin ((total_cycles : ℚ) * d) := rfl
    rw [this, toUInt_fin_of_le 32 (B := 2 ^ 31) (by norm_num) hq1]

/-- Witness of the amended C2: 1000 cycles at duty `0.25`. -/
theorem split_total_cycles_truncates_witness :
    (∃ x p : ℚ, u32_to_float ieee 1000 = .fin x ∧
        Fp.mul ieee.rf (.fin x) (.fin (1 / 4)) = .fin p ∧ 0 ≤ p ∧
        (split_total_cycles ieee 1000 (.fin (1 / 4))).1
          = max 1 (min ⌊p⌋.toNat (1000 - 1))) ∧
    (split_total_cycles ieee 1000 (.fin (1 / 4))).2
      = 1000 - (split_total_cycles ieee 1000 (.fin (1 / 4))).1 ∧
    (split_total_cycles exact 1000 (.fin (1 / 4))).1
      = max 1 (min ⌊((1000 : ℕ) : ℚ) * (1 / 4)⌋.toNat (1000 - 1)) ∧
    split_total_cycles ieee 10 (ieee.rf (26 / 100)) = (2, 8) :=
  split_total_cycles_truncates 1000 (1 / 4) (by decide) (by decide) (by norm_num) (by norm_num)

/-- Counterexample to C2 as stated: with `total_cycles = 10` and duty `0.26f` the code
returns `high = 2`, `low = 8`, while rounding `2.6` to nearest gives `high = 3`, `low = 7`. -/
theorem split_total_cycles_not_rounded :
    split_total_cycles ieee 10 (ieee.rf (26 / 100)) = (2, 8) ∧
    split_total_cycles exact 10 (.fin (26 / 100)) = (2, 8) ∧
    split_rounded_spec 10 (26 / 100) = (3, 7) ∧
    split_total_cycles ieee 10 (ieee.rf (26 / 100)) ≠ split_rounded_spec 10 (26 / 100) := by
  refine ⟨by decide!, by decide!, by decide!, by decide!⟩

theorem toUInt_fin (bits : ℕ) (q : ℚ) :
    Fp.toUInt bits (.fin q) = min ⌊q⌋.toNat (2 ^ bits - 1) := rfl

theorem toUInt_inf_false (bits : ℕ) : Fp.toUInt bits (.inf false) = 2 ^ bits - 1 := rfl

theorem u32_to_float_exact {n : ℕ} (hn : n ≤ 2 ^ 24) : u32_to_float ieee n = .fin (n : ℚ) :=
  roundFp_natCast binary32 binary32_ok (by unfold binary32; exact hn)
/-- The binary32 constant `0.1f`. -/
theorem ieee_tenth : ieee.rf (1 / 10) = .fin (13421773 / 134217728) := by decide!

theorem safe_f_hz_not_below (f : Fp) :
    Fp.lt (safe_f_hz ieee f) (.fin (1 / 10)) = false ∧ safe_f_hz ieee f ≠ .fin 0 := by
  have key : Fp.lt (safe_f_hz ieee f) (.fin (1 / 10)) = false := by
    unfold safe_f_hz
    rw [ieee_tenth]
    by_cases h : Fp.lt f (.fin (13421773 / 134217728)) = true
    · rw [if_pos h]
      show decide ((13421773 / 134217728 : ℚ) < 1 / 10) = false
      rw [decide_eq_false_iff_not]
      norm_num
    · rw [if_neg h]
      cases f with
      | nan => rfl
      | inf s =>
        cases s
        · rfl
        · exact absurd rfl h
      | fin v =>
        have hv : ¬ v < 13421773 / 134217728 := by
          intro hc
          exact h (decide_eq_true hc)
        show decide (v < 1 / 10) = false
        rw [decide_eq_false_iff_not]
        intro hc
        apply hv
        have : (1 / 10 : ℚ) < 13421773 / 134217728 := by norm_num
        linarith
  refine ⟨key, ?_⟩
  intro h0
  rw [h0] at key
  have : Fp.lt (.fin 0) (.fin (1 / 10)) = true := by
    show decide ((0 : ℚ) < 1 / 10) = true
    rw [decide_eq_true_iff]
    norm_num
  rw [this] at key
  cases key

theorem s_curve_pair_range (A : Arith) (sys_hz steps : ℕ) (f0 f1 duty : Fp) (k : ℕ) :
    (s_curve_pair A sys_hz steps f0 f1 duty k).1 + (s_curve_pair A sys_hz steps f0 f1 duty k).2
      = total_cycles_of A sys_hz (s_curve_f_hz A steps f0 f1 k) ∧
    1 ≤ (s_curve_pair A sys_hz steps f0 f1 duty k).1 ∧
    1 ≤ (s_curve_pair A sys_hz steps f0 f1 duty k).2 := by
  obtain ⟨h3, _⟩ := total_cycles_of_range A sys_hz (s_curve_f_hz A steps f0 f1 k)
  obtain ⟨h1, h2, h4⟩ := split_core A _ duty h3
  unfold s_curve_pair
  omega

/-- C4: for every `steps` in `[2, MAX_STEPS]`, every duty in `[0, 1]` and every pair of
frequencies `f0`, `f1` (zero, negative, infinite and NaN included), whatever the rounding
of the arithmetic, each of the `steps` pairs `(high, low)` written by
`build_s_curve_cycles` has `3 ≤ high + low ≤ 0x7fffffff`, `high ≥ 1` and `low ≥ 1`, where
`high + low` is the clamped cycle count of the step; in binary32 the frequency used as
divisor is never below 0.1 Hz and never zero. -/
theorem build_s_curve_cycles_pair_invariant (A : Arith) (sys_hz : ℕ) (out_words : ℕ → ℕ)
    (steps : ℕ) (f0_hz f1_hz : Fp) (d : ℚ) (k : ℕ)
    (h2 : 2 ≤ steps) (hmax : steps ≤ STEPGEN_DMA_MAX_STEPS) (_hd0 : 0 ≤ d) (_hd1 : d ≤ 1)
    (hk : k < steps) :
    3 ≤ build_s_curve_cycles A sys_hz out_words steps f0_hz f1_hz (.fin d) (2 * k)
        + build_s_curve_cycles A sys_hz out_words steps f0_hz f1_hz (.fin d) (2 * k + 1) ∧
    build_s_curve_cycles A sys_hz out_words steps f0_hz f1_hz (.fin d) (2 * k)
        + build_s_curve_cycles A sys_hz out_words steps f0_hz f1_hz (.fin d) (2 * k + 1)
      ≤ 0x7fffffff ∧
    1 ≤ build_s_curve_cycles A sys_hz out_words steps f0_hz f1_hz (.fin d) (2 * k) ∧
    1 ≤ build_s_curve_cycles A sys_hz out_words steps f0_hz f1_hz (.fin d) (2 * k + 1) ∧
    build_s_curve_cycles A sys_hz out_words steps f0_hz f1_hz (.fin d) (2 * k)
        + build_s_curve_cycles A sys_hz out_words steps f0_hz f1_hz (.fin d) (2 * k + 1)
      = total_cycles_of A sys_hz (s_curve_f_hz A steps f0_hz f1_hz k) ∧
    Fp.lt (safe_f_hz ieee (s_curve_f_hz ieee steps f0_hz f1_hz k)) (.fin (1 / 10)) = false ∧
    safe_f_hz ieee (s_curve_f_hz ieee steps f0_hz f1_hz k) ≠ .fin 0 := by
  have hm : steps ≤ 2 ^ 31 := le_trans hmax max_steps_le
  rw [build_s_curve_cycles_high A sys_hz out_words steps f0_hz f1_hz (.fin d) h2 hm k hk,
    build_s_curve_cycles_low A sys_hz out_words steps f0_hz f1_hz (.fin d) h2 hm k hk]
  obtain ⟨hs, h1, h3⟩ := s_curve_pair_range A sys_hz steps f0_hz f1_hz (.fin d) k
  obtain ⟨ha, hb⟩ := total_cycles_of_range A sys_hz (s_curve_f_hz A steps f0_hz f1_hz k)
  obtain ⟨hc, hd⟩ := safe_f_hz_not_below (s_curve_f_hz ieee steps f0_hz f1_hz k)
  refine ⟨?_, ?_, h1, h3, hs, hc, hd⟩
  · rw [hs]; exact ha
  · rw [hs]; exact hb

/-- Witness of C4: step 1 of a 5-step binary32 ramp from a negative frequency to NaN. -/
theorem build_s_curve_cycles_pair_invariant_witness :
    3 ≤ build_s_curve_cycles ieee 125000000 (fun _ => 0) 5 (.fin (-7)) .nan (.fin (1 / 2)) (2 * 1)
        + build_s_curve_cycles ieee 125000000 (fun _ => 0) 5 (.fin (-7)) .nan (.fin (1 / 2))
            (2 * 1 + 1) ∧
    1 ≤ build_s_curve_cycles ieee 125000000 (fun _ => 0) 5 (.fin (-7)) .nan (.fin (1 / 2)) (2 * 1) :=
  ⟨(build_s_curve_cycles_pair_invariant ieee 125000000 (fun _ => 0) 5 (.fin (-7)) .nan (1 / 2) 1
      (by decide) (by decide) (by norm_num) (by norm_num) (by decide)).1,
   (build_s_curve_cycles_pair_invariant ieee 125000000 (fun _ => 0) 5 (.fin (-7)) .nan (1 / 2) 1
      (by decide) (by decide) (by norm_num) (by norm_num) (by decide)).2.2.1⟩

theorem u32_sub_one {n : ℕ} (h1 : 1 ≤ n) (h : n < 2 ^ 32) : u32_sub n 1 = n - 1 := by
  unfold u32_sub
  have : n + 2 ^ 32 - 1 = (n - 1) + 2 ^ 32 := by omega
  rw [this, Nat.add_mod_right, Nat.mod_eq_of_lt (by omega)]

theorem ieee_rf_zero : ieee.rf 0 = .fin 0 := roundFp_zero binary32

theorem ieee_rf_one : ieee.rf 1 = .fin 1 := by
  have := roundFp_natCast binary32 binary32_ok (n := 1) (by unfold binary32; norm_num)
  simpa using this

theorem smoothstep_zero (A : Arith) : smoothstep A (.fin 0) = .fin 0 := by
  unfold smoothstep
  rw [if_pos (by show decide ((0 : ℚ) ≤ 0) = true; simp)]

theorem smoothstep_one (A : Arith) : smoothstep A (.fin 1) = .fin 1 := by
  unfold smoothstep
  rw [if_neg (by show ¬ decide ((1 : ℚ) ≤ 0) = true; simp),
    if_pos (by show decide ((1 : ℚ) ≤ 1) = true; simp)]

/-- In binary32 the step fraction of the first step is exactly 0. -/
theorem step_fraction_first {steps : ℕ} (h2 : 2 ≤ steps) (hmax : steps ≤ 2 ^ 24) :
    Fp.div ieee.rf (u32_to_float ieee 0) (u32_to_float ieee (u32_sub steps 1)) = .fin 0 := by
  rw [u32_sub_one (by omega) (by omega), u32_to_float_exact (n := 0) (by norm_num),
    u32_to_float_exact (n := steps - 1) (by omega)]
  have hne : ((steps - 1 : ℕ) : ℚ) ≠ 0 := by
    have : 0 < steps - 1 := by omega
    exact_mod_cast this.ne'
  show (if ((steps - 1 : ℕ) : ℚ) = 0 then _ else ieee.rf (((0 : ℕ) : ℚ) / ((steps - 1 : ℕ) : ℚ)))
    = Fp.fin 0
  rw [if_neg hne, Nat.cast_zero, zero_div]
  exact ieee_rf_zero

/-- In binary32 the step fraction of the last step is exactly 1. -/
theorem step_fraction_last {steps : ℕ} (h2 : 2 ≤ steps) (hmax : steps ≤ 2 ^ 24) :
    Fp.div ieee.rf (u32_to_float ieee (steps - 1)) (u32_to_float ieee (u32_sub steps 1))
      = .fin 1 := by
  rw [u32_sub_one (by omega) (by omega), u32_to_float_exact (n := steps - 1) (by omega)]
  have hne : ((steps - 1 : ℕ) : ℚ) ≠ 0 := by
    have : 0 < steps - 1 := by omega
    exact_mod_cast this.ne'
  show (if ((steps - 1 : ℕ) : ℚ) = 0 then _
    else ieee.rf (((steps - 1 : ℕ) : ℚ) / ((steps - 1 : ℕ) : ℚ))) = Fp.fin 1
  rw [if_neg hne, div_self hne]
  exact ieee_rf_one

/-- The frequency of the first step is `f0`, as soon as `f1 - f0` does not overflow. -/
theorem s_curve_f_hz_first {steps : ℕ} (h2 : 2 ≤ steps) (hmax : steps ≤ 2 ^ 24) {q0 q1 dd : ℚ}
    (hf0 : roundFp binary32 q0 = .fin q0)
    (hdd : Fp.sub ieee.rf (.fin q1) (.fin q0) = .fin dd) :
    s_curve_f_hz ieee steps (.fin q0) (.fin q1) 0 = .fin q0 := by
  unfold s_curve_f_hz
  simp only
  rw [step_fraction_first h2 hmax, smoothstep_zero, hdd]
  have hm : Fp.mul ieee.rf (.fin dd) (.fin 0) = .fin 0 := by
    show ieee.rf (dd * 0) = _
    rw [mul_zero]
    exact ieee_rf_zero
  rw [hm]
  show ieee.rf (q0 + 0) = _
  rw [add_zero]
  exact hf0

/-- The frequency of the last step is `f0 + (f1 - f0)` as computed in binary32. -/
theorem s_curve_f_hz_last {steps : ℕ} (h2 : 2 ≤ steps) (hmax : steps ≤ 2 ^ 24) {q0 q1 dd : ℚ}
    (hdd : Fp.sub ieee.rf (.fin q1) (.fin q0) = .fin dd) :
    s_curve_f_hz ieee steps (.fin q0) (.fin q1) (steps - 1)
      = Fp.add ieee.rf (.fin q0) (Fp.sub ieee.rf (.fin q1) (.fin q0)) := by
  unfold s_curve_f_hz
  simp only
  rw [step_fraction_last h2 hmax, smoothstep_one, hdd]
  have hm : Fp.mul ieee.rf (.fin dd) (.fin 1) = .fin dd := by
    show ieee.rf (dd * 1) = _
    rw [mul_one]
    exact roundFp_idem binary32 binary32_ok hdd
  rw [hm]

/-- The difference of two floats of magnitude at most `2 ^ 32` is finite. -/
theorem sub_finite {q0 q1 : ℚ} (h0 : |q0| ≤ 2 ^ 32) (h1 : |q1| ≤ 2 ^ 32) :
    ∃ dd, Fp.sub ieee.rf (.fin q1) (.fin q0) = .fin dd := by
  have hb : |q1 + -q0| ≤ ((1 : ℕ) : ℚ) * 2 ^ 33 := by
    have := abs_add q1 (-q0)
    rw [abs_neg] at this
    norm_num
    norm_num at h0 h1
    linarith
  obtain ⟨r, hr, _⟩ := roundFp_abs_le binary32 binary32_ok (q := q1 + -q0) (m := 1) (j := 33)
    (by unfold binary32; norm_num) (by unfold binary32; norm_num) hb
  exact ⟨r, hr⟩

theorem safe_f_hz_of_not_lt {f : Fp} (h : Fp.lt f (ieee.rf (1 / 10)) = false) :
    safe_f_hz ieee f = f := by
  unfold safe_f_hz
  rw [if_neg (by rw [h]; simp)]

theorem tenth_le_of_not_lt {q : ℚ} (h : Fp.lt (.fin q) (ieee.rf (1 / 10)) = false) :
    (13421773 / 134217728 : ℚ) ≤ q := by
  rw [ieee_tenth] at h
  have h' : decide (q < 13421773 / 134217728) = false := h
  rw [decide_eq_false_iff_not] at h'
  exact not_lt.1 h'

/-- A quotient in `[3, 0x7fffffff]` is converted to a cycle count within one cycle of it:
the binary64 division and the truncation stay between its floor and its ceiling. -/
theorem total_cycles_of_near (sys_hz : ℕ) {q : ℚ}
    (hq : Fp.lt (.fin q) (ieee.rf (1 / 10)) = false)
    (h3 : 3 ≤ (sys_hz : ℚ) / q) (hmax : (sys_hz : ℚ) / q ≤ 0x7fffffff) :
    |((total_cycles_of ieee sys_hz (.fin q) : ℕ) : ℚ) - (sys_hz : ℚ) / q| < 1 := by
  have hqpos : 0 < q := lt_of_lt_of_le (by norm_num) (tenth_le_of_not_lt hq)
  have hdiv : Fp.div ieee.rd (u32_to_double sys_hz) (.fin q)
      = roundFp binary64 ((sys_hz : ℚ) / q) := by
    show (if q = 0 then _ else ieee.rd ((sys_hz : ℚ) / q)) = _
    rw [if_neg hqpos.ne']
    rfl
  generalize hc : (sys_hz : ℚ) / q = c at h3 hmax hdiv ⊢
  have hcpos : 0 < c := by linarith
  -- integer anchors below and above the quotient
  have hf0 : 3 ≤ ⌊c⌋ := Int.le_floor.2 (by exact_mod_cast h3)
  have hc1 : ⌈c⌉ ≤ 0x7fffffff := Int.ceil_le.2 (by exact_mod_cast hmax)
  have hfc : ⌊c⌋ ≤ ⌈c⌉ := Int.floor_le_ceil c
  have hlo : ((⌊c⌋.toNat : ℕ) : ℚ) * 2 ^ 0 ≤ c := by
    have : ((⌊c⌋.toNat : ℕ) : ℤ) = ⌊c⌋ := Int.toNat_of_nonneg (by omega)
    have h' : ((⌊c⌋.toNat : ℕ) : ℚ) = ((⌊c⌋ : ℤ) : ℚ) := by exact_mod_cast this
    rw [pow_zero, mul_one, h']
    exact Int.floor_le c
  have hhi : c ≤ ((⌈c⌉.toNat : ℕ) : ℚ) * 2 ^ 0 := by
    have : ((⌈c⌉.toNat : ℕ) : ℤ) = ⌈c⌉ := Int.toNat_of_nonneg (by omega)
    have h' : ((⌈c⌉.toNat : ℕ) : ℚ) = ((⌈c⌉ : ℤ) : ℚ) := by exact_mod_cast this
    rw [pow_zero, mul_one, h']
    exact Int.le_ceil c
  obtain ⟨r, hr, hr0, hr1⟩ := roundFp_range binary64 binary64_ok (q := c) (m := ⌈c⌉.toNat) (j := 0)
    (by unfold binary64; norm_num; omega) (by unfold binary64; norm_num) hcpos.le hhi
  have hr2 : ((⌊c⌋.toNat : ℕ) : ℚ) * 2 ^ 0 ≤ r := by
    rcases roundFp_ge binary64 binary64_ok hcpos (m := ⌊c⌋.toNat) (j := 0)
        (by unfold binary64; norm_num; omega) hlo with h | ⟨r', hr', hb⟩
    · rw [h] at hr; cases hr
    · rw [hr] at hr'; cases hr'; exact hb
  rw [pow_zero, mul_one] at hr1 hr2
  -- the truncated quotient
  have ht : Fp.toUInt 64 (.fin r) = ⌊r⌋.toNat :=
    toUInt_fin_of_le 64 (B := ⌈c⌉.toNat) (by norm_num; omega) hr1
  have hfl : (⌊c⌋.toNat : ℤ) ≤ ⌊r⌋ := Int.le_floor.2 (by exact_mod_cast hr2)
  have hfu : ⌊r⌋ ≤ (⌈c⌉.toNat : ℤ) := by
    have : ((⌊r⌋ : ℤ) : ℚ) ≤ ((⌈c⌉.toNat : ℕ) : ℚ) := le_trans (Int.floor_le r) hr1
    exact_mod_cast this
  have htot : total_cycles_of ieee sys_hz (.fin q) = ⌊r⌋.toNat := by
    unfold total_cycles_of
    rw [safe_f_hz_of_not_lt hq, hdiv, hr, ht]
    unfold clamp_u32
    rw [if_neg (by omega), if_neg (by omega), Nat.mod_eq_of_lt (by omega)]
  rw [htot]
  have e1 : ((⌊r⌋.toNat : ℕ) : ℚ) = ((⌊r⌋ : ℤ) : ℚ) := by
    have : ((⌊r⌋.toNat : ℕ) : ℤ) = ⌊r⌋ := Int.toNat_of_nonneg (by omega)
    exact_mod_cast this
  have e2 : ((⌊c⌋ : ℤ) : ℚ) ≤ ((⌊r⌋ : ℤ) : ℚ) := by
    have : ⌊c⌋ ≤ ⌊r⌋ := by omega
    exact_mod_cast this
  have e3 : ((⌊r⌋ : ℤ) : ℚ) ≤ ((⌈c⌉ : ℤ) : ℚ) := by
    have : ⌊r⌋ ≤ ⌈c⌉ := by omega
    exact_mod_cast this
  have e4 := Int.lt_floor_add_one c
  have e5 := Int.ceil_lt_add_one c
  rw [e1, abs_lt]
  constructor <;> linarith

theorem not_lt_of_tenth_le {q : ℚ} (h : Fp.le (ieee.rf (1 / 10)) (.fin q) = true) :
    Fp.lt (.fin q) (ieee.rf (1 / 10)) = false := by
  rw [ieee_tenth] at h ⊢
  have h' : decide ((13421773 / 134217728 : ℚ) ≤ q) = true := h
  rw [decide_eq_true_iff] at h'
  show decide (q < 13421773 / 134217728) = false
  rw [decide_eq_false_iff_not]
  exact not_lt.2 h'

theorem abs_le_of_quotient {sys_hz : ℕ} (hsys : sys_hz < 2 ^ 32) {q : ℚ} (hq : 0 < q)
    (h3 : 3 ≤ (sys_hz : ℚ) / q) : |q| ≤ 2 ^ 32 := by
  rw [abs_of_pos hq]
  have h1 : 3 * q ≤ (sys_hz : ℚ) := (le_div_iff₀ hq).1 h3
  have h2 : (sys_hz : ℚ) ≤ ((2 ^ 32 : ℕ) : ℚ) := by exact_mod_cast hsys.le
  push_cast at h2
  linarith

theorem pair_total (A : Arith) (sys_hz : ℕ) (f duty : Fp) :
    (build_constant_cycles_pair A sys_hz f duty).1 + (build_constant_cycles_pair A sys_hz f duty).2
      = total_cycles_of A sys_hz f := by
  obtain ⟨h3, _⟩ := total_cycles_of_range A sys_hz f
  obtain ⟨h1, h2, h4⟩ := split_core A _ duty h3
  unfold build_constant_cycles_pair
  omega

/-- C5, as amended: for `steps` in `[2, MAX_STEPS]` and binary32 frequencies `f0`, `f1`
that are at least `0.1f`, with `3 ≤ clock / f ≤ 0x7fffffff`, the first pair written by
`build_s_curve_cycles` equals `build_constant_cycles_pair(f0, duty)` and its `high + low`
is within one cycle of `clock / f0`; the last pair equals
`build_constant_cycles_pair(f0 + (f1 - f0), duty)` with the sum and the difference taken
in binary32, so whenever `f0 + (f1 - f0) = f1` holds in binary32 it equals
`build_constant_cycles_pair(f1, duty)` and its `high + low` is within one cycle of
`clock / f1`.  Scenario: clock 125,000,000, 2 steps, `f0 = 10`, `f1 = 1000` gives the
totals 12,500,000 and 125,000. -/
theorem build_s_curve_cycles_endpoints (sys_hz : ℕ) (out_words : ℕ → ℕ) (steps : ℕ)
    (q0 q1 : ℚ) (duty : Fp)
    (h2 : 2 ≤ steps) (hmax : steps ≤ STEPGEN_DMA_MAX_STEPS) (hsys : sys_hz < 2 ^ 32)
    (hf0 : ieee.rf q0 = .fin q0) (_hf1 : ieee.rf q1 = .fin q1)
    (h0 : Fp.le (ieee.rf (1 / 10)) (.fin q0) = true)
    (h1 : Fp.le (ieee.rf (1 / 10)) (.fin q1) = true)
    (h03 : 3 ≤ (sys_hz : ℚ) / q0) (h0m : (sys_hz : ℚ) / q0 ≤ 0x7fffffff)
    (h13 : 3 ≤ (sys_hz : ℚ) / q1) (h1m : (sys_hz : ℚ) / q1 ≤ 0x7fffffff) :
    ((build_s_curve_cycles ieee sys_hz out_words steps (.fin q0) (.fin q1) duty 0,
      build_s_curve_cycles ieee sys_hz out_words steps (.fin q0) (.fin q1) duty 1)
        = build_constant_cycles_pair ieee sys_hz (.fin q0) duty) ∧
    |((build_s_curve_cycles ieee sys_hz out_words steps (.fin q0) (.fin q1) duty 0
        + build_s_curve_cycles ieee sys_hz out_words steps (.fin q0) (.fin q1) duty 1 : ℕ) : ℚ)
      - (sys_hz : ℚ) / q0| < 1 ∧
    ((build_s_curve_cycles ieee sys_hz out_words steps (.fin q0) (.fin q1) duty
        (2 * (steps - 1)),
      build_s_curve_cycles ieee sys_hz out_words steps (.fin q0) (.fin q1) duty
        (2 * (steps - 1) + 1))
        = build_constant_cycles_pair ieee sys_hz
            (Fp.add ieee.rf (.fin q0) (Fp.sub ieee.rf (.fin q1) (.fin q0))) duty) ∧
    (Fp.add ieee.rf (.fin q0) (Fp.sub ieee.rf (.fin q1) (.fin q0)) = .fin q1 →
      ((build_s_curve_cycles ieee sys_hz out_words steps (.fin q0) (.fin q1) duty
          (2 * (steps - 1)),
        build_s_curve_cycles ieee sys_hz out_words steps (.fin q0) (.fin q1) duty
          (2 * (steps - 1) + 1))
          = build_constant_cycles_pair ieee sys_hz (.fin q1) duty) ∧
      |((build_s_curve_cycles ieee sys_hz out_words steps (.fin q0) (.fin q1) duty
            (2 * (steps - 1))
          + build_s_curve_cycles ieee sys_hz out_words steps (.fin q0) (.fin q1) duty
            (2 * (steps - 1) + 1) : ℕ) : ℚ)
        - (sys_hz : ℚ) / q1| < 1) ∧
    (build_s_curve_cycles ieee 125000000 out_words 2 (.fin 10) (.fin 1000) duty 0
        + build_s_curve_cycles ieee 125000000 out_words 2 (.fin 10) (.fin 1000) duty 1
        = 12500000 ∧
     build_s_curve_cycles ieee 125000000 out_words 2 (.fin 10) (.fin 1000) duty 2
        + build_s_curve_cycles ieee 125000000 out_words 2 (.fin 10) (.fin 1000) duty 3
        = 125000) := by
  have hs24 : steps ≤ 2 ^ 24 := le_trans hmax (by unfold STEPGEN_DMA_MAX_STEPS; norm_num)
  have hs31 : steps ≤ 2 ^ 31 := le_trans hmax max_steps_le
  have hn0 := not_lt_of_tenth_le h0
  have hn1 := not_lt_of_tenth_le h1
  have hq0 : 0 < q0 := lt_of_lt_of_le (by norm_num) (tenth_le_of_not_lt hn0)
  have hq1 : 0 < q1 := lt_of_lt_of_le (by norm_num) (tenth_le_of_not_lt hn1)
  obtain ⟨dd, hdd⟩ := sub_finite (abs_le_of_quotient hsys hq0 h03) (abs_le_of_quotient hsys hq1 h13)
  have hfirst : s_curve_f_hz ieee steps (.fin q0) (.fin q1) 0 = .fin q0 :=
    s_curve_f_hz_first h2 hs24 hf0 hdd
  have hlast : s_curve_f_hz ieee steps (.fin q0) (.fin q1) (steps - 1)
      = Fp.add ieee.rf (.fin q0) (Fp.sub ieee.rf (.fin q1) (.fin q0)) :=
    s_curve_f_hz_last h2 hs24 hdd
  have e0 := build_s_curve_cycles_high ieee sys_hz out_words steps (.fin q0) (.fin q1) duty
    h2 hs31 0 (by omega)
  have e1 := build_s_curve_cycles_low ieee sys_hz out_words steps (.fin q0) (.fin q1) duty
    h2 hs31 0 (by omega)
  have eL0 := build_s_curve_cycles_high ieee sys_hz out_words steps (.fin q0) (.fin q1) duty
    h2 hs31 (steps - 1) (by omega)
  have eL1 := build_s_curve_cycles_low ieee sys_hz out_words steps (.fin q0) (.fin q1) duty
    h2 hs31 (steps - 1) (by omega)
  rw [Nat.mul_zero] at e0
  rw [Nat.mul_zero, Nat.zero_add] at e1
  have p0 : s_curve_pair ieee sys_hz steps (.fin q0) (.fin q1) duty 0
      = build_constant_cycles_pair ieee sys_hz (.fin q0) duty := by
    unfold s_curve_pair build_constant_cycles_pair
    rw [hfirst]
  have pL : s_curve_pair ieee sys_hz steps (.fin q0) (.fin q1) duty (steps - 1)
      = build_constant_cycles_pair ieee sys_hz
          (Fp.add ieee.rf (.fin q0) (Fp.sub ieee.rf (.fin q1) (.fin q0))) duty := by
    unfold s_curve_pair build_constant_cycles_pair
    rw [hlast]
  rw [e0, e1, eL0, eL1, p0, pL]
  refine ⟨rfl, ?_, rfl, ?_, ?_, ?_⟩
  · rw [pair_total]
    exact total_cycles_of_near sys_hz hn0 h03 h0m
  · intro heq
    rw [heq]
    refine ⟨rfl, ?_⟩
    rw [pair_total]
    exact total_cycles_of_near sys_hz hn1 h13 h1m
  · have a0 := build_s_curve_cycles_high ieee 125000000 out_words 2 (.fin 10) (.fin 1000) duty
      (by norm_num) (by norm_num) 0 (by norm_num)
    have a1 := build_s_curve_cycles_low ieee 125000000 out_words 2 (.fin 10) (.fin 1000) duty
      (by norm_num) (by norm_num) 0 (by norm_num)
    rw [Nat.mul_zero] at a0
    rw [Nat.mul_zero, Nat.zero_add] at a1
    rw [a0, a1, (s_curve_pair_range ieee 125000000 2 (.fin 10) (.fin 1000) duty 0).1]
    decide!
  · have a0 := build_s_curve_cycles_high ieee 125000000 out_words 2 (.fin 10) (.fin 1000) duty
      (by norm_num) (by norm_num) 1 (by norm_num)
    have a1 := build_s_curve_cycles_low ieee 125000000 out_words 2 (.fin 10) (.fin 1000) duty
      (by norm_num) (by norm_num) 1 (by norm_num)
    rw [Nat.mul_one] at a0 a1
    rw [a0, a1, (s_curve_pair_range ieee 125000000 2 (.fin 10) (.fin 1000) duty 1).1]
    decide!

/-- Witness of the amended C5: the scenario of the claim, at duty `0.5`; its last frequency
`10 + (1000 - 10)` is exactly `1000`. -/
theorem build_s_curve_cycles_endpoints_witness :
    ((build_s_curve_cycles ieee 125000000 (fun _ => 0) 2 (.fin 10) (.fin 1000) (.fin (1 / 2)) 0,
      build_s_curve_cycles ieee 125000000 (fun _ => 0) 2 (.fin 10) (.fin 1000) (.fin (1 / 2)) 1)
        = build_constant_cycles_pair ieee 125000000 (.fin 10) (.fin (1 / 2))) ∧
    ((build_s_curve_cycles ieee 125000000 (fun _ => 0) 2 (.fin 10) (.fin 1000) (.fin (1 / 2))
        (2 * (2 - 1)),
      build_s_curve_cycles ieee 125000000 (fun _ => 0) 2 (.fin 10) (.fin 1000) (.fin (1 / 2))
        (2 * (2 - 1) + 1))
        = build_constant_cycles_pair ieee 125000000 (.fin 1000) (.fin (1 / 2))) :=
  ⟨(build_s_curve_cycles_endpoints 125000000 (fun _ => 0) 2 10 1000 (.fin (1 / 2))
      (by decide) (by decide) (by norm_num) (by decide!) (by decide!) (by decide!) (by decide!)
      (by norm_num) (by norm_num) (by norm_num) (by norm_num)).1,
   ((build_s_curve_cycles_endpoints 125000000 (fun _ => 0) 2 10 1000 (.fin (1 / 2))
      (by decide) (by decide) (by norm_num) (by decide!) (by decide!) (by decide!) (by decide!)
      (by norm_num) (by norm_num) (by norm_num) (by norm_num)).2.2.2.1 (by decide!)).1⟩

/-- Counterexample to C5 as stated: clock 125,000,000, 2 steps, from `f0 = 1000` to
`f1 = 0.3f`, duty `0.5`.  Both frequencies are binary32 values, at least 0.1 Hz, with
`clock / f` in `[3, 0x7fffffff]`; but `1000 + (0.3f - 1000)` is `4915 / 16384` in binary32,
not `0.3f`, so the last pair totals 416,683,621 cycles, which is neither the pair of
`build_constant_cycles_pair(f1, duty)` (416,666,650 cycles) nor within one cycle of
`clock / f1`. -/
theorem ramp_end_differs_from_steady :
    ieee.rf 1000 = .fin 1000 ∧
    ieee.rf (3 / 10) = .fin (5033165 / 16777216) ∧
    ieee.rf (5033165 / 16777216) = .fin (5033165 / 16777216) ∧
    ((1 / 10 : ℚ) ≤ 5033165 / 16777216 ∧ (3 : ℚ) ≤ 125000000 / (5033165 / 16777216) ∧
      (125000000 : ℚ) / (5033165 / 16777216) ≤ 0x7fffffff) ∧
    ((1 / 10 : ℚ) ≤ 1000 ∧ (3 : ℚ) ≤ 125000000 / 1000 ∧ (125000000 : ℚ) / 1000 ≤ 0x7fffffff) ∧
    Fp.add ieee.rf (.fin 1000) (Fp.sub ieee.rf (.fin (5033165 / 16777216)) (.fin 1000))
      = .fin (4915 / 16384) ∧
    build_s_curve_cycles ieee 125000000 (fun _ => 0) 2 (.fin 1000) (.fin (5033165 / 16777216))
      (.fin (1 / 2)) 2 = 208341808 ∧
    build_s_curve_cycles ieee 125000000 (fun _ => 0) 2 (.fin 1000) (.fin (5033165 / 16777216))
      (.fin (1 / 2)) 3 = 208341813 ∧
    build_constant_cycles_pair ieee 125000000 (.fin (5033165 / 16777216)) (.fin (1 / 2))
      = (208333328, 208333322) ∧
    (1 : ℚ) ≤ |((208341808 + 208341813 : ℕ) : ℚ) - 125000000 / (5033165 / 16777216)| := by
  refine ⟨by decide!, by decide!, by decide!, by norm_num, by norm_num, by decide!, by decide!,
    by decide!, by decide!, ?_⟩
  rw [le_abs]
  left
  norm_num

theorem smoothstep_exact (t : ℚ) :
    smoothstep exact (.fin t)
      = .fin (if t ≤ 0 then 0 else if 1 ≤ t then 1 else t * t * (3 + -(2 * t))) := by
  unfold smoothstep
  have e1 : Fp.le (.fin t) (.fin 0) = decide (t ≤ 0) := rfl
  have e2 : Fp.le (.fin 1) (.fin t) = decide (1 ≤ t) := rfl
  rw [e1, e2]
  by_cases h0 : t ≤ 0
  · rw [if_pos (decide_eq_true h0), if_pos h0]
  · rw [if_neg (by simpa using h0), if_neg h0]
    by_cases h1 : 1 ≤ t
    · rw [if_pos (decide_eq_true h1), if_pos h1]
    · rw [if_neg (by simpa using h1), if_neg h1]
      rfl

/-- The symmetry `s(1 - t) = 1 - s(t)` of the smoothstep polynomial with its two cut-offs. -/
theorem smoothstep_poly_symm (t : ℚ) :
    (if 1 - t ≤ 0 then (0 : ℚ) else if 1 ≤ 1 - t then 1
      else (1 - t) * (1 - t) * (3 + -(2 * (1 - t))))
      = 1 - (if t ≤ 0 then (0 : ℚ) else if 1 ≤ t then 1 else t * t * (3 + -(2 * t))) := by
  by_cases h0 : t ≤ 0
  · rw [if_pos h0, if_neg (by linarith), if_pos (by linarith)]
    ring
  · rw [if_neg h0]
    by_cases h1 : 1 ≤ t
    · rw [if_pos h1, if_pos (by linarith)]
      ring
    · rw [if_neg h1, if_neg (by linarith), if_neg (by linarith)]
      ring

theorem s_curve_f_hz_exact {steps : ℕ} (h2 : 2 ≤ steps) (hmax : steps < 2 ^ 32) (q0 q1 : ℚ)
    (i : ℕ) :
    s_curve_f_hz exact steps (.fin q0) (.fin q1) i
      = .fin (q0 + (q1 + -q0) *
          (if (i : ℚ) / ((steps - 1 : ℕ) : ℚ) ≤ 0 then 0
           else if 1 ≤ (i : ℚ) / ((steps - 1 : ℕ) : ℚ) then 1
           else (i : ℚ) / ((steps - 1 : ℕ) : ℚ) * ((i : ℚ) / ((steps - 1 : ℕ) : ℚ))
             * (3 + -(2 * ((i : ℚ) / ((steps - 1 : ℕ) : ℚ)))))) := by
  unfold s_curve_f_hz
  simp only
  rw [u32_sub_one (by omega) hmax]
  have hne : ((steps - 1 : ℕ) : ℚ) ≠ 0 := by
    have : 0 < steps - 1 := by omega
    exact_mod_cast this.ne'
  have hdiv : Fp.div exact.rf (u32_to_float exact i) (u32_to_float exact (steps - 1))
      = .fin ((i : ℚ) / ((steps - 1 : ℕ) : ℚ)) := by
    show (if ((steps - 1 : ℕ) : ℚ) = 0 then _ else Fp.fin ((i : ℚ) / ((steps - 1 : ℕ) : ℚ))) = _
    rw [if_neg hne]
  rw [hdiv, smoothstep_exact]
  rfl

/-- Over exact arithmetic the frequency of step `k` of the ramp from `f0` to `f1` is the
frequency of step `steps - 1 - k` of the ramp from `f1` to `f0`. -/
theorem s_curve_f_hz_reversal {steps : ℕ} (h2 : 2 ≤ steps) (hmax : steps < 2 ^ 32) (q0 q1 : ℚ)
    {k : ℕ} (hk : k < steps) :
    s_curve_f_hz exact steps (.fin q0) (.fin q1) k
      = s_curve_f_hz exact steps (.fin q1) (.fin q0) (steps - 1 - k) := by
  rw [s_curve_f_hz_exact h2 hmax, s_curve_f_hz_exact h2 hmax]
  have hne : ((steps - 1 : ℕ) : ℚ) ≠ 0 := by
    have : 0 < steps - 1 := by omega
    exact_mod_cast this.ne'
  have hcast : ((steps - 1 - k : ℕ) : ℚ) = ((steps - 1 : ℕ) : ℚ) - (k : ℚ) := by
    have : k ≤ steps - 1 := by omega
    exact Nat.cast_sub this
  have ht : ((steps - 1 - k : ℕ) : ℚ) / ((steps - 1 : ℕ) : ℚ)
      = 1 - (k : ℚ) / ((steps - 1 : ℕ) : ℚ) := by
    rw [hcast, sub_div, div_self hne]
  rw [ht, smoothstep_poly_symm]
  congr 1
  ring

/-- Over exact rational arithmetic, an idealisation in which no operation of the program
rounds, the `k`-th pair of `build_s_curve_cycles(steps, f0, f1, duty)` equals the
`(steps - 1 - k)`-th pair of `build_s_curve_cycles(steps, f1, f0, duty)` for finite `f0`,
`f1`, and `smoothstep` satisfies `s(t) = 1 - s(1 - t)` for every `t`. -/
theorem build_s_curve_cycles_reversal_exact (sys_hz : ℕ) (out_a out_b : ℕ → ℕ) (steps k : ℕ)
    (q0 q1 : ℚ) (duty : Fp)
    (h2 : 2 ≤ steps) (hmax : steps ≤ STEPGEN_DMA_MAX_STEPS) (hk : k < steps) :
    build_s_curve_cycles exact sys_hz out_a steps (.fin q0) (.fin q1) duty (2 * k)
      = build_s_curve_cycles exact sys_hz out_b steps (.fin q1) (.fin q0) duty
          (2 * (steps - 1 - k)) ∧
    build_s_curve_cycles exact sys_hz out_a steps (.fin q0) (.fin q1) duty (2 * k + 1)
      = build_s_curve_cycles exact sys_hz out_b steps (.fin q1) (.fin q0) duty
          (2 * (steps - 1 - k) + 1) ∧
    (∀ t : ℚ, ∃ a b : ℚ, smoothstep exact (.fin t) = .fin a ∧
      smoothstep exact (.fin (1 - t)) = .fin b ∧ a = 1 - b) := by
  have hs31 : steps ≤ 2 ^ 31 := le_trans hmax max_steps_le
  have hpair : s_curve_pair exact sys_hz steps (.fin q0) (.fin q1) duty k
      = s_curve_pair exact sys_hz steps (.fin q1) (.fin q0) duty (steps - 1 - k) := by
    unfold s_curve_pair
    rw [s_curve_f_hz_reversal h2 (by omega) q0 q1 hk]
  rw [build_s_curve_cycles_high exact sys_hz out_a steps _ _ duty h2 hs31 k hk,
    build_s_curve_cycles_low exact sys_hz out_a steps _ _ duty h2 hs31 k hk,
    build_s_curve_cycles_high exact sys_hz out_b steps _ _ duty h2 hs31 (steps - 1 - k) (by omega),
    build_s_curve_cycles_low exact sys_hz out_b steps _ _ duty h2 hs31 (steps - 1 - k) (by omega),
    hpair]
  refine ⟨rfl, rfl, ?_⟩
  intro t
  refine ⟨_, _, smoothstep_exact t, smoothstep_exact (1 - t), ?_⟩
  rw [smoothstep_poly_symm]
  ring

theorem clamp_ramp_steps_eq (ramp_steps : ℕ) :
    clamp_ramp_steps ramp_steps = min (max ramp_steps 2) STEPGEN_DMA_MAX_STEPS := by
  unfold clamp_ramp_steps STEPGEN_DMA_MAX_STEPS
  simp only
  split_ifs <;> omega

theorem clamp_ramp_steps_range (ramp_steps : ℕ) :
    2 ≤ clamp_ramp_steps ramp_steps ∧ clamp_ramp_steps ramp_steps ≤ STEPGEN_DMA_MAX_STEPS := by
  rw [clamp_ramp_steps_eq]
  unfold STEPGEN_DMA_MAX_STEPS
  omega

theorem start_heap (A : Arith) (P : Platform) (w : World) (ctx : Ptr)
    (fs ft duty : Fp) (ramp_steps : ℕ) :
    (stepgen_start_s_curve_dma A P w ctx fs ft duty ramp_steps).heap ctx
      = { w.heap ctx with
          freq_start_hz := fs
          freq_target_hz := ft
          duty_cycle := duty
          ramp_steps := clamp_ramp_steps ramp_steps
          ramp_buf := (build_s_curve_cycles A P.sys_hz (w.heap ctx).ramp_buf
            (clamp_ramp_steps ramp_steps) fs ft duty)
          steady_buf := (fun j =>
            if j = 1 then (build_constant_cycles_pair A P.sys_hz ft duty).2
            else if j = 0 then (build_constant_cycles_pair A P.sys_hz ft duty).1
            else (w.heap ctx).steady_buf j) } := by
  simp [stepgen_start_s_curve_dma, abort_all, restart_sm, dma_channel_abort,
    dma_channel_configure, pio_sm_set_enabled, pio_sm_clear_fifos, pio_sm_exec_jmp]

theorem start_ramp_chan (A : Arith) (P : Platform) (w : World) (ctx : Ptr)
    (fs ft duty : Fp) (ramp_steps : ℕ) :
    (stepgen_start_s_curve_dma A P w ctx fs ft duty ramp_steps).chan
        (int_to_uint (w.heap ctx).dma_ramp_ch)
      = { cfg := { data_size := P.DMA_SIZE_32, read_increment := true, write_increment := false,
                   dreq := .pio_tx (w.heap ctx).pio (w.heap ctx).sm,
                   chain_to := int_to_uint (w.heap ctx).dma_steady_ch,
                   ring_write := false, ring_size_bits := 0 },
          write_addr := .txf (w.heap ctx).pio (w.heap ctx).sm,
          read_addr := .buf ctx .ramp_buf,
          transfer_count := (2 * clamp_ramp_steps ramp_steps) % 2 ^ 32,
          status := .running } := by
  simp [stepgen_start_s_curve_dma, abort_all, restart_sm, dma_channel_abort,
    dma_channel_configure, pio_sm_set_enabled, pio_sm_clear_fifos, pio_sm_exec_jmp,
    dma_channel_get_default_config]
/-- C7: for every requested `ramp_steps`, `stepgen_start_s_curve_dma` stores
`n = min(max(ramp_steps, 2), MAX_STEPS)` in the instance (an in-range request unchanged),
writes the `n` pairs of the ramp into the words `0 .. 2n - 1` of `ramp_buf` and leaves
every word from index `2n` on as it was, and programs the ramp channel to read `ramp_buf`
with a transfer count of exactly `2n`, which is at most the capacity `2 * MAX_STEPS`. -/
theorem stepgen_start_ramp_extent (A : Arith) (P : Platform) (w : World) (ctx : Ptr)
    (freq_start_hz freq_target_hz duty_cycle : Fp) (ramp_steps : ℕ) :
    clamp_ramp_steps ramp_steps = min (max ramp_steps 2) STEPGEN_DMA_MAX_STEPS ∧
    ((stepgen_start_s_curve_dma A P w ctx freq_start_hz freq_target_hz duty_cycle
        ramp_steps).heap ctx).ramp_steps = clamp_ramp_steps ramp_steps ∧
    (2 ≤ ramp_steps → ramp_steps ≤ STEPGEN_DMA_MAX_STEPS →
      ((stepgen_start_s_curve_dma A P w ctx freq_start_hz freq_target_hz duty_cycle
          ramp_steps).heap ctx).ramp_steps = ramp_steps) ∧
    (∀ k, k < clamp_ramp_steps ramp_steps →
      ((stepgen_start_s_curve_dma A P w ctx freq_start_hz freq_target_hz duty_cycle
          ramp_steps).heap ctx).ramp_buf (2 * k)
        = (s_curve_pair A P.sys_hz (clamp_ramp_steps ramp_steps) freq_start_hz freq_target_hz
            duty_cycle k).1 ∧
      ((stepgen_start_s_curve_dma A P w ctx freq_start_hz freq_target_hz duty_cycle
          ramp_steps).heap ctx).ramp_buf (2 * k + 1)
        = (s_curve_pair A P.sys_hz (clamp_ramp_steps ramp_steps) freq_start_hz freq_target_hz
            duty_cycle k).2) ∧
    (∀ j, 2 * clamp_ramp_steps ramp_steps ≤ j →
      ((stepgen_start_s_curve_dma A P w ctx freq_start_hz freq_target_hz duty_cycle
          ramp_steps).heap ctx).ramp_buf j = (w.heap ctx).ramp_buf j) ∧
    ((stepgen_start_s_curve_dma A P w ctx freq_start_hz freq_target_hz duty_cycle
        ramp_steps).chan (int_to_uint (w.heap ctx).dma_ramp_ch)).transfer_count
      = 2 * clamp_ramp_steps ramp_steps ∧
    ((stepgen_start_s_curve_dma A P w ctx freq_start_hz freq_target_hz duty_cycle
        ramp_steps).chan (int_to_uint (w.heap ctx).dma_ramp_ch)).read_addr
      = .buf ctx .ramp_buf ∧
    2 * clamp_ramp_steps ramp_steps ≤ 2 * STEPGEN_DMA_MAX_STEPS := by
  obtain ⟨hn2, hnmax⟩ := clamp_ramp_steps_range ramp_steps
  have hn31 : clamp_ramp_steps ramp_steps ≤ 2 ^ 31 := le_trans hnmax max_steps_le
  rw [start_heap, start_ramp_chan]
  refine ⟨clamp_ramp_steps_eq ramp_steps, rfl, ?_, ?_, ?_, ?_, rfl, by omega⟩
  · intro h2 hmax
    show clamp_ramp_steps ramp_steps = ramp_steps
    rw [clamp_ramp_steps_eq]
    omega
  · intro k hk
    exact ⟨build_s_curve_cycles_high A P.sys_hz _ _ _ _ _ hn2 hn31 k hk,
      build_s_curve_cycles_low A P.sys_hz _ _ _ _ _ hn2 hn31 k hk⟩
  · intro j hj
    show build_s_curve_cycles A P.sys_hz (w.heap ctx).ramp_buf (clamp_ramp_steps ramp_steps)
      freq_start_hz freq_target_hz duty_cycle j = _
    rw [build_s_curve_cycles_get A P.sys_hz _ _ _ _ _ hn2 hn31, if_neg (by omega)]
  · show (2 * clamp_ramp_steps ramp_steps) % 2 ^ 32 = _
    apply Nat.mod_eq_of_lt
    unfold STEPGEN_DMA_MAX_STEPS at hnmax
    omega
theorem stop_heap (A : Arith) (P : Platform) (w : World) (ctx : Ptr)
    (freq_end_hz : Fp) (ramp_steps : ℕ) :
    (stepgen_stop_s_curve_dma A P w ctx freq_end_hz ramp_steps).heap ctx
      = { w.heap ctx with
          stop_buf := (build_s_curve_cycles A P.sys_hz (w.heap ctx).stop_buf
            (clamp_ramp_steps ramp_steps) (w.heap ctx).freq_target_hz
            (safe_f_hz A freq_end_hz) (w.heap ctx).duty_cycle) } := by
  simp [stepgen_stop_s_curve_dma, abort_all, restart_sm, dma_channel_abort,
    dma_channel_configure, pio_sm_set_enabled, pio_sm_clear_fifos, pio_sm_exec_jmp,
    dma_channel_set_irq0_enabled]

theorem stop_stop_chan (A : Arith) (P : Platform) (w : World) (ctx : Ptr)
    (freq_end_hz : Fp) (ramp_steps : ℕ) :
    (stepgen_stop_s_curve_dma A P w ctx freq_end_hz ramp_steps).chan
        (int_to_uint (w.heap ctx).dma_stop_ch)
      = { cfg := { data_size := P.DMA_SIZE_32, read_increment := true, write_increment := false,
                   dreq := .pio_tx (w.heap ctx).pio (w.heap ctx).sm,
                   chain_to := int_to_uint (w.heap ctx).dma_stop_ch,
                   ring_write := false, ring_size_bits := 0 },
          write_addr := .txf (w.heap ctx).pio (w.heap ctx).sm,
          read_addr := .buf ctx .stop_buf,
          transfer_count := (2 * clamp_ramp_steps ramp_steps) % 2 ^ 32,
          status := .running } := by
  simp [stepgen_stop_s_curve_dma, abort_all, restart_sm, dma_channel_abort,
    dma_channel_configure, pio_sm_set_enabled, pio_sm_clear_fifos, pio_sm_exec_jmp,
    dma_channel_set_irq0_enabled, dma_channel_get_default_config]

theorem stop_inte0 (A : Arith) (P : Platform) (w : World) (ctx : Ptr)
    (freq_end_hz : Fp) (ramp_steps : ℕ) :
    (stepgen_stop_s_curve_dma A P w ctx freq_end_hz ramp_steps).inte0
        (int_to_uint (w.heap ctx).dma_stop_ch) = true := by
  simp [stepgen_stop_s_curve_dma, abort_all, restart_sm, dma_channel_abort,
    dma_channel_configure, pio_sm_set_enabled, pio_sm_clear_fifos, pio_sm_exec_jmp,
    dma_channel_set_irq0_enabled]

theorem stop_other_chan (A : Arith) (P : Platform) (w : World) (ctx : Ptr)
    (freq_end_hz : Fp) (ramp_steps : ℕ) (c : ℕ)
    (hc : c ≠ int_to_uint (w.heap ctx).dma_stop_ch)
    (hmem : c = int_to_uint (w.heap ctx).dma_ramp_ch ∨ c = int_to_uint (w.heap ctx).dma_steady_ch) :
    ((stepgen_stop_s_curve_dma A P w ctx freq_end_hz ramp_steps).chan c).status = .aborted := by
  rcases hmem with h | h
  · subst h
    by_cases hrs : int_to_uint (w.heap ctx).dma_ramp_ch = int_to_uint (w.heap ctx).dma_steady_ch
    · have hc2 : int_to_uint (w.heap ctx).dma_steady_ch ≠ int_to_uint (w.heap ctx).dma_stop_ch :=
        hrs ▸ hc
      simp [stepgen_stop_s_curve_dma, abort_all, restart_sm, dma_channel_abort,
        dma_channel_configure, pio_sm_set_enabled, pio_sm_clear_fifos, pio_sm_exec_jmp,
        dma_channel_set_irq0_enabled, Function.update, hc, hrs, hc2]
    · simp [stepgen_stop_s_curve_dma, abort_all, restart_sm, dma_channel_abort,
        dma_channel_configure, pio_sm_set_enabled, pio_sm_clear_fifos, pio_sm_exec_jmp,
        dma_channel_set_irq0_enabled, Function.update, hc, hrs]
  · subst h
    simp [stepgen_stop_s_curve_dma, abort_all, restart_sm, dma_channel_abort,
      dma_channel_configure, pio_sm_set_enabled, pio_sm_clear_fifos, pio_sm_exec_jmp,
      dma_channel_set_irq0_enabled, Function.update, hc]

theorem start_ids (A : Arith) (P : Platform) (w : World) (ctx : Ptr)
    (fs ft duty : Fp) (ramp_steps : ℕ) :
    ((stepgen_start_s_curve_dma A P w ctx fs ft duty ramp_steps).heap ctx).dma_ramp_ch
      = (w.heap ctx).dma_ramp_ch ∧
    ((stepgen_start_s_curve_dma A P w ctx fs ft duty ramp_steps).heap ctx).dma_steady_ch
      = (w.heap ctx).dma_steady_ch ∧
    ((stepgen_start_s_curve_dma A P w ctx fs ft duty ramp_steps).heap ctx).dma_stop_ch
      = (w.heap ctx).dma_stop_ch ∧
    ((stepgen_start_s_curve_dma A P w ctx fs ft duty ramp_steps).heap ctx).pio
      = (w.heap ctx).pio ∧
    ((stepgen_start_s_curve_dma A P w ctx fs ft duty ramp_steps).heap ctx).sm
      = (w.heap ctx).sm := by
  rw [start_heap]
  exact ⟨rfl, rfl, rfl, rfl, rfl⟩
theorem dma_claim_unused_channel_spec (P : Platform) (w w1 : World) (c : ℕ)
    (h : dma_claim_unused_channel P w = some (w1, c)) :
    c < P.NUM_DMA_CHANNELS ∧ w.claimed c = false ∧ w1.claimed c = true ∧
    (∀ d, w.claimed d = true → w1.claimed d = true) ∧ w1.heap = w.heap := by
  unfold dma_claim_unused_channel at h
  split at h
  · cases h
  · rename_i c0 hfind
    cases h
    have hp := List.find?_some hfind
    have hm := List.mem_of_find?_eq_some hfind
    refine ⟨List.mem_range.1 hm, by simpa using hp, by simp, ?_, rfl⟩
    intro d hd
    by_cases hdc : d = c
    · subst hdc; simp
    · simp [Function.update, hdc, hd]

/-- The instance `stepgen_init` sets up owns three distinct channels below
`NUM_DMA_CHANNELS`, and the registry maps its stop channel to it. -/
theorem stepgen_init_channels (P : Platform) (w w1 : World) (ctx : Ptr) (pio sm offset pin : ℕ)
    (h : stepgen_init P w ctx pio sm offset pin = some w1) :
    ∃ r s t : ℕ, r < P.NUM_DMA_CHANNELS ∧ s < P.NUM_DMA_CHANNELS ∧ t < P.NUM_DMA_CHANNELS ∧
      r ≠ s ∧ r ≠ t ∧ s ≠ t ∧
      (w1.heap ctx).dma_ramp_ch = (r : ℤ) ∧ (w1.heap ctx).dma_steady_ch = (s : ℤ) ∧
      (w1.heap ctx).dma_stop_ch = (t : ℤ) ∧ w1.g_dma_ctx_map t = some ctx ∧
      (w1.heap ctx).pio = pio ∧ (w1.heap ctx).sm = sm := by
  unfold stepgen_init at h
  simp only at h
  split at h
  · cases h
  · rename_i wa r ha
    split at h
    · cases h
    · rename_i wb s hb
      split at h
      · cases h
      · rename_i wc t hc
        obtain ⟨hr, _, hr2, _, hha⟩ := dma_claim_unused_channel_spec P _ _ _ ha
        obtain ⟨hs, hs1, hs2, hs3, hhb⟩ := dma_claim_unused_channel_spec P _ _ _ hb
        obtain ⟨ht, ht1, _, _, hhc⟩ := dma_claim_unused_channel_spec P _ _ _ hc
        simp only at hs1 ht1 hs3 hs2
        have hrs : r ≠ s := by
          intro e; subst e
          rw [hr2] at hs1; cases hs1
        have hrt : r ≠ t := by
          intro e; subst e
          rw [hs3 r hr2] at ht1; cases ht1
        have hst : s ≠ t := by
          intro e; subst e
          rw [hs2] at ht1; cases ht1
        cases h
        refine ⟨r, s, t, hr, hs, ht, hrs, hrt, hst, ?_⟩
        simp [hha, hhb, hhc, Function.update_apply]
/-- C8: `stepgen_stop_s_curve_dma(ctx, f_end, ramp_steps)` fills `stop_buf` with exactly
`build_s_curve_cycles(n, ctx.freq_target_hz, f_end floored at 0.1f, ctx.duty_cycle)`, where
`n = min(max(ramp_steps, 2), MAX_STEPS)`; called after a start it therefore ramps from the
target frequency and duty that start recorded; it programs the stop channel with count
`2n`; and it leaves `ramp_buf`, `steady_buf`, `freq_start_hz`, `freq_target_hz`,
`duty_cycle` and `ramp_steps` of the instance unchanged. -/
theorem stepgen_stop_effect (A : Arith) (P : Platform) (w : World) (ctx : Ptr)
    (freq_end_hz : Fp) (ramp_steps : ℕ) :
    clamp_ramp_steps ramp_steps = min (max ramp_steps 2) STEPGEN_DMA_MAX_STEPS ∧
    (safe_f_hz A freq_end_hz
      = if Fp.lt freq_end_hz (A.rf (1 / 10)) then A.rf (1 / 10) else freq_end_hz) ∧
    ((stepgen_stop_s_curve_dma A P w ctx freq_end_hz ramp_steps).heap ctx).stop_buf
      = build_s_curve_cycles A P.sys_hz (w.heap ctx).stop_buf (clamp_ramp_steps ramp_steps)
          (w.heap ctx).freq_target_hz (safe_f_hz A freq_end_hz) (w.heap ctx).duty_cycle ∧
    (∀ (fs ft duty : Fp) (r0 : ℕ),
      ((stepgen_stop_s_curve_dma A P (stepgen_start_s_curve_dma A P w ctx fs ft duty r0) ctx
          freq_end_hz ramp_steps).heap ctx).stop_buf
        = build_s_curve_cycles A P.sys_hz (w.heap ctx).stop_buf (clamp_ramp_steps ramp_steps)
            ft (safe_f_hz A freq_end_hz) duty) ∧
    ((stepgen_stop_s_curve_dma A P w ctx freq_end_hz ramp_steps).chan
        (int_to_uint (w.heap ctx).dma_stop_ch)).transfer_count
      = 2 * clamp_ramp_steps ramp_steps ∧
    ((stepgen_stop_s_curve_dma A P w ctx freq_end_hz ramp_steps).heap ctx).ramp_buf
      = (w.heap ctx).ramp_buf ∧
    ((stepgen_stop_s_curve_dma A P w ctx freq_end_hz ramp_steps).heap ctx).steady_buf
      = (w.heap ctx).steady_buf ∧
    ((stepgen_stop_s_curve_dma A P w ctx freq_end_hz ramp_steps).heap ctx).freq_start_hz
      = (w.heap ctx).freq_start_hz ∧
    ((stepgen_stop_s_curve_dma A P w ctx freq_end_hz ramp_steps).heap ctx).freq_target_hz
      = (w.heap ctx).freq_target_hz ∧
    ((stepgen_stop_s_curve_dma A P w ctx freq_end_hz ramp_steps).heap ctx).duty_cycle
      = (w.heap ctx).duty_cycle ∧
    ((stepgen_stop_s_curve_dma A P w ctx freq_end_hz ramp_steps).heap ctx).ramp_steps
      = (w.heap ctx).ramp_steps := by
  obtain ⟨_, hnmax⟩ := clamp_ramp_steps_range ramp_steps
  refine ⟨clamp_ramp_steps_eq ramp_steps, rfl, ?_, ?_, ?_, ?_, ?_, ?_, ?_, ?_, ?_⟩
  · rw [stop_heap]
  · intro fs ft duty r0
    rw [stop_heap, start_heap]
  · rw [stop_stop_chan]
    show (2 * clamp_ramp_steps ramp_steps) % 2 ^ 32 = _
    apply Nat.mod_eq_of_lt
    unfold STEPGEN_DMA_MAX_STEPS at hnmax
    omega
  all_goals rw [stop_heap]

/-- C9: for an instance whose stop channel is neither its ramp nor its steady channel (as
`stepgen_init` sets it up), running `stepgen_start_s_curve_dma` and then
`stepgen_stop_s_curve_dma` from any state of the channels leaves the stop channel armed -
a transfer of `2n` words from `stop_buf` to the state machine's TX FIFO, paced by it,
without ring, chained to no other channel, triggered, with its completion interrupt
enabled - and leaves the ramp channel and the steady channel aborted. -/
theorem start_then_stop_channels (A : Arith) (P : Platform) (w : World) (ctx : Ptr)
    (freq_start_hz freq_target_hz duty_cycle : Fp) (ramp_steps_start : ℕ)
    (freq_end_hz : Fp) (ramp_steps : ℕ)
    (hramp : int_to_uint (w.heap ctx).dma_ramp_ch ≠ int_to_uint (w.heap ctx).dma_stop_ch)
    (hsteady : int_to_uint (w.heap ctx).dma_steady_ch ≠ int_to_uint (w.heap ctx).dma_stop_ch) :
    (stepgen_stop_s_curve_dma A P
        (stepgen_start_s_curve_dma A P w ctx freq_start_hz freq_target_hz duty_cycle
          ramp_steps_start) ctx freq_end_hz ramp_steps).chan
        (int_to_uint (w.heap ctx).dma_stop_ch)
      = { cfg := { data_size := P.DMA_SIZE_32, read_increment := true, write_increment := false,
                   dreq := .pio_tx (w.heap ctx).pio (w.heap ctx).sm,
                   chain_to := int_to_uint (w.heap ctx).dma_stop_ch,
                   ring_write := false, ring_size_bits := 0 },
          write_addr := .txf (w.heap ctx).pio (w.heap ctx).sm,
          read_addr := .buf ctx .stop_buf,
          transfer_count := 2 * min (max ramp_steps 2) STEPGEN_DMA_MAX_STEPS,
          status := .running } ∧
    (stepgen_stop_s_curve_dma A P
        (stepgen_start_s_curve_dma A P w ctx freq_start_hz freq_target_hz duty_cycle
          ramp_steps_start) ctx freq_end_hz ramp_steps).inte0
        (int_to_uint (w.heap ctx).dma_stop_ch) = true ∧
    ((stepgen_stop_s_curve_dma A P
        (stepgen_start_s_curve_dma A P w ctx freq_start_hz freq_target_hz duty_cycle
          ramp_steps_start) ctx freq_end_hz ramp_steps).chan
        (int_to_uint (w.heap ctx).dma_ramp_ch)).status = .aborted ∧
    ((stepgen_stop_s_curve_dma A P
        (stepgen_start_s_curve_dma A P w ctx freq_start_hz freq_target_hz duty_cycle
          ramp_steps_start) ctx freq_end_hz ramp_steps).chan
        (int_to_uint (w.heap ctx).dma_steady_ch)).status = .aborted := by
  obtain ⟨i1, i2, i3, i4, i5⟩ := start_ids A P w ctx freq_start_hz freq_target_hz duty_cycle
    ramp_steps_start
  obtain ⟨_, hnmax⟩ := clamp_ramp_steps_range ramp_steps
  have hcount : (2 * clamp_ramp_steps ramp_steps) % 2 ^ 32
      = 2 * min (max ramp_steps 2) STEPGEN_DMA_MAX_STEPS := by
    rw [← clamp_ramp_steps_eq]
    apply Nat.mod_eq_of_lt
    unfold STEPGEN_DMA_MAX_STEPS at hnmax
    omega
  have h1 := stop_stop_chan A P (stepgen_start_s_curve_dma A P w ctx freq_start_hz
    freq_target_hz duty_cycle ramp_steps_start) ctx freq_end_hz ramp_steps
  have h2 := stop_inte0 A P (stepgen_start_s_curve_dma A P w ctx freq_start_hz
    freq_target_hz duty_cycle ramp_steps_start) ctx freq_end_hz ramp_steps
  have h3 := stop_other_chan A P (stepgen_start_s_curve_dma A P w ctx freq_start_hz
    freq_target_hz duty_cycle ramp_steps_start) ctx freq_end_hz ramp_steps
    (int_to_uint (w.heap ctx).dma_ramp_ch) (by rw [i3]; exact hramp) (Or.inl (by rw [i1]))
  have h4 := stop_other_chan A P (stepgen_start_s_curve_dma A P w ctx freq_start_hz
    freq_target_hz duty_cycle ramp_steps_start) ctx freq_end_hz ramp_steps
    (int_to_uint (w.heap ctx).dma_steady_ch) (by rw [i3]; exact hsteady) (Or.inr (by rw [i2]))
  rw [i3, i4, i5, hcount] at h1
  rw [i3] at h2
  exact ⟨h1, h2, h3, h4⟩
/-- Witness of C7: a start with 128 steps on the demo instance. -/
theorem stepgen_start_ramp_extent_witness :
    ((stepgen_start_s_curve_dma ieee demo_platform demo_world 0 (.fin 10) (.fin 1000)
        (.fin (1 / 2)) 128).heap 0).ramp_steps = 128 ∧
    ((stepgen_start_s_curve_dma ieee demo_platform demo_world 0 (.fin 10) (.fin 1000)
        (.fin (1 / 2)) 128).heap 0).ramp_buf (2 * 127)
      = (s_curve_pair ieee demo_platform.sys_hz (clamp_ramp_steps 128) (.fin 10) (.fin 1000)
          (.fin (1 / 2)) 127).1 :=
  ⟨(stepgen_start_ramp_extent ieee demo_platform demo_world 0 (.fin 10) (.fin 1000)
      (.fin (1 / 2)) 128).2.2.1 (by decide) (by decide),
   ((stepgen_start_ramp_extent ieee demo_platform demo_world 0 (.fin 10) (.fin 1000)
      (.fin (1 / 2)) 128).2.2.2.1 127 (by decide)).1⟩

/-- Witness of C9: start then stop on the demo instance, whose channels are 0, 1 and 2. -/
theorem start_then_stop_channels_witness :
    (stepgen_stop_s_curve_dma ieee demo_platform
        (stepgen_start_s_curve_dma ieee demo_platform demo_world 0 (.fin 10) (.fin 1000)
          (.fin (1 / 2)) 128) 0 (.fin 10) 64).inte0
        (int_to_uint (demo_world.heap 0).dma_stop_ch) = true ∧
    ((stepgen_stop_s_curve_dma ieee demo_platform
        (stepgen_start_s_curve_dma ieee demo_platform demo_world 0 (.fin 10) (.fin 1000)
          (.fin (1 / 2)) 128) 0 (.fin 10) 64).chan
        (int_to_uint (demo_world.heap 0).dma_ramp_ch)).status = .aborted ∧
    ((stepgen_stop_s_curve_dma ieee demo_platform
        (stepgen_start_s_curve_dma ieee demo_platform demo_world 0 (.fin 10) (.fin 1000)
          (.fin (1 / 2)) 128) 0 (.fin 10) 64).chan
        (int_to_uint (demo_world.heap 0).dma_steady_ch)).status = .aborted :=
  (start_then_stop_channels ieee demo_platform demo_world 0 (.fin 10) (.fin 1000)
    (.fin (1 / 2)) 128 (.fin 10) 64 (by decide) (by decide)).2

theorem bit_u32_eq {ch : ℕ} (h : ch < 32) : bit_u32 ch = 2 ^ ch := by
  unfold bit_u32
  rw [Nat.one_shiftLeft]
  exact Nat.mod_eq_of_lt (Nat.pow_lt_pow_right (by norm_num) h)

theorem and_bit_ne_zero_iff (ints : ℕ) {ch : ℕ} (h : ch < 32) :
    ints &&& bit_u32 ch ≠ 0 ↔ ints.testBit ch = true := by
  rw [bit_u32_eq h, Nat.and_two_pow]
  cases hb : ints.testBit ch
  · simp
  · simp

theorem testBit_clear (r : ℕ) {ch : ℕ} (h : ch < 32) (c : ℕ) :
    (r ^^^ (r &&& bit_u32 ch)).testBit c = (r.testBit c && !decide (ch = c)) := by
  rw [bit_u32_eq h, Nat.testBit_xor, Nat.testBit_and, Nat.testBit_two_pow]
  cases r.testBit c <;> cases decide (ch = c) <;> rfl

/-- One iteration of the handler loop on a channel that is serviced. -/
theorem irq0_channel_serviced (v : World) (ints : ℕ) {ch : ℕ} (h32 : ch < 32) (ctx : Ptr)
    (hbit : ints.testBit ch = true) (hreg : v.g_dma_ctx_map ch = some ctx)
    (hstop : (v.heap ctx).dma_stop_ch = (ch : ℤ)) :
    irq0_channel v ints ch
      = { v with
          ints0 := v.ints0 ^^^ (v.ints0 &&& bit_u32 ch)
          sm := (Function.update v.sm (lane_of v ctx) (silence_sm (v.sm (lane_of v ctx)))) } := by
  unfold irq0_channel
  rw [if_pos ((and_bit_ne_zero_iff ints h32).2 hbit)]
  simp only [hreg]
  rw [if_pos hstop]
  simp [write_ints0, pio_sm_set_enabled, pio_sm_set_pins, pio_sm_clear_fifos, lane_of,
    silence_sm]

/-- One iteration of the handler loop on a channel that is not serviced. -/
theorem irq0_channel_ignored (v : World) (ints : ℕ) {ch : ℕ} (h32 : ch < 32)
    (h : ¬ ∃ ctx, ints.testBit ch = true ∧ v.g_dma_ctx_map ch = some ctx ∧
      (v.heap ctx).dma_stop_ch = (ch : ℤ)) :
    irq0_channel v ints ch = v := by
  unfold irq0_channel
  by_cases hbit : ints.testBit ch = true
  · rw [if_pos ((and_bit_ne_zero_iff ints h32).2 hbit)]
    cases hreg : v.g_dma_ctx_map ch with
    | none => rfl
    | some ctx =>
      simp only
      rw [if_neg]
      intro hstop
      exact h ⟨ctx, hbit, hreg, hstop⟩
  · rw [if_neg]
    intro hc
    exact hbit ((and_bit_ne_zero_iff ints h32).1 hc)
theorem silence_sm_idem (s : SmState) : silence_sm (silence_sm s) = silence_sm s := rfl

/-- The state after the handler loop has visited the channels below `n`. -/
theorem handler_loop (w : World) (n : ℕ) (hn : n ≤ 32) :
    ((List.range n).foldl (fun u ch => irq0_channel u w.ints0 ch) w).heap = w.heap ∧
    ((List.range n).foldl (fun u ch => irq0_channel u w.ints0 ch) w).g_dma_ctx_map
      = w.g_dma_ctx_map ∧
    ((List.range n).foldl (fun u ch => irq0_channel u w.ints0 ch) w).chan = w.chan ∧
    ((List.range n).foldl (fun u ch => irq0_channel u w.ints0 ch) w).claimed = w.claimed ∧
    ((List.range n).foldl (fun u ch => irq0_channel u w.ints0 ch) w).inte0 = w.inte0 ∧
    ((List.range n).foldl (fun u ch => irq0_channel u w.ints0 ch) w).irq0_handler
      = w.irq0_handler ∧
    ((List.range n).foldl (fun u ch => irq0_channel u w.ints0 ch) w).irq0_enabled
      = w.irq0_enabled ∧
    (∀ c, (c < n ∧ ∃ ctx, pending_stop w c ctx) →
      ((List.range n).foldl (fun u ch => irq0_channel u w.ints0 ch) w).ints0.testBit c = false) ∧
    (∀ c, ¬ (c < n ∧ ∃ ctx, pending_stop w c ctx) →
      ((List.range n).foldl (fun u ch => irq0_channel u w.ints0 ch) w).ints0.testBit c
        = w.ints0.testBit c) ∧
    (∀ lane, (∃ c ctx, c < n ∧ pending_stop w c ctx ∧ lane_of w ctx = lane) →
      ((List.range n).foldl (fun u ch => irq0_channel u w.ints0 ch) w).sm lane
        = silence_sm (w.sm lane)) ∧
    (∀ lane, ¬ (∃ c ctx, c < n ∧ pending_stop w c ctx ∧ lane_of w ctx = lane) →
      ((List.range n).foldl (fun u ch => irq0_channel u w.ints0 ch) w).sm lane = w.sm lane) := by
  induction n with
  | zero =>
    refine ⟨rfl, rfl, rfl, rfl, rfl, rfl, rfl, ?_, ?_, ?_, ?_⟩
    · rintro c ⟨hc, _⟩; omega
    · intro c _; rfl
    · rintro lane ⟨c, _, hc, _⟩; omega
    · intro lane _; rfl
  | succ n ih =>
    obtain ⟨i1, i2, i3, i4, i5, i6, i7, i8, i9, i10, i11⟩ := ih (by omega)
    rw [List.range_succ, List.foldl_append]
    simp only [List.foldl_cons, List.foldl_nil]
    generalize (List.range n).foldl (fun u ch => irq0_channel u w.ints0 ch) w = v at *
    by_cases hsv : ∃ ctx, pending_stop w n ctx
    · obtain ⟨ctx, hbit, hreg, hstop⟩ := hsv
      have hlane : lane_of v ctx = lane_of w ctx := by unfold lane_of; rw [i1]
      rw [irq0_channel_serviced v w.ints0 (by omega) ctx hbit (by rw [i2]; exact hreg)
        (by rw [i1]; exact hstop), hlane]
      refine ⟨i1, i2, i3, i4, i5, i6, i7, ?_, ?_, ?_, ?_⟩
      · rintro c ⟨hc, hex⟩
        show (v.ints0 ^^^ (v.ints0 &&& bit_u32 n)).testBit c = false
        rw [testBit_clear v.ints0 (by omega)]
        by_cases hcn : n = c
        · simp [hcn]
        · rw [i8 c ⟨by omega, hex⟩]
          rfl
      · intro c hc
        show (v.ints0 ^^^ (v.ints0 &&& bit_u32 n)).testBit c = _
        rw [testBit_clear v.ints0 (by omega)]
        have hcn : ¬ n = c := by
          intro e
          exact hc ⟨by omega, ⟨ctx, by rw [← e]; exact ⟨hbit, hreg, hstop⟩⟩⟩
        rw [decide_eq_false hcn, i9 c (fun h => hc ⟨by omega, h.2⟩)]
        simp
      · rintro lane ⟨c, ctx', hc, hp, hl⟩
        show Function.update v.sm (lane_of w ctx) (silence_sm (v.sm (lane_of w ctx))) lane = _
        by_cases hll : lane = lane_of w ctx
        · subst hll
          rw [Function.update_same]
          by_cases hold : ∃ c ctx', c < n ∧ pending_stop w c ctx' ∧ lane_of w ctx' = lane_of w ctx
          · rw [i10 _ hold, silence_sm_idem]
          · rw [i11 _ hold]
        · rw [Function.update_noteq hll]
          apply i10
          refine ⟨c, ctx', ?_, hp, hl⟩
          rcases Nat.lt_succ_iff_lt_or_eq.1 hc with h | h
          · exact h
          · exfalso
            subst h
            have : some ctx' = some ctx := by rw [← hp.2.1, ← hreg]
            cases this
            exact hll hl.symm
      · intro lane hno
        show Function.update v.sm (lane_of w ctx) (silence_sm (v.sm (lane_of w ctx))) lane = _
        have hll : lane ≠ lane_of w ctx := by
          intro e
          exact hno ⟨n, ctx, by omega, ⟨hbit, hreg, hstop⟩, e.symm⟩
        rw [Function.update_noteq hll]
        apply i11
        rintro ⟨c, ctx', hc, hp, hl⟩
        exact hno ⟨c, ctx', by omega, hp, hl⟩
    · have hign : irq0_channel v w.ints0 n = v := by
        apply irq0_channel_ignored v w.ints0 (by omega)
        rintro ⟨ctx, hbit, hreg, hstop⟩
        exact hsv ⟨ctx, hbit, by rw [← i2]; exact hreg, by rw [← i1]; exact hstop⟩
      rw [hign]
      refine ⟨i1, i2, i3, i4, i5, i6, i7, ?_, ?_, ?_, ?_⟩
      · rintro c ⟨hc, hex⟩
        apply i8
        refine ⟨?_, hex⟩
        rcases Nat.lt_succ_iff_lt_or_eq.1 hc with h | h
        · exact h
        · exfalso; subst h; exact hsv hex
      · intro c hc
        apply i9
        rintro ⟨h1, h2⟩
        exact hc ⟨by omega, h2⟩
      · rintro lane ⟨c, ctx', hc, hp, hl⟩
        apply i10
        refine ⟨c, ctx', ?_, hp, hl⟩
        rcases Nat.lt_succ_iff_lt_or_eq.1 hc with h | h
        · exact h
        · exfalso; subst h; exact hsv ⟨ctx', hp⟩
      · intro lane hno
        apply i11
        rintro ⟨c, ctx', hc, hp, hl⟩
        exact hno ⟨c, ctx', by omega, hp, hl⟩
theorem handler_noop (w : World) (n : ℕ) (hn : n ≤ 32)
    (h : ∀ ch ctx, ch < n → ¬ pending_stop w ch ctx) :
    (List.range n).foldl (fun u ch => irq0_channel u w.ints0 ch) w = w := by
  induction n with
  | zero => rfl
  | succ n ih =>
    rw [List.range_succ, List.foldl_append, ih (by omega) (fun ch ctx hc => h ch ctx (by omega))]
    simp only [List.foldl_cons, List.foldl_nil]
    apply irq0_channel_ignored w w.ints0 (by omega)
    rintro ⟨ctx, hp⟩
    exact h n ctx (by omega) hp

/-- C10: for every pending mask and every registry content (with at most 32 channels, the
width of the mask), one run of `stepgen_dma_irq0_handler` clears the pending flag of
exactly the set bits `ch` whose registry entry is an instance with `dma_stop_ch = ch`;
it disables the sequencer, forces the pins low and empties the FIFOs of every instance
for which there is such a bit; it leaves as it was every state machine that belongs to no
such instance, so that an instance without such a bit (and sharing its state machine with
no serviced instance) is untouched; it changes nothing else; and when no set bit is of
that kind it changes nothing at all. -/
theorem stepgen_dma_irq0_handler_effect (P : Platform) (w : World)
    (hN : P.NUM_DMA_CHANNELS ≤ 32) :
    (∀ ch, (∃ ctx, serviced P w ch ctx) →
      (stepgen_dma_irq0_handler P w).ints0.testBit ch = false) ∧
    (∀ ch, ¬ (∃ ctx, serviced P w ch ctx) →
      (stepgen_dma_irq0_handler P w).ints0.testBit ch = w.ints0.testBit ch) ∧
    (∀ ctx, (∃ ch, serviced P w ch ctx) →
      (stepgen_dma_irq0_handler P w).sm (lane_of w ctx) = silence_sm (w.sm (lane_of w ctx))) ∧
    (∀ lane, (∀ ch ctx, serviced P w ch ctx → lane_of w ctx ≠ lane) →
      (stepgen_dma_irq0_handler P w).sm lane = w.sm lane) ∧
    (∀ ctx, ¬ (∃ ch, serviced P w ch ctx) →
      (∀ ch other, serviced P w ch other → lane_of w other = lane_of w ctx → other = ctx) →
      (stepgen_dma_irq0_handler P w).sm (lane_of w ctx) = w.sm (lane_of w ctx)) ∧
    ((stepgen_dma_irq0_handler P w).heap = w.heap ∧
     (stepgen_dma_irq0_handler P w).g_dma_ctx_map = w.g_dma_ctx_map ∧
     (stepgen_dma_irq0_handler P w).chan = w.chan ∧
     (stepgen_dma_irq0_handler P w).claimed = w.claimed ∧
     (stepgen_dma_irq0_handler P w).inte0 = w.inte0 ∧
     (stepgen_dma_irq0_handler P w).irq0_handler = w.irq0_handler ∧
     (stepgen_dma_irq0_handler P w).irq0_enabled = w.irq0_enabled) ∧
    ((∀ ch ctx, ¬ serviced P w ch ctx) → stepgen_dma_irq0_handler P w = w) := by
  obtain ⟨i1, i2, i3, i4, i5, i6, i7, i8, i9, i10, i11⟩ := handler_loop w P.NUM_DMA_CHANNELS hN
  have hdef : stepgen_dma_irq0_handler P w
      = (List.range P.NUM_DMA_CHANNELS).foldl (fun u ch => irq0_channel u w.ints0 ch) w := rfl
  rw [hdef]
  have hlane : ∀ lane, (∀ ch ctx, serviced P w ch ctx → lane_of w ctx ≠ lane) →
      ((List.range P.NUM_DMA_CHANNELS).foldl (fun u ch => irq0_channel u w.ints0 ch) w).sm lane
        = w.sm lane := by
    intro lane hno
    apply i11
    rintro ⟨c, ctx, hc, hp, hl⟩
    exact hno c ctx ⟨hc, hp⟩ hl
  refine ⟨?_, ?_, ?_, hlane, ?_, ⟨i1, i2, i3, i4, i5, i6, i7⟩, ?_⟩
  · rintro ch ⟨ctx, hc, hp⟩
    exact i8 ch ⟨hc, ctx, hp⟩
  · intro ch hno
    apply i9
    rintro ⟨hc, ctx, hp⟩
    exact hno ⟨ctx, hc, hp⟩
  · rintro ctx ⟨ch, hc, hp⟩
    exact i10 _ ⟨ch, ctx, hc, hp, rfl⟩
  · intro ctx hno hexcl
    apply hlane
    intro ch other hs hl
    exact hno ⟨ch, by rw [← hexcl ch other hs hl]; exact hs⟩
  · intro hnone
    exact handler_noop w P.NUM_DMA_CHANNELS hN (fun ch ctx hc hp => hnone ch ctx ⟨hc, hp⟩)

/-- Witness of C10: in the demo world the bits 2 and 5 are pending; channel 2 is the stop
channel of the registered instance at address 0, channel 5 has no registry entry. -/
theorem stepgen_dma_irq0_handler_effect_witness :
    (stepgen_dma_irq0_handler demo_platform demo_world).ints0.testBit 2 = false ∧
    (stepgen_dma_irq0_handler demo_platform demo_world).ints0.testBit 5
      = demo_world.ints0.testBit 5 ∧
    (stepgen_dma_irq0_handler demo_platform demo_world).sm (lane_of demo_world 0)
      = silence_sm (demo_world.sm (lane_of demo_world 0)) :=
  ⟨(stepgen_dma_irq0_handler_effect demo_platform demo_world (by decide)).1 2
      ⟨0, by decide, by decide, rfl, rfl⟩,
   (stepgen_dma_irq0_handler_effect demo_platform demo_world (by decide)).2.1 5
      (by rintro ⟨ctx, _, _, h, _⟩; cases h),
   (stepgen_dma_irq0_handler_effect demo_platform demo_world (by decide)).2.2.1 0
      ⟨2, by decide, by decide, rfl, rfl⟩⟩

theorem start_heap_other (A : Arith) (P : Platform) (w : World) (ctx other : Ptr)
    (fs ft duty : Fp) (ramp_steps : ℕ) (h : other ≠ ctx) :
    (stepgen_start_s_curve_dma A P w other fs ft duty ramp_steps).heap ctx = w.heap ctx := by
  simp [stepgen_start_s_curve_dma, abort_all, restart_sm, dma_channel_abort,
    dma_channel_configure, pio_sm_set_enabled, pio_sm_clear_fifos, pio_sm_exec_jmp,
    Function.update_noteq h.symm]

theorem stop_heap_other (A : Arith) (P : Platform) (w : World) (ctx other : Ptr)
    (fe : Fp) (ramp_steps : ℕ) (h : other ≠ ctx) :
    (stepgen_stop_s_curve_dma A P w other fe ramp_steps).heap ctx = w.heap ctx := by
  simp [stepgen_stop_s_curve_dma, abort_all, restart_sm, dma_channel_abort,
    dma_channel_configure, pio_sm_set_enabled, pio_sm_clear_fifos, pio_sm_exec_jmp,
    dma_channel_set_irq0_enabled, Function.update_noteq h.symm]

/-- What C11 says of the instance at `ctx` in the world `w`, `base` being the content of
`steady_buf` before the first start. -/
theorem steady_after_call (A : Arith) (P : Platform) (ctx : Ptr) (base : ℕ → ℕ) (w : World)
    (c : Call)
    (h : ((w.heap ctx).steady_buf 0, (w.heap ctx).steady_buf 1)
        = build_constant_cycles_pair A P.sys_hz (w.heap ctx).freq_target_hz
            (w.heap ctx).duty_cycle ∧
      ∀ j, 2 ≤ j → (w.heap ctx).steady_buf j = base j) :
    (((run_call A P w c).heap ctx).steady_buf 0, ((run_call A P w c).heap ctx).steady_buf 1)
        = build_constant_cycles_pair A P.sys_hz ((run_call A P w c).heap ctx).freq_target_hz
            ((run_call A P w c).heap ctx).duty_cycle ∧
      ∀ j, 2 ≤ j → ((run_call A P w c).heap ctx).steady_buf j = base j := by
  cases c with
  | start other fs ft duty r =>
    have e : run_call A P w (Call.start other fs ft duty r)
        = stepgen_start_s_curve_dma A P w other fs ft duty r := rfl
    rw [e]
    by_cases ho : other = ctx
    · subst ho
      rw [start_heap]
      refine ⟨rfl, ?_⟩
      intro j hj
      show (if j = 1 then _ else if j = 0 then _ else (w.heap other).steady_buf j) = base j
      rw [if_neg (by omega), if_neg (by omega)]
      exact h.2 j hj
    · rw [start_heap_other A P w ctx other fs ft duty r ho]
      exact h
  | stop other fe r =>
    have e : run_call A P w (Call.stop other fe r)
        = stepgen_stop_s_curve_dma A P w other fe r := rfl
    rw [e]
    by_cases ho : other = ctx
    · subst ho
      rw [stop_heap]
      exact h
    · rw [stop_heap_other A P w ctx other fe r ho]
      exact h

theorem steady_after_calls (A : Arith) (P : Platform) (ctx : Ptr) (base : ℕ → ℕ)
    (calls : List Call) :
    ∀ w : World,
      (((w.heap ctx).steady_buf 0, (w.heap ctx).steady_buf 1)
          = build_constant_cycles_pair A P.sys_hz (w.heap ctx).freq_target_hz
              (w.heap ctx).duty_cycle ∧
        ∀ j, 2 ≤ j → (w.heap ctx).steady_buf j = base j) →
      ((((run_calls A P w calls).heap ctx).steady_buf 0,
          ((run_calls A P w calls).heap ctx).steady_buf 1)
          = build_constant_cycles_pair A P.sys_hz
              ((run_calls A P w calls).heap ctx).freq_target_hz
              ((run_calls A P w calls).heap ctx).duty_cycle ∧
        ∀ j, 2 ≤ j → ((run_calls A P w calls).heap ctx).steady_buf j = base j) := by
  induction calls with
  | nil => intro w h; exact h
  | cons c rest ih =>
    intro w h
    have e : run_calls A P w (c :: rest) = run_calls A P (run_call A P w c) rest := rfl
    rw [e]
    exact ih (run_call A P w c) (steady_after_call A P ctx base w c h)
/-- C11: after any sequence of start and stop calls (on this or on other instances) that
begins with a start on the instance, the words 0 and 1 of its `steady_buf` are exactly
`build_constant_cycles_pair(freq_target_hz, duty_cycle)` for the target frequency and duty
then recorded on the instance, and no other word of `steady_buf` was ever written; each
start overwrites both words and stop changes none; with a 125,000,000 Hz clock, a
1000 Hz target and duty `0.5` the total is 125,000 cycles and the two words are
`62500, 62500`. -/
theorem steady_buf_holds_cruise_pair (A : Arith) (P : Platform) (w : World) (ctx : Ptr)
    (freq_start_hz freq_target_hz duty_cycle : Fp) (ramp_steps : ℕ) (rest : List Call) :
    ((((run_calls A P w
          (Call.start ctx freq_start_hz freq_target_hz duty_cycle ramp_steps :: rest)).heap
          ctx).steady_buf 0,
      ((run_calls A P w
          (Call.start ctx freq_start_hz freq_target_hz duty_cycle ramp_steps :: rest)).heap
          ctx).steady_buf 1)
      = build_constant_cycles_pair A P.sys_hz
          ((run_calls A P w
            (Call.start ctx freq_start_hz freq_target_hz duty_cycle ramp_steps :: rest)).heap
            ctx).freq_target_hz
          ((run_calls A P w
            (Call.start ctx freq_start_hz freq_target_hz duty_cycle ramp_steps :: rest)).heap
            ctx).duty_cycle) ∧
    (∀ j, 2 ≤ j →
      ((run_calls A P w
          (Call.start ctx freq_start_hz freq_target_hz duty_cycle ramp_steps :: rest)).heap
          ctx).steady_buf j = (w.heap ctx).steady_buf j) ∧
    ((((stepgen_start_s_curve_dma A P w ctx freq_start_hz freq_target_hz duty_cycle
          ramp_steps).heap ctx).steady_buf 0,
      ((stepgen_start_s_curve_dma A P w ctx freq_start_hz freq_target_hz duty_cycle
          ramp_steps).heap ctx).steady_buf 1)
      = build_constant_cycles_pair A P.sys_hz freq_target_hz duty_cycle) ∧
    (∀ (freq_end_hz : Fp) (n : ℕ),
      ((stepgen_stop_s_curve_dma A P w ctx freq_end_hz n).heap ctx).steady_buf
        = (w.heap ctx).steady_buf) ∧
    total_cycles_of ieee 125000000 (.fin 1000) = 125000 ∧
    build_constant_cycles_pair ieee 125000000 (.fin 1000) (.fin (1 / 2)) = (62500, 62500) ∧
    ((stepgen_start_s_curve_dma ieee demo_platform demo_world 0 (.fin 10) (.fin 1000)
        (.fin (1 / 2)) 128).heap 0).steady_buf 0 = 62500 ∧
    ((stepgen_start_s_curve_dma ieee demo_platform demo_world 0 (.fin 10) (.fin 1000)
        (.fin (1 / 2)) 128).heap 0).steady_buf 1 = 62500 := by
  have hstart : (((stepgen_start_s_curve_dma A P w ctx freq_start_hz freq_target_hz duty_cycle
        ramp_steps).heap ctx).steady_buf 0,
      ((stepgen_start_s_curve_dma A P w ctx freq_start_hz freq_target_hz duty_cycle
        ramp_steps).heap ctx).steady_buf 1)
      = build_constant_cycles_pair A P.sys_hz
          ((stepgen_start_s_curve_dma A P w ctx freq_start_hz freq_target_hz duty_cycle
            ramp_steps).heap ctx).freq_target_hz
          ((stepgen_start_s_curve_dma A P w ctx freq_start_hz freq_target_hz duty_cycle
            ramp_steps).heap ctx).duty_cycle ∧
      ∀ j, 2 ≤ j → ((stepgen_start_s_curve_dma A P w ctx freq_start_hz freq_target_hz
        duty_cycle ramp_steps).heap ctx).steady_buf j = (w.heap ctx).steady_buf j := by
    rw [start_heap]
    refine ⟨rfl, ?_⟩
    intro j hj
    show (if j = 1 then _ else if j = 0 then _ else (w.heap ctx).steady_buf j) = _
    rw [if_neg (by omega), if_neg (by omega)]
  have e : run_calls A P w
      (Call.start ctx freq_start_hz freq_target_hz duty_cycle ramp_steps :: rest)
      = run_calls A P (stepgen_start_s_curve_dma A P w ctx freq_start_hz freq_target_hz
          duty_cycle ramp_steps) rest := rfl
  rw [e]
  obtain ⟨h1, h2⟩ := steady_after_calls A P ctx (w.heap ctx).steady_buf rest _ hstart
  refine ⟨h1, h2, ?_, ?_, by decide!, by decide!, ?_, ?_⟩
  · rw [start_heap]
    rfl
  · intro fe n
    rw [stop_heap]
  · rw [start_heap]
    show (build_constant_cycles_pair ieee 125000000 (.fin 1000) (.fin (1 / 2))).1 = 62500
    decide!
  · rw [start_heap]
    show (build_constant_cycles_pair ieee 125000000 (.fin 1000) (.fin (1 / 2))).2 = 62500
    decide!

/-! ## Monotonicity of rounding -/

theorem rne_mono {x y : ℚ} (h : x ≤ y) : rne x ≤ rne y := by
  have hf : ⌊x⌋ ≤ ⌊y⌋ := Int.floor_mono h
  rcases lt_or_eq_of_le hf with hlt | heq
  · have h1 : rne x ≤ ⌊x⌋ + 1 := by
      rcases rne_cases x with e | ⟨e, _⟩ <;> omega
    have h2 : ⌊y⌋ ≤ rne y := le_rne (Int.floor_le y)
    omega
  · unfold rne
    simp only
    rw [heq]
    have hxy : x - (⌊y⌋ : ℚ) ≤ y - (⌊y⌋ : ℚ) := by linarith
    by_cases hy1 : y - (⌊y⌋ : ℚ) < 1 / 2
    · rw [if_pos hy1, if_pos (lt_of_le_of_lt hxy hy1)]
    · rw [if_neg hy1]
      by_cases hy2 : 1 / 2 < y - (⌊y⌋ : ℚ)
      · rw [if_pos hy2]
        split_ifs <;> omega
      · rw [if_neg hy2]
        have hyeq : y - (⌊y⌋ : ℚ) = 1 / 2 := le_antisymm (not_lt.1 hy2) (not_lt.1 hy1)
        by_cases hx1 : x - (⌊y⌋ : ℚ) < 1 / 2
        · rw [if_pos hx1]
          split_ifs <;> omega
        · have hxeq : x - (⌊y⌋ : ℚ) = 1 / 2 := le_antisymm (by linarith) (not_lt.1 hx1)
          rw [if_neg hx1, if_neg (by linarith)]

theorem rne_neg (x : ℚ) : rne (-x) = -rne x := by
  by_cases hint : (⌊x⌋ : ℚ) = x
  · rw [← hint]
    have : -((⌊x⌋ : ℤ) : ℚ) = ((-⌊x⌋ : ℤ) : ℚ) := by push_cast; ring
    rw [this, rne_intCast, rne_intCast]
  · have hlt : (⌊x⌋ : ℚ) < x := lt_of_le_of_ne (Int.floor_le x) hint
    have hlt2 : x < (⌊x⌋ : ℚ) + 1 := Int.lt_floor_add_one x
    have hfl : ⌊-x⌋ = -⌊x⌋ - 1 := by
      rw [Int.floor_eq_iff]
      push_cast
      constructor <;> linarith
    unfold rne
    simp only
    rw [hfl]
    push_cast
    by_cases h1 : x - (⌊x⌋ : ℚ) < 1 / 2
    · rw [if_pos h1, if_neg (by linarith), if_pos (by linarith)]
      ring
    · rw [if_neg h1]
      by_cases h2 : 1 / 2 < x - (⌊x⌋ : ℚ)
      · rw [if_pos h2, if_pos (by linarith)]
        ring
      · rw [if_neg h2, if_neg (by linarith), if_neg (by linarith)]
        by_cases hpar : ⌊x⌋ % 2 = 0
        · rw [if_pos hpar, if_neg (by omega)]
          ring
        · rw [if_neg hpar, if_pos (by omega)]
          ring

theorem ilog2_neg (q : ℚ) : ilog2 (-q) = ilog2 q := by
  unfold ilog2
  simp only [Rat.num_neg_eq_neg_num, Rat.den_neg_eq_den, Int.natAbs_neg, abs_neg]

theorem ulpExp_neg (F : Format) (q : ℚ) : ulpExp F (-q) = ulpExp F q := by
  unfold ulpExp
  rw [ilog2_neg]

theorem roundFp_neg (F : Format) (q : ℚ) : roundFp F (-q) = Fp.neg (roundFp F q) := by
  by_cases hq : q = 0
  · rw [hq, neg_zero, roundFp_zero]
    show Fp.fin 0 = Fp.fin (-0)
    rw [neg_zero]
  · have hnq : -q ≠ 0 := neg_ne_zero.2 hq
    rw [roundFp_eq F (-q) hnq, roundFp_eq F q hq, ulpExp_neg, neg_div, rne_neg]
    push_cast
    rw [neg_mul, abs_neg]
    by_cases hfin : |(rne (q / pow2 (ulpExp F q)) : ℚ) * pow2 (ulpExp F q)| < pow2 (F.emax + 1)
    · rw [if_pos hfin, if_pos hfin]
      rfl
    · rw [if_neg hfin, if_neg hfin]
      show Fp.inf (decide (-q < 0)) = Fp.inf (!decide (q < 0))
      congr 1
      rcases lt_or_gt_of_ne hq with h | h
      · rw [decide_eq_true h, decide_eq_false (by linarith)]
        rfl
      · rw [decide_eq_false (not_lt.2 h.le), decide_eq_true (show -q < 0 by linarith)]
        rfl

theorem ilog2_mono {x y : ℚ} (hx : x ≠ 0) (hy : y ≠ 0) (h : |x| ≤ |y|) : ilog2 x ≤ ilog2 y := by
  have h1 := (ilog2_spec x hx).1
  have h2 := (ilog2_spec y hy).2
  have := lt_of_pow2_lt_pow2 (lt_of_le_of_lt (le_trans h1 h) h2)
  omega

theorem ulpExp_mono (F : Format) {x y : ℚ} (hx : x ≠ 0) (hy : y ≠ 0) (h : |x| ≤ |y|) :
    ulpExp F x ≤ ulpExp F y := by
  unfold ulpExp
  have := ilog2_mono hx hy h
  have := max_le_max_right (1 - F.emax) this
  omega

/-- The rounded magnitudes of two positive rationals are ordered like the rationals. -/
theorem scaled_rne_mono (F : Format) (hF : F.ok) {x y : ℚ} (hx : 0 < x) (h : x ≤ y) :
    (rne (x / pow2 (ulpExp F x)) : ℚ) * pow2 (ulpExp F x)
      ≤ (rne (y / pow2 (ulpExp F y)) : ℚ) * pow2 (ulpExp F y) := by
  have hy : 0 < y := lt_of_lt_of_le hx h
  have hk := ulpExp_mono F hx.ne' hy.ne' (by rw [abs_of_pos hx, abs_of_pos hy]; exact h)
  rcases eq_or_lt_of_le hk with heq | hlt
  · rw [heq]
    have hu := pow2_pos (ulpExp F y)
    have h1 : x / pow2 (ulpExp F y) ≤ y / pow2 (ulpExp F y) :=
      div_le_div_of_nonneg_right h hu.le
    have h2 : (rne (x / pow2 (ulpExp F y)) : ℚ) ≤ (rne (y / pow2 (ulpExp F y)) : ℚ) := by
      exact_mod_cast rne_mono h1
    exact mul_le_mul_of_nonneg_right h2 hu.le
  · -- different binades: the power of two that opens the binade of `y` separates them
    have hp1 := hF.1
    have hmax : (1 - F.emax) ≤ ilog2 y := by
      unfold ulpExp at hlt
      rcases le_total (ilog2 y) (1 - F.emax) with hc | hc
      · rw [max_eq_right hc] at hlt
        have := le_max_right (ilog2 x) (1 - F.emax)
        omega
      · exact hc
    have hEy : ulpExp F y = ilog2 y - ((F.prec : ℤ) - 1) := by
      unfold ulpExp; rw [max_eq_left hmax]
    have hB1 : pow2 (ilog2 y) ≤ (rne (y / pow2 (ulpExp F y)) : ℚ) * pow2 (ulpExp F y) := by
      have h1 := (ilog2_spec y hy.ne').1
      rw [abs_of_pos hy, pow2_ilog2_eq F hF hmax] at h1
      have h2 := scaled_le_rne (pow2_pos (ulpExp F y)) h1
      rw [← pow2_ilog2_eq F hF hmax] at h2
      exact h2
    have hxlt : x ≤ pow2 (ilog2 y) := by
      have h1 := (ilog2_spec x hx.ne').2
      rw [abs_of_pos hx] at h1
      have h2 : pow2 (ilog2 x + 1) ≤ pow2 (ilog2 y) := by
        apply pow2_le_pow2
        have hEx : ilog2 x - ((F.prec : ℤ) - 1) ≤ ulpExp F x := by
          unfold ulpExp
          have := le_max_left (ilog2 x) (1 - F.emax)
          omega
        omega
      linarith
    obtain ⟨z, hz⟩ := @int_scaled_of_exp_le 1 (ilog2 y) (ulpExp F x) (by omega)
    rw [Int.cast_one, one_mul] at hz
    have hB2 := rne_scaled_le (pow2_pos (ulpExp F x)) (q := x) (z := z) (by rw [← hz]; exact hxlt)
    rw [← hz] at hB2
    exact le_trans hB2 hB1
theorem Fp.le_neg_neg (a b : Fp) : Fp.le (Fp.neg a) (Fp.neg b) = Fp.le b a := by
  cases a with
  | nan => cases b <;> rfl
  | inf s =>
    cases b with
    | nan => rfl
    | inf t => cases s <;> cases t <;> rfl
    | fin y => cases s <;> rfl
  | fin x =>
    cases b with
    | nan => rfl
    | inf t => cases t <;> rfl
    | fin y =>
      show decide (-x ≤ -y) = decide (y ≤ x)
      rw [decide_eq_decide]
      exact neg_le_neg_iff

theorem roundFp_mono_pos (F : Format) (hF : F.ok) {x y : ℚ} (hx : 0 < x) (h : x ≤ y) :
    Fp.le (roundFp F x) (roundFp F y) = true := by
  have hy : 0 < y := lt_of_lt_of_le hx h
  have hm := scaled_rne_mono F hF hx h
  have hx0 := scaled_le_rne (pow2_pos (ulpExp F x)) (q := x) (z := 0) (by simpa using hx.le)
  rw [Int.cast_zero, zero_mul] at hx0
  rw [roundFp_eq F x hx.ne', roundFp_eq F y hy.ne', decide_eq_false (not_lt.2 hx.le),
    decide_eq_false (not_lt.2 hy.le)]
  by_cases hfy : |(rne (y / pow2 (ulpExp F y)) : ℚ) * pow2 (ulpExp F y)| < pow2 (F.emax + 1)
  · have hfx : |(rne (x / pow2 (ulpExp F x)) : ℚ) * pow2 (ulpExp F x)| < pow2 (F.emax + 1) := by
      rw [abs_of_nonneg hx0]
      exact lt_of_le_of_lt hm (lt_of_le_of_lt (le_abs_self _) hfy)
    rw [if_pos hfy, if_pos hfx]
    exact decide_eq_true hm
  · rw [if_neg hfy]
    split_ifs <;> rfl

/-- Rounding is monotone. -/
theorem roundFp_mono (F : Format) (hF : F.ok) {x y : ℚ} (h : x ≤ y) :
    Fp.le (roundFp F x) (roundFp F y) = true := by
  rcases lt_trichotomy 0 x with hx | hx | hx
  · exact roundFp_mono_pos F hF hx h
  · subst hx
    rw [roundFp_zero]
    rcases roundFp_nonneg F h with e | ⟨r, e, hr⟩
    · rw [e]; rfl
    · rw [e]; exact decide_eq_true hr
  · rcases le_or_lt 0 y with hy | hy
    · rcases roundFp_nonpos F hx.le with e | ⟨r, e, hr⟩
      · rcases roundFp_nonneg F hy with e' | ⟨r', e', hr'⟩
        · rw [e, e']; rfl
        · rw [e, e']; rfl
      · rcases roundFp_nonneg F hy with e' | ⟨r', e', hr'⟩
        · rw [e, e']; rfl
        · rw [e, e']; exact decide_eq_true (le_trans hr hr')
    · have h' := roundFp_mono_pos F hF (x := -y) (y := -x) (by linarith) (by linarith)
      rw [roundFp_neg, roundFp_neg, Fp.le_neg_neg] at h'
      exact h'

theorem abs_rne_sub_le (x : ℚ) : |(rne x : ℚ) - x| ≤ 1 / 2 := by
  have h1 := Int.floor_le x
  have h2 := Int.lt_floor_add_one x
  unfold rne
  simp only
  rw [abs_le]
  split_ifs with a b c
  · constructor <;> linarith
  · push_cast; constructor <;> linarith
  · constructor <;> linarith [not_lt.1 a, not_lt.1 b]
  · push_cast; constructor <;> linarith [not_lt.1 a, not_lt.1 b]

/-- The absolute rounding error of a value of magnitude at most `2 ^ k`. -/
theorem roundFp_abs_err (F : Format) (_hF : F.ok) {q : ℚ} {k : ℤ} (hk : 1 - F.emax ≤ k)
    (hq : |q| ≤ pow2 k) {r : ℚ} (hr : roundFp F q = .fin r) :
    |r - q| ≤ pow2 (k - F.prec) := by
  by_cases h0 : q = 0
  · rw [h0, roundFp_zero] at hr
    cases hr
    rw [h0, sub_zero, abs_zero]
    exact (pow2_pos _).le
  · rw [roundFp_eq F q h0] at hr
    split_ifs at hr
    cases hr
    have hu := pow2_pos (ulpExp F q)
    have he : ulpExp F q ≤ k - ((F.prec : ℤ) - 1) := by
      unfold ulpExp
      have := ilog2_le_of_abs_le h0 hq
      have := max_le this hk
      omega
    have h1 := abs_rne_sub_le (q / pow2 (ulpExp F q))
    have h2 : (rne (q / pow2 (ulpExp F q)) : ℚ) * pow2 (ulpExp F q) - q
        = ((rne (q / pow2 (ulpExp F q)) : ℚ) - q / pow2 (ulpExp F q)) * pow2 (ulpExp F q) := by
      field_simp
    rw [h2, abs_mul, abs_of_pos hu]
    have h3 : pow2 (k - F.prec) = 1 / 2 * pow2 (k - ((F.prec : ℤ) - 1)) := by
      have : k - (F.prec : ℤ) = (k - ((F.prec : ℤ) - 1)) + (-1) := by ring
      rw [this, pow2_add]
      have : pow2 (-1) = 1 / 2 := by unfold pow2; norm_num
      rw [this]; ring
    rw [h3]
    exact mul_le_mul h1 (pow2_le_pow2 he) hu.le (by norm_num)

/-! ## The smoothstep samples in binary32 -/

/-- The exact cubic grows by much more than the rounding errors between two arguments in
`[1/256, 255/256]` that are `1/256` apart. -/
theorem cubic_gap {a b : ℚ} (ha : 1 / 256 ≤ a) (hab : a + 1 / 256 ≤ b) (hb : b ≤ 255 / 256) :
    (a * a + 1 / 2 ^ 24) * (3 - 2 * a + 1 / 2 ^ 21)
      ≤ (b * b - 1 / 2 ^ 24) * (3 - 2 * b - 1 / 2 ^ 21) := by
  have h1 : 0 ≤ (a - 1 / 256) * (255 / 256 - a) := mul_nonneg (by linarith) (by linarith)
  have h2 : 0 ≤ (b - 1 / 256) * (255 / 256 - b) := mul_nonneg (by linarith) (by linarith)
  have h3 : 0 ≤ a * (1 - b) := mul_nonneg (by linarith) (by linarith)
  have h4 : 0 ≤ b * (1 - a) := mul_nonneg (by linarith) (by linarith)
  have hg : 1 / 128 ≤ 3 * (a + b) - 2 * (a * a + a * b + b * b) := by nlinarith
  have hd : 1 / 256 * (1 / 128) ≤ (b - a) * (3 * (a + b) - 2 * (a * a + a * b + b * b)) :=
    mul_le_mul (by linarith) hg (by norm_num) (by linarith)
  have ha2 : a * a ≤ 1 := by nlinarith
  have hb2 : b * b ≤ 1 := by nlinarith
  nlinarith

theorem cubic_le_one {t : ℚ} (h0 : 0 ≤ t) (h1 : t ≤ 255 / 256) :
    (t * t + 1 / 2 ^ 24) * (3 - 2 * t + 1 / 2 ^ 21) ≤ 1 := by
  have h2 : 0 ≤ (255 / 256 - t) := by linarith
  have h3 : 1 / 256 * (1 / 256) ≤ (1 - t) * (1 - t) :=
    mul_le_mul (by linarith) (by linarith) (by norm_num) (by linarith)
  have h4 : (1 - t) * (1 - t) ≤ (1 - t) * (1 - t) * (1 + 2 * t) := by
    have : 0 ≤ (1 - t) * (1 - t) * (2 * t) := by positivity
    nlinarith
  have ht2 : t * t ≤ 1 := by nlinarith
  nlinarith

theorem pow2_neg_natCast (n : ℕ) : pow2 (-(n : ℤ)) = 1 / 2 ^ n := by
  unfold pow2
  rw [zpow_neg, zpow_natCast, one_div]

/-- A value in `[0, 2 ^ k]` rounds in binary32 to a finite value in the same interval, at
distance at most `2 ^ (k - 24)`. -/
theorem rf_near {q : ℚ} (k : ℕ) (hk : k ≤ 24) (h0 : 0 ≤ q) (h : q ≤ 2 ^ k) :
    ∃ r : ℚ, roundFp binary32 q = .fin r ∧ 0 ≤ r ∧ r ≤ 2 ^ k ∧ |r - q| ≤ 1 / 2 ^ (24 - k) := by
  obtain ⟨r, hr, hr0, hr1⟩ := roundFp_range binary32 binary32_ok (q := q) (m := 1) (j := k)
    (by unfold binary32; norm_num) (by unfold binary32; norm_num; omega) h0
    (by simpa using h)
  refine ⟨r, hr, hr0, by simpa using hr1, ?_⟩
  have he := roundFp_abs_err binary32 binary32_ok (q := q) (k := (k : ℤ))
    (by unfold binary32; norm_num; omega)
    (by rw [abs_of_nonneg h0, pow2_natCast]; exact h) hr
  have : (k : ℤ) - ((binary32.prec : ℕ) : ℤ) = -((24 - k : ℕ) : ℤ) := by
    unfold binary32
    push_cast [Nat.cast_sub hk]
    ring
  rw [this, pow2_neg_natCast] at he
  exact he

/-- The step fraction `(float)i / (float)(steps - 1)` is within `2 ^ -24` of the quotient. -/
theorem step_fraction_near {steps i : ℕ} (h2 : 2 ≤ steps) (hmax : steps ≤ 2 ^ 24)
    (hi : i < steps) :
    ∃ t : ℚ, Fp.div ieee.rf (u32_to_float ieee i) (u32_to_float ieee (u32_sub steps 1)) = .fin t
      ∧ 0 ≤ t ∧ t ≤ 1 ∧ |t - (i : ℚ) / ((steps - 1 : ℕ) : ℚ)| ≤ 1 / 2 ^ 24 := by
  rw [u32_sub_one (by omega) (by omega), u32_to_float_exact (n := i) (by omega),
    u32_to_float_exact (n := steps - 1) (by omega)]
  have hpos : (0 : ℚ) < ((steps - 1 : ℕ) : ℚ) := by
    have : 0 < steps - 1 := by omega
    exact_mod_cast this
  have hle : (i : ℚ) ≤ ((steps - 1 : ℕ) : ℚ) := by
    have : i ≤ steps - 1 := by omega
    exact_mod_cast this
  show ∃ t : ℚ, (if ((steps - 1 : ℕ) : ℚ) = 0 then _
    else ieee.rf ((i : ℚ) / ((steps - 1 : ℕ) : ℚ))) = Fp.fin t ∧ _
  rw [if_neg hpos.ne']
  obtain ⟨r, hr, hr0, hr1, he⟩ := rf_near (q := (i : ℚ) / ((steps - 1 : ℕ) : ℚ)) 0 (by norm_num)
    (div_nonneg (Nat.cast_nonneg _) hpos.le) (by rw [pow_zero]; exact (div_le_one hpos).2 hle)
  exact ⟨r, hr, hr0, by simpa using hr1, by simpa using he⟩

/-- Inside `(0, 1)` the binary32 smoothstep is the rounded product of two factors close to
`t * t` and `3 - 2 * t`. -/
theorem smoothstep_interior {t : ℚ} (h0 : 0 < t) (h1 : t < 1) :
    ∃ a b : ℚ, smoothstep ieee (.fin t) = roundFp binary32 (a * b)
      ∧ 0 ≤ a ∧ 0 ≤ b ∧ |a - t * t| ≤ 1 / 2 ^ 24 ∧ |b - (3 - 2 * t)| ≤ 1 / 2 ^ 21 := by
  obtain ⟨a, ha, ha0, -, hae⟩ := rf_near (q := t * t) 0 (by norm_num) (by positivity)
    (by rw [pow_zero]; nlinarith)
  obtain ⟨c, hc, hc0, hc1, hce⟩ := rf_near (q := 2 * t) 1 (by norm_num) (by positivity)
    (by linarith)
  obtain ⟨b, hb, hb0, -, hbe⟩ := rf_near (q := 3 + -c) 2 (by norm_num) (by linarith)
    (by linarith)
  refine ⟨a, b, ?_, ha0, hb0, by simpa using hae, ?_⟩
  · unfold smoothstep
    rw [if_neg (by show ¬ decide (t ≤ 0) = true; simpa using h0),
      if_neg (by show ¬ decide (1 ≤ t) = true; simpa using h1)]
    have e1 : Fp.mul ieee.rf (.fin t) (.fin t) = .fin a := ha
    have e2 : Fp.mul ieee.rf (.fin 2) (.fin t) = .fin c := hc
    have e3 : Fp.sub ieee.rf (.fin 3) (.fin c) = .fin b := hb
    rw [e1, e2, e3]
    rfl
  · have h3 := abs_le.1 hce
    have h4 := abs_le.1 hbe
    norm_num at h3 h4
    rw [abs_le]
    constructor <;> norm_num <;> linarith

/-- On `(0, 255/256]` the binary32 smoothstep is finite with a value in `[0, 1]`. -/
theorem smoothstep_interior_range {t : ℚ} (h0 : 0 < t) (h1 : t ≤ 255 / 256) :
    ∃ s : ℚ, smoothstep ieee (.fin t) = .fin s ∧ 0 ≤ s ∧ s ≤ 1 := by
  obtain ⟨a, b, e, ha0, hb0, hae, hbe⟩ := smoothstep_interior h0 (by linarith)
  have ha := abs_le.1 hae
  have hb := abs_le.1 hbe
  have hub : a * b ≤ 1 := by
    refine le_trans ?_ (cubic_le_one h0.le h1)
    exact mul_le_mul (by linarith) (by linarith) hb0 (by positivity)
  obtain ⟨s, hs, hs0, hs1, -⟩ := rf_near (q := a * b) 0 (by norm_num) (mul_nonneg ha0 hb0)
    (by simpa using hub)
  exact ⟨s, e.trans hs, hs0, by simpa using hs1⟩

/-- Between two arguments of `[1/256, 255/256]` that are at least `1/256` apart the binary32
smoothstep does not decrease. -/
theorem smoothstep_interior_mono {x y : ℚ} (hx : 1 / 256 ≤ x) (hxy : x + 1 / 256 ≤ y)
    (hy : y ≤ 255 / 256) :
    Fp.le (smoothstep ieee (.fin x)) (smoothstep ieee (.fin y)) = true := by
  obtain ⟨a, b, e, ha0, hb0, hae, hbe⟩ := smoothstep_interior (t := x) (by linarith) (by linarith)
  obtain ⟨a', b', e', ha0', hb0', hae', hbe'⟩ :=
    smoothstep_interior (t := y) (by linarith) (by linarith)
  rw [e, e']
  apply roundFp_mono binary32 binary32_ok
  have ha := abs_le.1 hae
  have hb := abs_le.1 hbe
  have ha' := abs_le.1 hae'
  have hb' := abs_le.1 hbe'
  have hy2 : (1 / 2 ^ 24 : ℚ) ≤ y * y := by nlinarith
  calc a * b ≤ (x * x + 1 / 2 ^ 24) * (3 - 2 * x + 1 / 2 ^ 21) :=
        mul_le_mul (by linarith) (by linarith) hb0 (by positivity)
    _ ≤ (y * y - 1 / 2 ^ 24) * (3 - 2 * y - 1 / 2 ^ 21) := cubic_gap hx hxy hy
    _ ≤ a' * b' := mul_le_mul (by linarith) (by linarith) (by linarith) ha0'

/-- A step fraction strictly inside a ramp of at most 256 steps lies in `[1/256, 255/256]`. -/
theorem step_fraction_interior {steps i : ℕ} (hmax : steps ≤ 256) (h1 : 1 ≤ i)
    (hi : i + 1 < steps) :
    ∃ t : ℚ, Fp.div ieee.rf (u32_to_float ieee i) (u32_to_float ieee (u32_sub steps 1)) = .fin t
      ∧ 1 / 256 ≤ t ∧ t ≤ 255 / 256 ∧ |t - (i : ℚ) / ((steps - 1 : ℕ) : ℚ)| ≤ 1 / 2 ^ 24 := by
  obtain ⟨t, ht, -, -, he⟩ := @step_fraction_near steps i (by omega)
    (by norm_num; omega) (by omega)
  have hpos : (0 : ℚ) < ((steps - 1 : ℕ) : ℚ) := by
    have : 0 < steps - 1 := by omega
    exact_mod_cast this
  have hn : ((steps - 1 : ℕ) : ℚ) ≤ 255 := by
    have : steps - 1 ≤ 255 := by omega
    exact_mod_cast this
  have hi1 : (1 : ℚ) ≤ (i : ℚ) := by exact_mod_cast h1
  have hin : (i : ℚ) + 1 ≤ ((steps - 1 : ℕ) : ℚ) := by
    have : i + 1 ≤ steps - 1 := by omega
    exact_mod_cast this
  have hlo : (1 / 255 : ℚ) ≤ (i : ℚ) / ((steps - 1 : ℕ) : ℚ) := by
    rw [le_div_iff₀ hpos]; linarith
  have hhi : (i : ℚ) / ((steps - 1 : ℕ) : ℚ) ≤ 254 / 255 := by
    rw [div_le_iff₀ hpos]; linarith
  have h := abs_le.1 he
  norm_num at h
  refine ⟨t, ht, ?_, ?_, he⟩
  · linarith
  · linarith

/-- The binary32 smoothstep of every step fraction of a ramp of at most 256 steps is a
finite value in `[0, 1]`. -/
theorem smoothstep_sample_range {steps i : ℕ} (h2 : 2 ≤ steps) (hmax : steps ≤ 256)
    (hi : i < steps) :
    ∃ s : ℚ, smoothstep ieee
        (Fp.div ieee.rf (u32_to_float ieee i) (u32_to_float ieee (u32_sub steps 1))) = .fin s
      ∧ 0 ≤ s ∧ s ≤ 1 := by
  rcases Nat.eq_zero_or_pos i with h0 | h0
  · subst h0
    rw [step_fraction_first h2 (by norm_num; omega), smoothstep_zero]
    exact ⟨0, rfl, le_rfl, zero_le_one⟩
  · by_cases hl : i + 1 < steps
    · obtain ⟨t, ht, ht0, ht1, -⟩ := step_fraction_interior hmax h0 hl
      rw [ht]
      exact smoothstep_interior_range (by linarith) ht1
    · have : i = steps - 1 := by omega
      subst this
      rw [step_fraction_last h2 (by norm_num; omega), smoothstep_one]
      exact ⟨1, rfl, zero_le_one, le_rfl⟩

/-- Along the step fractions of a ramp of at most 256 steps the binary32 smoothstep does not
decrease. -/
theorem smoothstep_sample_mono {steps i : ℕ} (h2 : 2 ≤ steps) (hmax : steps ≤ 256)
    (hi : i + 1 < steps) :
    ∃ s s' : ℚ,
      smoothstep ieee
        (Fp.div ieee.rf (u32_to_float ieee i) (u32_to_float ieee (u32_sub steps 1))) = .fin s ∧
      smoothstep ieee
        (Fp.div ieee.rf (u32_to_float ieee (i + 1)) (u32_to_float ieee (u32_sub steps 1)))
          = .fin s' ∧
      0 ≤ s ∧ s ≤ s' ∧ s' ≤ 1 := by
  obtain ⟨s, hs, hs0, hs1⟩ := smoothstep_sample_range (i := i) h2 hmax (by omega)
  obtain ⟨s', hs', hs0', hs1'⟩ := smoothstep_sample_range (i := i + 1) h2 hmax hi
  refine ⟨s, s', hs, hs', hs0, ?_, hs1'⟩
  rcases Nat.eq_zero_or_pos i with h0 | h0
  · subst h0
    rw [step_fraction_first h2 (by norm_num; omega), smoothstep_zero] at hs
    cases hs
    exact hs0'
  · by_cases hl : i + 2 < steps
    · obtain ⟨t, ht, ht0, ht1, he⟩ := step_fraction_interior hmax h0 (by omega : i + 1 < steps)
      obtain ⟨t', ht', ht0', ht1', he'⟩ := step_fraction_interior (i := i + 1) hmax (by omega) hl
      have hpos : (0 : ℚ) < ((steps - 1 : ℕ) : ℚ) := by
        have : 0 < steps - 1 := by omega
        exact_mod_cast this
      have hn : ((steps - 1 : ℕ) : ℚ) ≤ 255 := by
        have : steps - 1 ≤ 255 := by omega
        exact_mod_cast this
      have hgap : ((i + 1 : ℕ) : ℚ) / ((steps - 1 : ℕ) : ℚ) - (i : ℚ) / ((steps - 1 : ℕ) : ℚ)
          = 1 / ((steps - 1 : ℕ) : ℚ) := by
        rw [← sub_div, Nat.cast_succ, add_sub_cancel_left]
      have h255 : (1 / 255 : ℚ) ≤ 1 / ((steps - 1 : ℕ) : ℚ) :=
        one_div_le_one_div_of_le hpos hn
      have h := abs_le.1 he
      have h' := abs_le.1 he'
      have hm := smoothstep_interior_mono (x := t) (y := t') ht0 (by linarith) ht1'
      rw [ht] at hs
      rw [ht'] at hs'
      rw [hs, hs'] at hm
      simpa [Fp.le] using hm
    · have : i + 1 = steps - 1 := by omega
      rw [this, step_fraction_last h2 (by norm_num; omega), smoothstep_one] at hs'
      cases hs'
      exact hs1

/-! ## The period as a function of the frequency -/

theorem toUInt_mono (bits : ℕ) {a b : Fp} (h : Fp.le a b = true) :
    Fp.toUInt bits a ≤ Fp.toUInt bits b := by
  cases a with
  | nan => cases b <;> simp [Fp.le] at h
  | inf s =>
    cases b with
    | nan => simp [Fp.le] at h
    | inf s' =>
      cases s <;> cases s' <;> simp [Fp.le] at h <;> simp [Fp.toUInt]
    | fin y =>
      have hs : s = true := by simpa [Fp.le] using h
      subst hs
      simp [Fp.toUInt]
  | fin x =>
    cases b with
    | nan => simp [Fp.le] at h
    | inf s' =>
      have hs : s' = false := by simpa [Fp.le] using h
      subst hs
      simp [Fp.toUInt]
    | fin y =>
      have hxy : x ≤ y := by simpa [Fp.le] using h
      rw [toUInt_fin, toUInt_fin]
      have h1 : ⌊x⌋ ≤ ⌊y⌋ := Int.floor_mono hxy
      have h2 : ⌊x⌋.toNat ≤ ⌊y⌋.toNat := by omega
      exact min_le_min h2 le_rfl

theorem clamp_u32_mono {v v' lo hi : ℕ} (hlh : lo ≤ hi) (hhi : hi < 2 ^ 32) (h : v ≤ v') :
    clamp_u32 v lo hi ≤ clamp_u32 v' lo hi := by
  unfold clamp_u32
  by_cases h1 : v < lo
  · rw [if_pos h1]
    exact (clamp_u32_range v' lo hi hlh hhi).1
  · rw [if_neg h1, if_neg (by omega : ¬ v' < lo)]
    by_cases h2 : v > hi
    · rw [if_pos h2, if_pos (by omega : v' > hi)]
    · rw [if_neg h2, Nat.mod_eq_of_lt (by omega : v < 2 ^ 32)]
      by_cases h3 : v' > hi
      · rw [if_pos h3]; omega
      · rw [if_neg h3, Nat.mod_eq_of_lt (by omega : v' < 2 ^ 32)]
        exact h

/-- In binary32 the floor at `0.1f` of a finite frequency is the larger of the two. -/
theorem safe_f_hz_fin (q : ℚ) :
    safe_f_hz ieee (.fin q) = .fin (max q (13421773 / 134217728)) := by
  unfold safe_f_hz
  rw [ieee_tenth]
  by_cases h : q < 13421773 / 134217728
  · rw [if_pos (by show decide (q < 13421773 / 134217728) = true; exact decide_eq_true h),
      max_eq_right h.le]
  · rw [if_neg (by show ¬ decide (q < 13421773 / 134217728) = true; simpa using h),
      max_eq_left (not_lt.1 h)]

theorem safe_f_hz_inf_true : safe_f_hz ieee (.inf true) = .fin (13421773 / 134217728) := by
  unfold safe_f_hz
  rw [ieee_tenth]
  rfl

theorem safe_f_hz_inf_false : safe_f_hz ieee (.inf false) = .inf false := by
  unfold safe_f_hz
  rw [ieee_tenth]
  rfl

/-- The binary64 quotient `clock / f` for a divisor that is at least `0.1f`. -/
theorem div_tenth (sys_hz : ℕ) {q : ℚ} (hq : (13421773 / 134217728 : ℚ) ≤ q) :
    Fp.div ieee.rd (u32_to_double sys_hz) (.fin q) = roundFp binary64 ((sys_hz : ℚ) / q) := by
  have hq0 : q ≠ 0 := by
    have : (0 : ℚ) < q := lt_of_lt_of_le (by norm_num) hq
    exact this.ne'
  show (if q = 0 then _ else ieee.rd ((sys_hz : ℚ) / q)) = _
  rw [if_neg hq0]
  rfl

theorem div_le_div_tenth (sys_hz : ℕ) {q q' : ℚ} (hq : (13421773 / 134217728 : ℚ) ≤ q)
    (h : q ≤ q') :
    Fp.le (Fp.div ieee.rd (u32_to_double sys_hz) (.fin q'))
      (Fp.div ieee.rd (u32_to_double sys_hz) (.fin q)) = true := by
  rw [div_tenth sys_hz hq, div_tenth sys_hz (le_trans hq h)]
  apply roundFp_mono binary64 binary64_ok
  exact div_le_div_of_nonneg_left (Nat.cast_nonneg _) (lt_of_lt_of_le (by norm_num) hq) h

theorem zero_le_div_tenth (sys_hz : ℕ) {q : ℚ} (hq : (13421773 / 134217728 : ℚ) ≤ q) :
    Fp.le (.fin 0) (Fp.div ieee.rd (u32_to_double sys_hz) (.fin q)) = true := by
  rw [div_tenth sys_hz hq, ← roundFp_zero binary64]
  apply roundFp_mono binary64 binary64_ok
  exact div_nonneg (Nat.cast_nonneg _) (le_trans (by norm_num) hq)

/-- A larger frequency never has a longer period. -/
theorem total_cycles_of_antitone (sys_hz : ℕ) {f g : Fp} (h : Fp.le f g = true) :
    total_cycles_of ieee sys_hz g ≤ total_cycles_of ieee sys_hz f := by
  unfold total_cycles_of
  apply clamp_u32_mono (by norm_num) (by norm_num)
  apply toUInt_mono
  cases f with
  | nan => cases g <;> simp [Fp.le] at h
  | inf s =>
    cases g with
    | nan => simp [Fp.le] at h
    | inf s' =>
      cases s <;> cases s'
      · rw [safe_f_hz_inf_false]; rfl
      · simp [Fp.le] at h
      · rw [safe_f_hz_inf_false, safe_f_hz_inf_true]
        exact zero_le_div_tenth sys_hz le_rfl
      · rw [safe_f_hz_inf_true]
        exact div_le_div_tenth sys_hz le_rfl le_rfl
    | fin y =>
      have hs : s = true := by simpa [Fp.le] using h
      subst hs
      rw [safe_f_hz_inf_true, safe_f_hz_fin]
      exact div_le_div_tenth sys_hz le_rfl (le_max_right _ _)
  | fin x =>
    cases g with
    | nan => simp [Fp.le] at h
    | inf s' =>
      have hs : s' = false := by simpa [Fp.le] using h
      subst hs
      rw [safe_f_hz_inf_false, safe_f_hz_fin]
      exact zero_le_div_tenth sys_hz (le_max_right _ _)
    | fin y =>
      have hxy : x ≤ y := by simpa [Fp.le] using h
      rw [safe_f_hz_fin, safe_f_hz_fin]
      exact div_le_div_tenth sys_hz (le_max_right _ _) (max_le_max hxy le_rfl)

/-! ## The frequencies of a ramp in binary32 -/

theorem fin_le_fin {a b : ℚ} : Fp.le (.fin a) (.fin b) = true ↔ a ≤ b := by
  simp [Fp.le]

/-- The product of a float by a factor in `[0, 1]` does not overflow. -/
theorem mul_unit_finite {dd s : ℚ} (hd : roundFp binary32 dd = .fin dd) (h0 : 0 ≤ s)
    (h1 : s ≤ 1) : ∃ p : ℚ, roundFp binary32 (dd * s) = .fin p := by
  rcases le_total 0 dd with h | h
  · have hm := roundFp_mono binary32 binary32_ok (x := dd * s) (y := dd) (by nlinarith)
    rw [hd] at hm
    rcases roundFp_nonneg binary32 (q := dd * s) (mul_nonneg h h0) with e | ⟨r, hr, -⟩
    · rw [e] at hm
      simp [Fp.le] at hm
    · exact ⟨r, hr⟩
  · have hm := roundFp_mono binary32 binary32_ok (x := dd) (y := dd * s) (by nlinarith)
    rw [hd] at hm
    rcases roundFp_nonpos binary32 (q := dd * s) (mul_nonpos_of_nonpos_of_nonneg h h0)
      with e | ⟨r, hr, -⟩
    · rw [e] at hm
      simp [Fp.le] at hm
    · exact ⟨r, hr⟩

/-- When `f1 - f0` is finite, the frequency of a step is `f0 + (f1 - f0) * s` with a finite
product, `s` being the smoothstep of the step fraction. -/
theorem s_curve_f_hz_finite_diff {steps i : ℕ} (h2 : 2 ≤ steps) (hmax : steps ≤ 256)
    (hi : i < steps) {q0 q1 dd : ℚ} (hd : roundFp binary32 (q1 + -q0) = .fin dd) :
    ∃ s p : ℚ,
      smoothstep ieee
        (Fp.div ieee.rf (u32_to_float ieee i) (u32_to_float ieee (u32_sub steps 1))) = .fin s ∧
      0 ≤ s ∧ s ≤ 1 ∧ roundFp binary32 (dd * s) = .fin p ∧
      s_curve_f_hz ieee steps (.fin q0) (.fin q1) i = roundFp binary32 (q0 + p) := by
  obtain ⟨s, hs, hs0, hs1⟩ := smoothstep_sample_range (i := i) h2 hmax hi
  obtain ⟨p, hp⟩ := mul_unit_finite (roundFp_idem binary32 binary32_ok hd) hs0 hs1
  refine ⟨s, p, hs, hs0, hs1, hp, ?_⟩
  unfold s_curve_f_hz
  simp only
  rw [hs]
  have e1 : Fp.sub ieee.rf (.fin q1) (.fin q0) = .fin dd := hd
  have e2 : Fp.mul ieee.rf (.fin dd) (.fin s) = .fin p := hp
  rw [e1, e2]
  rfl

/-- With a finite difference the frequencies of consecutive steps are ordered like `f0`
and `f1`. -/
theorem s_curve_f_hz_mono {steps i : ℕ} (h2 : 2 ≤ steps) (hmax : steps ≤ 256)
    (hi : i + 1 < steps) {q0 q1 dd : ℚ} (hd : roundFp binary32 (q1 + -q0) = .fin dd) :
    (0 ≤ dd → Fp.le (s_curve_f_hz ieee steps (.fin q0) (.fin q1) i)
      (s_curve_f_hz ieee steps (.fin q0) (.fin q1) (i + 1)) = true) ∧
    (dd ≤ 0 → Fp.le (s_curve_f_hz ieee steps (.fin q0) (.fin q1) (i + 1))
      (s_curve_f_hz ieee steps (.fin q0) (.fin q1) i) = true) := by
  obtain ⟨s, p, hs, -, -, hp, hf⟩ :=
    @s_curve_f_hz_finite_diff steps i h2 hmax (by omega) q0 q1 dd hd
  obtain ⟨s', p', hs', -, -, hp', hf'⟩ :=
    @s_curve_f_hz_finite_diff steps (i + 1) h2 hmax hi q0 q1 dd hd
  obtain ⟨a, a', ha, ha', ha0, haa, -⟩ := smoothstep_sample_mono h2 hmax hi
  rw [hs] at ha
  rw [hs'] at ha'
  cases ha
  cases ha'
  rw [hf, hf']
  constructor
  · intro h
    have hm := roundFp_mono binary32 binary32_ok (x := dd * s) (y := dd * s')
      (mul_le_mul_of_nonneg_left haa h)
    rw [hp, hp', fin_le_fin] at hm
    exact roundFp_mono binary32 binary32_ok (by linarith)
  · intro h
    have hm := roundFp_mono binary32 binary32_ok (x := dd * s') (y := dd * s)
      (mul_le_mul_of_nonpos_left haa h)
    rw [hp, hp', fin_le_fin] at hm
    exact roundFp_mono binary32 binary32_ok (by linarith)

/-- With a finite difference every frequency of the ramp is on the `f1` side of `f0`. -/
theorem s_curve_f_hz_side {steps i : ℕ} (h2 : 2 ≤ steps) (hmax : steps ≤ 256)
    (hi : i < steps) {q0 q1 dd : ℚ} (hf0 : roundFp binary32 q0 = .fin q0)
    (hd : roundFp binary32 (q1 + -q0) = .fin dd) :
    (0 ≤ dd → Fp.le (.fin q0) (s_curve_f_hz ieee steps (.fin q0) (.fin q1) i) = true) ∧
    (dd ≤ 0 → Fp.le (s_curve_f_hz ieee steps (.fin q0) (.fin q1) i) (.fin q0) = true) := by
  obtain ⟨s, p, hs, hs0, -, hp, hf⟩ :=
    @s_curve_f_hz_finite_diff steps i h2 hmax hi q0 q1 dd hd
  rw [hf]
  constructor
  · intro h
    have hm := roundFp_mono binary32 binary32_ok (x := 0) (y := dd * s) (mul_nonneg h hs0)
    rw [hp, roundFp_zero, fin_le_fin] at hm
    have := roundFp_mono binary32 binary32_ok (x := q0) (y := q0 + p) (by linarith)
    rwa [hf0] at this
  · intro h
    have hm := roundFp_mono binary32 binary32_ok (x := dd * s) (y := 0)
      (mul_nonpos_of_nonpos_of_nonneg h hs0)
    rw [hp, roundFp_zero, fin_le_fin] at hm
    have := roundFp_mono binary32 binary32_ok (x := q0 + p) (y := q0) (by linarith)
    rwa [hf0] at this

/-- A sequence that does not increase from one index to the next does not increase over any
distance. -/
theorem chain_le {g : ℕ → ℕ} {n : ℕ} (h : ∀ k, k + 1 < n → g (k + 1) ≤ g k) :
    ∀ j k, k + j < n → g (k + j) ≤ g k := by
  intro j
  induction j with
  | zero => intro k _; exact le_rfl
  | succ j ih =>
    intro k hk
    exact le_trans (h (k + j) (by omega)) (ih k (by omega))

theorem chain_ge {g : ℕ → ℕ} {n : ℕ} (h : ∀ k, k + 1 < n → g k ≤ g (k + 1)) :
    ∀ j k, k + j < n → g k ≤ g (k + j) := by
  intro j
  induction j with
  | zero => intro k _; exact le_rfl
  | succ j ih =>
    intro k hk
    exact le_trans (ih k (by omega)) (h (k + j) (by omega))

/-! ## The smoothstep over exact rationals -/

/-- Over exact rationals `smoothstep` is non-decreasing with values in `[0, 1]`. -/
theorem smoothstep_exact_mono {x y : ℚ} (h : x ≤ y) :
    ∃ a b : ℚ, smoothstep exact (.fin x) = .fin a ∧ smoothstep exact (.fin y) = .fin b ∧
      0 ≤ a ∧ a ≤ b ∧ b ≤ 1 := by
  have range : ∀ t : ℚ, 0 ≤ (if t ≤ 0 then (0 : ℚ) else if 1 ≤ t then 1
      else t * t * (3 + -(2 * t))) ∧
      (if t ≤ 0 then (0 : ℚ) else if 1 ≤ t then 1 else t * t * (3 + -(2 * t))) ≤ 1 := by
    intro t
    split_ifs with h0 h1
    · exact ⟨le_rfl, zero_le_one⟩
    · exact ⟨zero_le_one, le_rfl⟩
    · have ht0 : 0 < t := not_le.1 h0
      have ht1 : t < 1 := not_le.1 h1
      constructor
      · have : 0 ≤ t * t * (3 + -(2 * t)) :=
          mul_nonneg (mul_nonneg ht0.le ht0.le) (by linarith)
        exact this
      · have : 0 ≤ (1 - t) * (1 - t) * (1 + 2 * t) :=
          mul_nonneg (mul_nonneg (by linarith) (by linarith)) (by linarith)
        nlinarith
  refine ⟨_, _, smoothstep_exact x, smoothstep_exact y, (range x).1, ?_, (range y).2⟩
  by_cases hx : x ≤ 0
  · rw [if_pos hx]; exact (range y).1
  · have hy : ¬ y ≤ 0 := by
      intro hy; exact hx (le_trans h hy)
    by_cases hy1 : 1 ≤ y
    · rw [if_neg hy, if_pos hy1]; exact (range x).2
    · have hx1 : ¬ 1 ≤ x := by
        intro hx1; exact hy1 (le_trans hx1 h)
      rw [if_neg hx, if_neg hx1, if_neg hy, if_neg hy1]
      have hx0 : 0 < x := not_le.1 hx
      have hy1' : y < 1 := not_le.1 hy1
      have h1 : 0 ≤ x * (1 - x) := mul_nonneg hx0.le (by linarith)
      have h2 : 0 ≤ y * (1 - y) := mul_nonneg (by linarith) (by linarith)
      have h3 : 0 ≤ x * (1 - y) := mul_nonneg hx0.le (by linarith)
      have h4 : 0 ≤ y * (1 - x) := mul_nonneg (by linarith) (by linarith)
      have h5 : 0 ≤ (y - x) * (3 * (x + y) - 2 * (x * x + x * y + y * y)) :=
        mul_nonneg (by linarith) (by nlinarith)
      nlinarith

/-! ## The periods of a ramp -/

/-- The period of a step written by `build_s_curve_cycles` is the clamped cycle count of
the frequency of the step. -/
theorem pair_period_eq (A : Arith) (sys_hz : ℕ) (out_words : ℕ → ℕ) {steps k : ℕ}
    (f0 f1 duty : Fp) (h2 : 2 ≤ steps) (hmax : steps ≤ 256) (hk : k < steps) :
    pair_period (build_s_curve_cycles A sys_hz out_words steps f0 f1 duty) k
      = total_cycles_of A sys_hz (s_curve_f_hz A steps f0 f1 k) := by
  unfold pair_period
  rw [build_s_curve_cycles_high A sys_hz out_words steps f0 f1 duty h2 (by norm_num; omega) k hk,
    build_s_curve_cycles_low A sys_hz out_words steps f0 f1 duty h2 (by norm_num; omega) k hk]
  exact (s_curve_pair_range A sys_hz steps f0 f1 duty k).1

/-- At a 32-bit clock the quotient `clock / f` of a frequency that is not a NaN is a finite
double in `[0, 2 ^ 36]`, which the conversion to `uint64_t` truncates without overflow. -/
theorem quotient_in_range {sys_hz : ℕ} (hsys : sys_hz < 2 ^ 32) {f : Fp} (hf : f ≠ .nan) :
    ∃ v : ℚ, Fp.div ieee.rd (u32_to_double sys_hz) (safe_f_hz ieee f) = .fin v ∧
      0 ≤ v ∧ v ≤ 2 ^ 36 := by
  have key : ∀ q : ℚ, (13421773 / 134217728 : ℚ) ≤ q →
      ∃ v : ℚ, Fp.div ieee.rd (u32_to_double sys_hz) (.fin q) = .fin v ∧ 0 ≤ v ∧ v ≤ 2 ^ 36 := by
    intro q hq
    rw [div_tenth sys_hz hq]
    have hq0 : (0 : ℚ) < q := lt_of_lt_of_le (by norm_num) hq
    have hs : (sys_hz : ℚ) ≤ 2 ^ 32 := by exact_mod_cast hsys.le
    have hub : (sys_hz : ℚ) / q ≤ ((1 : ℕ) : ℚ) * 2 ^ 36 := by
      rw [div_le_iff₀ hq0]
      have : (2 : ℚ) ^ 32 ≤ ((1 : ℕ) : ℚ) * 2 ^ 36 * (13421773 / 134217728) := by norm_num
      have h2 : ((1 : ℕ) : ℚ) * 2 ^ 36 * (13421773 / 134217728) ≤ ((1 : ℕ) : ℚ) * 2 ^ 36 * q :=
        mul_le_mul_of_nonneg_left hq (by norm_num)
      exact le_trans hs (le_trans this h2)
    obtain ⟨r, hr, hr0, hr1⟩ := roundFp_range binary64 binary64_ok (q := (sys_hz : ℚ) / q)
      (m := 1) (j := 36) (by unfold binary64; norm_num) (by unfold binary64; norm_num)
      (div_nonneg (Nat.cast_nonneg _) hq0.le) hub
    exact ⟨r, hr, hr0, by simpa using hr1⟩
  cases f with
  | nan => exact absurd rfl hf
  | inf s =>
    cases s
    · rw [safe_f_hz_inf_false]
      exact ⟨0, rfl, le_rfl, by norm_num⟩
    · rw [safe_f_hz_inf_true]
      exact key _ le_rfl
  | fin x =>
    rw [safe_f_hz_fin]
    exact key _ (le_max_right _ _)

/-- The cycle counts of a ramp between two finite floats whose difference is finite: they
follow the sign of the difference, stay on the far side of the count for `f0`, and end at
the count for `f0 + (f1 - f0)`. -/
theorem ramp_cycles (sys_hz : ℕ) {steps : ℕ} {q0 q1 dd : ℚ} (h2 : 2 ≤ steps)
    (hmax : steps ≤ 256) (hf0 : roundFp binary32 q0 = .fin q0)
    (hd : roundFp binary32 (q1 + -q0) = .fin dd) :
    (0 ≤ dd →
      (∀ k, k + 1 < steps →
        total_cycles_of ieee sys_hz (s_curve_f_hz ieee steps (.fin q0) (.fin q1) (k + 1))
          ≤ total_cycles_of ieee sys_hz (s_curve_f_hz ieee steps (.fin q0) (.fin q1) k)) ∧
      (∀ k, k < steps →
        total_cycles_of ieee sys_hz (s_curve_f_hz ieee steps (.fin q0) (.fin q1) k)
          ≤ total_cycles_of ieee sys_hz (.fin q0))) ∧
    (dd ≤ 0 →
      (∀ k, k + 1 < steps →
        total_cycles_of ieee sys_hz (s_curve_f_hz ieee steps (.fin q0) (.fin q1) k)
          ≤ total_cycles_of ieee sys_hz (s_curve_f_hz ieee steps (.fin q0) (.fin q1) (k + 1))) ∧
      (∀ k, k < steps →
        total_cycles_of ieee sys_hz (.fin q0)
          ≤ total_cycles_of ieee sys_hz (s_curve_f_hz ieee steps (.fin q0) (.fin q1) k))) ∧
    total_cycles_of ieee sys_hz (s_curve_f_hz ieee steps (.fin q0) (.fin q1) (steps - 1))
      = total_cycles_of ieee sys_hz
          (Fp.add ieee.rf (.fin q0) (Fp.sub ieee.rf (.fin q1) (.fin q0))) := by
  refine ⟨fun hdd => ⟨fun k hk => ?_, fun k hk => ?_⟩,
    fun hdd => ⟨fun k hk => ?_, fun k hk => ?_⟩, ?_⟩
  · exact total_cycles_of_antitone sys_hz ((s_curve_f_hz_mono h2 hmax hk hd).1 hdd)
  · exact total_cycles_of_antitone sys_hz ((s_curve_f_hz_side h2 hmax hk hf0 hd).1 hdd)
  · exact total_cycles_of_antitone sys_hz ((s_curve_f_hz_mono h2 hmax hk hd).2 hdd)
  · exact total_cycles_of_antitone sys_hz ((s_curve_f_hz_side h2 hmax hk hf0 hd).2 hdd)
  · rw [@s_curve_f_hz_last steps h2 (by norm_num; omega) q0 q1 dd hd]

/-- C12, as amended: in binary32, at a 32-bit clock, for `steps` in `[2, MAX_STEPS]` and
finite floats `f0`, `f1` whose difference `f1 - f0` is finite, the smoothstep of
consecutive step fractions `i / (steps - 1)` is finite, in `[0, 1]` and non-decreasing
(over exact rationals it is so for all arguments).  For `f0 <= f1` the period `high + low`
of the pairs written by `build_s_curve_cycles` is non-increasing in the step index, and
every period is at most the period for `f0` and at least the period of the last step;
symmetrically, for `f0 >= f1` the period is non-decreasing and every period is at least the
period for `f0` and at most the period of the last step.  The period of the last step is
the period for `f0 + (f1 - f0)`, the sum and the difference rounded to binary32, not the
period for `f1`.  The period for a frequency `f` is `total_cycles_of f`, the sum of the
pair of `build_constant_cycles_pair(f, duty)`.  No step frequency is a NaN and every quotient `clock / f`
that is converted to `uint64_t`, for the steps and for `f0`, is a finite double in
`[0, 2 ^ 36]`, so each of these conversions is one that C defines. -/
theorem build_s_curve_cycles_periods_monotone (sys_hz : ℕ) (out_words : ℕ → ℕ) (steps : ℕ)
    (q0 q1 dd : ℚ) (duty_cycle : Fp)
    (h2 : 2 ≤ steps) (hmax : steps ≤ STEPGEN_DMA_MAX_STEPS) (hsys : sys_hz < 2 ^ 32)
    (hf0 : ieee.rf q0 = .fin q0)
    (hd : Fp.sub ieee.rf (.fin q1) (.fin q0) = .fin dd) :
    (∀ i, i + 1 < steps → ∃ s s' : ℚ,
      smoothstep ieee
        (Fp.div ieee.rf (u32_to_float ieee i) (u32_to_float ieee (u32_sub steps 1))) = .fin s ∧
      smoothstep ieee
        (Fp.div ieee.rf (u32_to_float ieee (i + 1)) (u32_to_float ieee (u32_sub steps 1)))
          = .fin s' ∧
      0 ≤ s ∧ s ≤ s' ∧ s' ≤ 1) ∧
    (∀ x y : ℚ, x ≤ y → ∃ a b : ℚ,
      smoothstep exact (.fin x) = .fin a ∧ smoothstep exact (.fin y) = .fin b ∧
      0 ≤ a ∧ a ≤ b ∧ b ≤ 1) ∧
    (∀ f : Fp, (build_constant_cycles_pair ieee sys_hz f duty_cycle).1
        + (build_constant_cycles_pair ieee sys_hz f duty_cycle).2
      = total_cycles_of ieee sys_hz f) ∧
    (∀ k, k < steps → ∃ v : ℚ,
      s_curve_f_hz ieee steps (.fin q0) (.fin q1) k ≠ .nan ∧
      Fp.div ieee.rd (u32_to_double sys_hz)
          (safe_f_hz ieee (s_curve_f_hz ieee steps (.fin q0) (.fin q1) k)) = .fin v ∧
      0 ≤ v ∧ v ≤ 2 ^ 36 ∧
      pair_period
          (build_s_curve_cycles ieee sys_hz out_words steps (.fin q0) (.fin q1) duty_cycle) k
        = total_cycles_of ieee sys_hz (s_curve_f_hz ieee steps (.fin q0) (.fin q1) k)) ∧
    (q0 ≤ q1 →
      (∀ k, k + 1 < steps →
        pair_period
            (build_s_curve_cycles ieee sys_hz out_words steps (.fin q0) (.fin q1) duty_cycle)
            (k + 1)
          ≤ pair_period
              (build_s_curve_cycles ieee sys_hz out_words steps (.fin q0) (.fin q1) duty_cycle)
              k) ∧
      (∀ k, k < steps →
        pair_period
            (build_s_curve_cycles ieee sys_hz out_words steps (.fin q0) (.fin q1) duty_cycle) k
          ≤ total_cycles_of ieee sys_hz (.fin q0) ∧
        pair_period
            (build_s_curve_cycles ieee sys_hz out_words steps (.fin q0) (.fin q1) duty_cycle)
            (steps - 1)
          ≤ pair_period
              (build_s_curve_cycles ieee sys_hz out_words steps (.fin q0) (.fin q1) duty_cycle)
              k)) ∧
    (q1 ≤ q0 →
      (∀ k, k + 1 < steps →
        pair_period
            (build_s_curve_cycles ieee sys_hz out_words steps (.fin q0) (.fin q1) duty_cycle) k
          ≤ pair_period
              (build_s_curve_cycles ieee sys_hz out_words steps (.fin q0) (.fin q1) duty_cycle)
              (k + 1)) ∧
      (∀ k, k < steps →
        total_cycles_of ieee sys_hz (.fin q0)
          ≤ pair_period
              (build_s_curve_cycles ieee sys_hz out_words steps (.fin q0) (.fin q1) duty_cycle)
              k ∧
        pair_period
            (build_s_curve_cycles ieee sys_hz out_words steps (.fin q0) (.fin q1) duty_cycle) k
          ≤ pair_period
              (build_s_curve_cycles ieee sys_hz out_words steps (.fin q0) (.fin q1) duty_cycle)
              (steps - 1))) ∧
    pair_period
        (build_s_curve_cycles ieee sys_hz out_words steps (.fin q0) (.fin q1) duty_cycle)
        (steps - 1)
      = total_cycles_of ieee sys_hz
          (Fp.add ieee.rf (.fin q0) (Fp.sub ieee.rf (.fin q1) (.fin q0))) ∧
    (∃ v : ℚ, Fp.div ieee.rd (u32_to_double sys_hz) (safe_f_hz ieee (.fin q0)) = .fin v ∧
      0 ≤ v ∧ v ≤ 2 ^ 36) := by
  have hmax' : steps ≤ 256 := hmax
  have hd' : roundFp binary32 (q1 + -q0) = .fin dd := hd
  have hper : ∀ k, k < steps →
      pair_period
          (build_s_curve_cycles ieee sys_hz out_words steps (.fin q0) (.fin q1) duty_cycle) k
        = total_cycles_of ieee sys_hz (s_curve_f_hz ieee steps (.fin q0) (.fin q1) k) :=
    fun k hk => pair_period_eq ieee sys_hz out_words (.fin q0) (.fin q1) duty_cycle h2 hmax' hk
  obtain ⟨hup, hdown, hlast⟩ := ramp_cycles sys_hz h2 hmax' hf0 hd'
  refine ⟨fun i hi => smoothstep_sample_mono h2 hmax' hi, fun x y h => smoothstep_exact_mono h,
    fun f => pair_total ieee sys_hz f duty_cycle, ?_, ?_, ?_, ?_,
    quotient_in_range hsys (by intro h; cases h)⟩
  · intro k hk
    obtain ⟨s, p, -, -, -, -, hf⟩ := @s_curve_f_hz_finite_diff steps k h2 hmax' hk q0 q1 dd hd'
    have hnan : s_curve_f_hz ieee steps (.fin q0) (.fin q1) k ≠ .nan := by
      rw [hf]
      by_cases h0 : q0 + p = 0
      · rw [h0, roundFp_zero]; intro h; cases h
      · rw [roundFp_eq binary32 _ h0]
        split_ifs <;> (intro h; cases h)
    obtain ⟨v, hv, hv0, hv1⟩ := quotient_in_range hsys hnan
    exact ⟨v, hnan, hv, hv0, hv1, hper k hk⟩
  · intro hle
    have hdd : 0 ≤ dd := by
      rcases roundFp_nonneg binary32 (q := q1 + -q0) (by linarith) with e | ⟨r, hr, hr0⟩
      · rw [e] at hd'; cases hd'
      · rw [hr] at hd'; cases hd'; exact hr0
    obtain ⟨hstep, hfirst⟩ := hup hdd
    have hadj : ∀ k, k + 1 < steps →
        pair_period
            (build_s_curve_cycles ieee sys_hz out_words steps (.fin q0) (.fin q1) duty_cycle)
            (k + 1)
          ≤ pair_period
              (build_s_curve_cycles ieee sys_hz out_words steps (.fin q0) (.fin q1) duty_cycle)
              k := by
      intro k hk
      rw [hper (k + 1) hk, hper k (by omega)]
      exact hstep k hk
    refine ⟨hadj, fun k hk => ⟨?_, ?_⟩⟩
    · rw [hper k hk]; exact hfirst k hk
    · have := chain_le hadj (steps - 1 - k) k (by omega)
      have e : k + (steps - 1 - k) = steps - 1 := by omega
      rwa [e] at this
  · intro hle
    have hdd : dd ≤ 0 := by
      rcases roundFp_nonpos binary32 (q := q1 + -q0) (by linarith) with e | ⟨r, hr, hr0⟩
      · rw [e] at hd'; cases hd'
      · rw [hr] at hd'; cases hd'; exact hr0
    obtain ⟨hstep, hfirst⟩ := hdown hdd
    have hadj : ∀ k, k + 1 < steps →
        pair_period
            (build_s_curve_cycles ieee sys_hz out_words steps (.fin q0) (.fin q1) duty_cycle) k
          ≤ pair_period
              (build_s_curve_cycles ieee sys_hz out_words steps (.fin q0) (.fin q1) duty_cycle)
              (k + 1) := by
      intro k hk
      rw [hper (k + 1) hk, hper k (by omega)]
      exact hstep k hk
    refine ⟨hadj, fun k hk => ⟨?_, ?_⟩⟩
    · rw [hper k hk]; exact hfirst k hk
    · have := chain_ge hadj (steps - 1 - k) k (by omega)
      have e : k + (steps - 1 - k) = steps - 1 := by omega
      rwa [e] at this
  · rw [hper (steps - 1) (by omega)]; exact hlast
/-- Witness of the amended C12: a 5-step binary32 ramp from 10 Hz up to 1000 Hz and one
from 1000 Hz down to 10 Hz, at a clock of 125 MHz. -/
theorem build_s_curve_cycles_periods_monotone_witness :
    (pair_period (build_s_curve_cycles ieee 125000000 (fun _ => 0) 5 (.fin 10) (.fin 1000)
        (.fin (1 / 2))) (1 + 1)
      ≤ pair_period (build_s_curve_cycles ieee 125000000 (fun _ => 0) 5 (.fin 10) (.fin 1000)
        (.fin (1 / 2))) 1) ∧
    (pair_period (build_s_curve_cycles ieee 125000000 (fun _ => 0) 5 (.fin 10) (.fin 1000)
        (.fin (1 / 2))) 1
      ≤ total_cycles_of ieee 125000000 (.fin 10)) ∧
    (pair_period (build_s_curve_cycles ieee 125000000 (fun _ => 0) 5 (.fin 1000) (.fin 10)
        (.fin (1 / 2))) 1
      ≤ pair_period (build_s_curve_cycles ieee 125000000 (fun _ => 0) 5 (.fin 1000) (.fin 10)
        (.fin (1 / 2))) (1 + 1)) :=
  ⟨((build_s_curve_cycles_periods_monotone 125000000 (fun _ => 0) 5 10 1000 990
      (.fin (1 / 2)) (by decide) (by decide) (by norm_num) (by decide!)
      (by decide!)).2.2.2.2.1 (by norm_num)).1 1 (by decide),
   (((build_s_curve_cycles_periods_monotone 125000000 (fun _ => 0) 5 10 1000 990
      (.fin (1 / 2)) (by decide) (by decide) (by norm_num) (by decide!)
      (by decide!)).2.2.2.2.1 (by norm_num)).2 1 (by decide)).1,
   ((build_s_curve_cycles_periods_monotone 125000000 (fun _ => 0) 5 1000 10 (-990)
      (.fin (1 / 2)) (by decide) (by decide) (by norm_num) (by decide!)
      (by decide!)).2.2.2.2.2.1 (by norm_num)).1 1 (by decide)⟩

/-- Counterexample to C12 as stated.  In binary32, at a clock of 125 MHz and with 2 steps:
from `f0 = 0.7f` up to `f1 = 1.9f` the last period is 65,789,470, below the period
65,789,474 for `f1`; from `f0 = 0.5f` down to `f1 = 0.2f` the last period is 625,000,037,
above the period 624,999,990 for `f1`; and `smoothstep` decreases from the float
`7518597 / 2 ^ 23` to the next float `15037195 / 2 ^ 24`. -/
theorem ramp_period_beyond_f1 :
    (ieee.rf (7 / 10) = .fin (11744051 / 16777216) ∧
      ieee.rf (19 / 10) = .fin (15938355 / 8388608) ∧
      ieee.rf (11744051 / 16777216) = .fin (11744051 / 16777216) ∧
      ieee.rf (15938355 / 8388608) = .fin (15938355 / 8388608) ∧
      Fp.le (.fin (11744051 / 16777216)) (.fin (15938355 / 8388608)) = true ∧
      pair_period (build_s_curve_cycles ieee 125000000 (fun _ => 0) 2
        (.fin (11744051 / 16777216)) (.fin (15938355 / 8388608)) (.fin (1 / 2))) 1 = 65789470 ∧
      total_cycles_of ieee 125000000 (.fin (15938355 / 8388608)) = 65789474) ∧
    (ieee.rf (1 / 2) = .fin (1 / 2) ∧
      ieee.rf (2 / 10) = .fin (13421773 / 67108864) ∧
      ieee.rf (13421773 / 67108864) = .fin (13421773 / 67108864) ∧
      Fp.le (.fin (13421773 / 67108864)) (.fin (1 / 2)) = true ∧
      pair_period (build_s_curve_cycles ieee 125000000 (fun _ => 0) 2
        (.fin (1 / 2)) (.fin (13421773 / 67108864)) (.fin (1 / 2))) 1 = 625000037 ∧
      total_cycles_of ieee 125000000 (.fin (13421773 / 67108864)) = 624999990) ∧
    (ieee.rf (7518597 / 8388608) = .fin (7518597 / 8388608) ∧
      ieee.rf (15037195 / 16777216) = .fin (15037195 / 16777216) ∧
      (7518597 / 8388608 : ℚ) < 15037195 / 16777216 ∧
      smoothstep ieee (.fin (7518597 / 8388608)) = .fin (16273259 / 16777216) ∧
      smoothstep ieee (.fin (15037195 / 16777216)) = .fin (8136629 / 8388608) ∧
      (8136629 / 8388608 : ℚ) < 16273259 / 16777216) := by
  refine ⟨⟨by decide!, by decide!, by decide!, by decide!, by decide!, by decide!, by decide!⟩,
    ⟨by decide!, by decide!, by decide!, by decide!, by decide!, by decide!⟩,
    ⟨by decide!, by decide!, by norm_num, by decide!, by decide!, by norm_num⟩⟩

/-! ## The split for a duty outside `[0, 1]` -/

/-- A value of magnitude at most `2 ^ k`, `k` in the normal exponent range, rounds to a
finite value of magnitude at most `2 ^ k`, at distance at most `2 ^ (k - prec)`. -/
theorem roundFp_abs_le_pow2 (F : Format) (hF : F.ok) {q : ℚ} {k : ℤ}
    (hk1 : 1 - F.emax ≤ k) (hk2 : k ≤ F.emax) (h : |q| ≤ pow2 k) :
    ∃ r : ℚ, roundFp F q = .fin r ∧ |r| ≤ pow2 k ∧ |r - q| ≤ pow2 (k - F.prec) := by
  have key : ∃ r : ℚ, roundFp F q = .fin r ∧ |r| ≤ pow2 k := by
    by_cases hq : q = 0
    · refine ⟨0, by rw [hq]; exact roundFp_zero F, ?_⟩
      rw [abs_zero]; exact (pow2_pos k).le
    · have hu := pow2_pos (ulpExp F q)
      have he : ulpExp F q ≤ k := by
        unfold ulpExp
        have h1 := ilog2_le_of_abs_le hq h
        have h2 := max_le h1 hk1
        have h3 := hF.1
        omega
      obtain ⟨z, hz⟩ := @int_scaled_of_exp_le 1 k (ulpExp F q) he
      rw [Int.cast_one, one_mul] at hz
      have hb := abs_rne_scaled_le hu (q := q) (z := z) (by rw [← hz]; exact h)
      rw [← hz] at hb
      refine ⟨_, ?_, hb⟩
      rw [roundFp_eq F q hq, if_pos (lt_of_le_of_lt hb (pow2_lt_pow2 (by omega)))]
  obtain ⟨r, hr, hb⟩ := key
  exact ⟨r, hr, hb, roundFp_abs_err F hF hk1 h hr⟩

theorem pow2_add_natCast (e : ℤ) (n : ℕ) : pow2 (e + n) = pow2 e * 2 ^ n := by
  rw [pow2_add, pow2_natCast]

theorem pow2_sub_natCast (e : ℤ) (n : ℕ) : pow2 (e - n) = pow2 e / 2 ^ n := by
  rw [pow2_sub, pow2_natCast]

/-- The binary32 instance, with the bounds written as multiples of `2 ^ e`: a value of
magnitude at most `2 * 2 ^ e` rounds within `2 ^ e / 2 ^ 23`. -/
theorem rf_abs_le_two_pow2 {q : ℚ} {e : ℤ} (he1 : -126 ≤ e) (he2 : e ≤ 126)
    (h : |q| ≤ 2 * pow2 e) :
    ∃ r : ℚ, roundFp binary32 q = .fin r ∧ |r| ≤ 2 * pow2 e ∧ |r - q| ≤ pow2 e / 2 ^ 23 := by
  have h1 : pow2 (e + 1) = 2 * pow2 e := by
    have := pow2_add_natCast e 1
    simp only [Nat.cast_one, pow_one] at this
    rw [this]; ring
  have h2 : pow2 (e + 1 - ((binary32.prec : ℕ) : ℤ)) = pow2 e / 2 ^ 23 := by
    have : e + 1 - ((binary32.prec : ℕ) : ℤ) = e - ((23 : ℕ) : ℤ) := by
      unfold binary32; push_cast; ring
    rw [this, pow2_sub_natCast]
  obtain ⟨r, hr, hb, hd⟩ := roundFp_abs_le_pow2 binary32 binary32_ok (q := q) (k := e + 1)
    (by unfold binary32; norm_num; omega) (by unfold binary32; norm_num; omega)
    (by rw [h1]; exact h)
  rw [h1] at hb
  rw [h2] at hd
  exact ⟨r, hr, hb, hd⟩

/-! ## The binary32 smoothstep against the exact cubic -/

/-- On `[1/256, 255/256]` the binary32 smoothstep is within `5 / 2 ^ 22` of the cubic. -/
theorem smoothstep_interior_near {t : ℚ} (h0 : 1 / 256 ≤ t) (h1 : t ≤ 255 / 256) :
    ∃ s : ℚ, smoothstep ieee (.fin t) = .fin s ∧ |s - t * t * (3 - 2 * t)| ≤ 5 / 2 ^ 22 := by
  obtain ⟨a, b, e, ha0, hb0, hae, hbe⟩ := smoothstep_interior (t := t) (by linarith) (by linarith)
  have ha := abs_le.1 hae
  have hb := abs_le.1 hbe
  have hub : a * b ≤ 1 := by
    refine le_trans ?_ (cubic_le_one (by linarith) h1)
    exact mul_le_mul (by linarith) (by linarith) hb0 (by positivity)
  obtain ⟨s, hs, -, -, hse⟩ := rf_near (q := a * b) 0 (by norm_num) (mul_nonneg ha0 hb0)
    (by simpa using hub)
  refine ⟨s, e.trans hs, ?_⟩
  have ht2 : t * t ≤ 1 := by nlinarith
  have ha2 : |a| ≤ 2 := by
    rw [abs_of_nonneg ha0]
    have : (1 : ℚ) / 2 ^ 24 ≤ 1 := by norm_num
    linarith
  have hB : |3 - 2 * t| ≤ 3 := by
    rw [abs_of_nonneg (by linarith)]
    linarith
  have e1 : |a * (b - (3 - 2 * t))| ≤ 2 * (1 / 2 ^ 21) := by
    rw [abs_mul]
    exact mul_le_mul ha2 hbe (abs_nonneg _) (by norm_num)
  have e2 : |(3 - 2 * t) * (a - t * t)| ≤ 3 * (1 / 2 ^ 24) := by
    rw [abs_mul]
    exact mul_le_mul hB hae (abs_nonneg _) (by norm_num)
  have hid : s - t * t * (3 - 2 * t)
      = (s - a * b) + a * (b - (3 - 2 * t)) + (3 - 2 * t) * (a - t * t) := by ring
  rw [hid]
  have h3 := abs_add_three (s - a * b) (a * (b - (3 - 2 * t))) ((3 - 2 * t) * (a - t * t))
  have hse' : |s - a * b| ≤ 1 / 2 ^ 24 := by simpa using hse
  have : (1 : ℚ) / 2 ^ 24 + 2 * (1 / 2 ^ 21) + 3 * (1 / 2 ^ 24) = 5 / 2 ^ 22 := by norm_num
  linarith

/-- The cubic `t * t * (3 - 2 * t)` changes by at most twice the change of its argument
on `[0, 1]`. -/
theorem cubic_lipschitz {t x : ℚ} (ht0 : 0 ≤ t) (ht1 : t ≤ 1) (hx0 : 0 ≤ x) (hx1 : x ≤ 1) :
    |t * t * (3 - 2 * t) - x * x * (3 - 2 * x)| ≤ 2 * |t - x| := by
  have hid : t * t * (3 - 2 * t) - x * x * (3 - 2 * x)
      = (3 * (t + x) - 2 * (t * t + t * x + x * x)) * (t - x) := by ring
  have h1 : 0 ≤ t * (1 - t) := mul_nonneg ht0 (by linarith)
  have h2 : 0 ≤ x * (1 - x) := mul_nonneg hx0 (by linarith)
  have h3 : 0 ≤ t * (1 - x) := mul_nonneg ht0 (by linarith)
  have h4 : 0 ≤ x * (1 - t) := mul_nonneg hx0 (by linarith)
  have hg0 : 0 ≤ 3 * (t + x) - 2 * (t * t + t * x + x * x) := by nlinarith
  have hg2 : 3 * (t + x) - 2 * (t * t + t * x + x * x) ≤ 2 := by
    nlinarith [sq_nonneg (t + x - 1), sq_nonneg (t - 1 / 2), sq_nonneg (x - 1 / 2)]
  rw [hid, abs_mul, abs_of_nonneg hg0]
  exact mul_le_mul_of_nonneg_right hg2 (abs_nonneg _)

/-- The binary32 smoothstep of a step fraction is within `11 / 2 ^ 23` of the cubic of the
exact fraction `k / (steps - 1)`. -/
theorem smoothstep_sample_near {steps k : ℕ} (h2 : 2 ≤ steps) (hmax : steps ≤ 256)
    (hk : k < steps) :
    ∃ s : ℚ, smoothstep ieee
        (Fp.div ieee.rf (u32_to_float ieee k) (u32_to_float ieee (u32_sub steps 1))) = .fin s
      ∧ 0 ≤ s ∧ s ≤ 1 ∧
      |s - (k : ℚ) / ((steps - 1 : ℕ) : ℚ) * ((k : ℚ) / ((steps - 1 : ℕ) : ℚ))
          * (3 - 2 * ((k : ℚ) / ((steps - 1 : ℕ) : ℚ)))| ≤ 11 / 2 ^ 23 := by
  obtain ⟨s, hs, hs0, hs1⟩ := smoothstep_sample_range (i := k) h2 hmax hk
  refine ⟨s, hs, hs0, hs1, ?_⟩
  have hpos : (0 : ℚ) < ((steps - 1 : ℕ) : ℚ) := by
    have : 0 < steps - 1 := by omega
    exact_mod_cast this
  rcases Nat.eq_zero_or_pos k with h0 | h0
  · subst h0
    rw [step_fraction_first h2 (by norm_num; omega), smoothstep_zero] at hs
    cases hs
    simp only [Nat.cast_zero, zero_div, mul_zero, zero_mul, sub_zero, abs_zero]
    norm_num
  · by_cases hl : k + 1 < steps
    · obtain ⟨t, ht, ht0, ht1, he⟩ := step_fraction_interior hmax h0 hl
      rw [ht] at hs
      obtain ⟨s', hs', hse⟩ := smoothstep_interior_near ht0 ht1
      rw [hs] at hs'
      cases hs'
      have hx0 : (0 : ℚ) ≤ (k : ℚ) / ((steps - 1 : ℕ) : ℚ) :=
        div_nonneg (Nat.cast_nonneg _) hpos.le
      have hx1 : (k : ℚ) / ((steps - 1 : ℕ) : ℚ) ≤ 1 := by
        rw [div_le_one hpos]
        have : k ≤ steps - 1 := by omega
        exact_mod_cast this
      have hl := cubic_lipschitz (t := t) (x := (k : ℚ) / ((steps - 1 : ℕ) : ℚ))
        (by linarith) (by linarith) hx0 hx1
      have htri := abs_add (s - t * t * (3 - 2 * t))
        (t * t * (3 - 2 * t) - (k : ℚ) / ((steps - 1 : ℕ) : ℚ)
          * ((k : ℚ) / ((steps - 1 : ℕ) : ℚ)) * (3 - 2 * ((k : ℚ) / ((steps - 1 : ℕ) : ℚ))))
      rw [sub_add_sub_cancel] at htri
      have : (5 : ℚ) / 2 ^ 22 + 2 * (1 / 2 ^ 24) = 11 / 2 ^ 23 := by norm_num
      linarith
    · have hkn : k = steps - 1 := by omega
      rw [hkn, step_fraction_last h2 (by norm_num; omega), smoothstep_one] at hs
      cases hs
      rw [hkn, div_self hpos.ne']
      norm_num

/-- In binary32 the smoothstep of the step fractions of `k` and of `steps - 1 - k` add up
to 1 within `2 ^ -18`. -/
theorem smoothstep_sample_symm {steps k : ℕ} (h2 : 2 ≤ steps) (hmax : steps ≤ 256)
    (hk : k < steps) :
    ∃ s s' : ℚ,
      smoothstep ieee
        (Fp.div ieee.rf (u32_to_float ieee k) (u32_to_float ieee (u32_sub steps 1))) = .fin s ∧
      smoothstep ieee
        (Fp.div ieee.rf (u32_to_float ieee (steps - 1 - k))
          (u32_to_float ieee (u32_sub steps 1))) = .fin s' ∧
      0 ≤ s ∧ s ≤ 1 ∧ 0 ≤ s' ∧ s' ≤ 1 ∧ |s + s' - 1| ≤ 1 / 2 ^ 18 := by
  obtain ⟨s, hs, hs0, hs1, he⟩ := smoothstep_sample_near (k := k) h2 hmax hk
  obtain ⟨s', hs', hs0', hs1', he'⟩ :=
    smoothstep_sample_near (k := steps - 1 - k) h2 hmax (by omega)
  refine ⟨s, s', hs, hs', hs0, hs1, hs0', hs1', ?_⟩
  have hne : ((steps - 1 : ℕ) : ℚ) ≠ 0 := by
    have : 0 < steps - 1 := by omega
    exact_mod_cast this.ne'
  have hcast : ((steps - 1 - k : ℕ) : ℚ) = ((steps - 1 : ℕ) : ℚ) - (k : ℚ) := by
    have : k ≤ steps - 1 := by omega
    exact Nat.cast_sub this
  have hx : ((steps - 1 - k : ℕ) : ℚ) / ((steps - 1 : ℕ) : ℚ)
      = 1 - (k : ℚ) / ((steps - 1 : ℕ) : ℚ) := by
    rw [hcast, sub_div, div_self hne]
  rw [hx] at he'
  generalize (k : ℚ) / ((steps - 1 : ℕ) : ℚ) = x at he he'
  have hid : s + s' - 1 = (s - x * x * (3 - 2 * x))
      + (s' - (1 - x) * (1 - x) * (3 - 2 * (1 - x))) := by ring
  rw [hid]
  have htri := abs_add (s - x * x * (3 - 2 * x)) (s' - (1 - x) * (1 - x) * (3 - 2 * (1 - x)))
  have : (11 : ℚ) / 2 ^ 23 + 11 / 2 ^ 23 ≤ 1 / 2 ^ 18 := by norm_num
  linarith

/-! ## The step frequencies of a ramp and of the reversed ramp -/

/-- For `|f0|, |f1| ≤ 2 ^ e` the binary32 difference `d = f1 - f0` and the binary32 step
frequency `f` are finite, with `d` within `2 ^ e / 2 ^ 23` of the exact difference and `f`
within `2 ^ e / 2 ^ 22` of `f0 + d * s`. -/
theorem s_curve_f_hz_near (steps k : ℕ) {q0 q1 s : ℚ} {e : ℤ} (he1 : -126 ≤ e) (he2 : e ≤ 126)
    (h0 : |q0| ≤ pow2 e) (h1 : |q1| ≤ pow2 e)
    (hs : smoothstep ieee
      (Fp.div ieee.rf (u32_to_float ieee k) (u32_to_float ieee (u32_sub steps 1))) = .fin s)
    (hs0 : 0 ≤ s) (hs1 : s ≤ 1) :
    ∃ d f : ℚ, roundFp binary32 (q1 + -q0) = .fin d ∧
      s_curve_f_hz ieee steps (.fin q0) (.fin q1) k = .fin f ∧
      |d - (q1 - q0)| ≤ pow2 e / 2 ^ 23 ∧ |f - (q0 + d * s)| ≤ pow2 e / 2 ^ 22 := by
  have hc := pow2_pos e
  have hD : |q1 + -q0| ≤ 2 * pow2 e := by
    have := abs_add q1 (-q0)
    rw [abs_neg] at this
    linarith
  obtain ⟨d, hd, hdb, hde⟩ := rf_abs_le_two_pow2 he1 he2 hD
  have hsabs : |s| ≤ 1 := by rw [abs_of_nonneg hs0]; exact hs1
  have hds : |d * s| ≤ 2 * pow2 e := by
    rw [abs_mul]
    have := mul_le_mul hdb hsabs (abs_nonneg _) (by linarith)
    linarith
  obtain ⟨p, hp, -, hpe⟩ := rf_abs_le_two_pow2 he1 he2 hds
  have a1 : |(1 - s) * q0| ≤ (1 - s) * pow2 e := by
    rw [abs_mul, abs_of_nonneg (by linarith : (0 : ℚ) ≤ 1 - s)]
    exact mul_le_mul_of_nonneg_left h0 (by linarith)
  have a2 : |s * q1| ≤ s * pow2 e := by
    rw [abs_mul, abs_of_nonneg hs0]
    exact mul_le_mul_of_nonneg_left h1 hs0
  have a3 : |s * (d - (q1 + -q0))| ≤ pow2 e / 2 ^ 23 := by
    rw [abs_mul, abs_of_nonneg hs0]
    have := mul_le_mul hs1 hde (abs_nonneg _) (by norm_num : (0 : ℚ) ≤ 1)
    linarith
  have hsum : |q0 + p| ≤ 2 * pow2 e := by
    have hid : q0 + p = ((1 - s) * q0 + s * q1 + s * (d - (q1 + -q0))) + (p - d * s) := by ring
    rw [hid]
    have t1 := abs_add ((1 - s) * q0 + s * q1 + s * (d - (q1 + -q0))) (p - d * s)
    have t2 := abs_add_three ((1 - s) * q0) (s * q1) (s * (d - (q1 + -q0)))
    have hsmall : pow2 e / 2 ^ 23 + pow2 e / 2 ^ 23 ≤ pow2 e := by
      have : pow2 e / 2 ^ 23 + pow2 e / 2 ^ 23 = pow2 e * (1 / 2 ^ 22) := by ring
      rw [this]
      have : pow2 e * (1 / 2 ^ 22) ≤ pow2 e * 1 := 
        mul_le_mul_of_nonneg_left (by norm_num) hc.le
      linarith
    linarith
  obtain ⟨f, hf, -, hfe⟩ := rf_abs_le_two_pow2 he1 he2 hsum
  refine ⟨d, f, hd, ?_, ?_, ?_⟩
  · unfold s_curve_f_hz
    simp only
    rw [hs]
    have e1 : Fp.sub ieee.rf (.fin q1) (.fin q0) = .fin d := hd
    have e2 : Fp.mul ieee.rf (.fin d) (.fin s) = .fin p := hp
    rw [e1, e2]
    exact hf
  · have : d - (q1 - q0) = d - (q1 + -q0) := by ring
    rw [this]
    exact hde
  · have hid : f - (q0 + d * s) = (f - (q0 + p)) + (p - d * s) := by ring
    rw [hid]
    have t := abs_add (f - (q0 + p)) (p - d * s)
    have : pow2 e / 2 ^ 23 + pow2 e / 2 ^ 23 = pow2 e / 2 ^ 22 := by ring
    linarith

/-- In binary32 the frequency of step `k` of the ramp from `f0` to `f1` and the frequency
of step `steps - 1 - k` of the ramp from `f1` to `f0` are finite and differ by at most
`2 ^ (e - 16)`, for `|f0|, |f1| ≤ 2 ^ e`. -/
theorem s_curve_f_hz_reversal_near {steps k : ℕ} (h2 : 2 ≤ steps) (hmax : steps ≤ 256)
    (hk : k < steps) {q0 q1 : ℚ} {e : ℤ} (he1 : -126 ≤ e) (he2 : e ≤ 126)
    (h0 : |q0| ≤ pow2 e) (h1 : |q1| ≤ pow2 e) :
    ∃ f g : ℚ, s_curve_f_hz ieee steps (.fin q0) (.fin q1) k = .fin f ∧
      s_curve_f_hz ieee steps (.fin q1) (.fin q0) (steps - 1 - k) = .fin g ∧
      |f - g| ≤ pow2 (e - 16) := by
  obtain ⟨s, s', hs, hs', hs0, hs1, hs0', hs1', hsym⟩ := smoothstep_sample_symm h2 hmax hk
  obtain ⟨d, f, -, hf, hde, hfe⟩ := s_curve_f_hz_near steps k he1 he2 h0 h1 hs hs0 hs1
  obtain ⟨d', g, -, hg, hde', hge⟩ :=
    s_curve_f_hz_near steps (steps - 1 - k) he1 he2 h1 h0 hs' hs0' hs1'
  refine ⟨f, g, hf, hg, ?_⟩
  have h16 : pow2 (e - 16) = pow2 e / 2 ^ 16 := by
    have := pow2_sub_natCast e 16
    simpa using this
  rw [h16]
  have hc := pow2_pos e
  have hD : |q1 - q0| ≤ 2 * pow2 e := by
    have := abs_sub q1 q0
    linarith
  have b1 : |(q1 - q0) * (s + s' - 1)| ≤ pow2 e / 2 ^ 17 := by
    rw [abs_mul]
    have := mul_le_mul hD hsym (abs_nonneg _) (by linarith)
    have hmul : 2 * pow2 e * (1 / 2 ^ 18) = pow2 e / 2 ^ 17 := by ring
    linarith
  have b2 : |(d - (q1 - q0)) * s| ≤ pow2 e / 2 ^ 23 := by
    rw [abs_mul, abs_of_nonneg hs0]
    have := mul_le_mul hde hs1 hs0 (by positivity)
    linarith
  have b3 : |(d' - (q0 - q1)) * s'| ≤ pow2 e / 2 ^ 23 := by
    rw [abs_mul, abs_of_nonneg hs0']
    have := mul_le_mul hde' hs1' hs0' (by positivity)
    linarith
  have hid : f - g = (f - (q0 + d * s)) + -(g - (q1 + d' * s'))
      + ((q1 - q0) * (s + s' - 1) + (d - (q1 - q0)) * s + -((d' - (q0 - q1)) * s')) := by ring
  rw [hid]
  have t1 := abs_add_three (f - (q0 + d * s)) (-(g - (q1 + d' * s')))
    ((q1 - q0) * (s + s' - 1) + (d - (q1 - q0)) * s + -((d' - (q0 - q1)) * s'))
  have t2 := abs_add_three ((q1 - q0) * (s + s' - 1)) ((d - (q1 - q0)) * s)
    (-((d' - (q0 - q1)) * s'))
  rw [abs_neg] at t1 t2
  have hfin : pow2 e / 2 ^ 22 + pow2 e / 2 ^ 22
      + (pow2 e / 2 ^ 17 + pow2 e / 2 ^ 23 + pow2 e / 2 ^ 23) ≤ pow2 e / 2 ^ 16 := by
    have hdiff : pow2 e / 2 ^ 16 - (pow2 e / 2 ^ 22 + pow2 e / 2 ^ 22
          + (pow2 e / 2 ^ 17 + pow2 e / 2 ^ 23 + pow2 e / 2 ^ 23))
        = pow2 e * (29 / 2 ^ 22) := by ring
    have : 0 ≤ pow2 e * (29 / 2 ^ 22) := mul_nonneg hc.le (by norm_num)
    linarith
  linarith

/-! ## The reversed ramp in binary32 -/

/-- The cycle counts of two frequencies in the working range differ by less than two
cycles plus the difference of the two quotients `clock / f`. -/
theorem total_cycles_of_close (sys_hz : ℕ) {f g : ℚ}
    (hf : Fp.lt (.fin f) (ieee.rf (1 / 10)) = false)
    (hf3 : 3 ≤ (sys_hz : ℚ) / f) (hfm : (sys_hz : ℚ) / f ≤ 0x7fffffff)
    (hg : Fp.lt (.fin g) (ieee.rf (1 / 10)) = false)
    (hg3 : 3 ≤ (sys_hz : ℚ) / g) (hgm : (sys_hz : ℚ) / g ≤ 0x7fffffff) :
    |((total_cycles_of ieee sys_hz (.fin f) : ℕ) : ℚ)
        - ((total_cycles_of ieee sys_hz (.fin g) : ℕ) : ℚ)|
      < 2 + (sys_hz : ℚ) * |f - g| / (f * g) := by
  have hfpos : 0 < f := lt_of_lt_of_le (by norm_num) (tenth_le_of_not_lt hf)
  have hgpos : 0 < g := lt_of_lt_of_le (by norm_num) (tenth_le_of_not_lt hg)
  have h1 := total_cycles_of_near sys_hz hf hf3 hfm
  have h2 := total_cycles_of_near sys_hz hg hg3 hgm
  have hq : (sys_hz : ℚ) / f - (sys_hz : ℚ) / g = (sys_hz : ℚ) * (g - f) / (f * g) := by
    field_simp
    ring
  have hqa : |(sys_hz : ℚ) / f - (sys_hz : ℚ) / g| = (sys_hz : ℚ) * |f - g| / (f * g) := by
    rw [hq, abs_div, abs_mul, abs_of_nonneg (Nat.cast_nonneg sys_hz),
      abs_of_pos (mul_pos hfpos hgpos), abs_sub_comm]
  have hid : ((total_cycles_of ieee sys_hz (.fin f) : ℕ) : ℚ)
        - ((total_cycles_of ieee sys_hz (.fin g) : ℕ) : ℚ)
      = (((total_cycles_of ieee sys_hz (.fin f) : ℕ) : ℚ) - (sys_hz : ℚ) / f)
        + ((sys_hz : ℚ) / f - (sys_hz : ℚ) / g)
        + -(((total_cycles_of ieee sys_hz (.fin g) : ℕ) : ℚ) - (sys_hz : ℚ) / g) := by ring
  rw [hid]
  have t := abs_add_three
    (((total_cycles_of ieee sys_hz (.fin f) : ℕ) : ℚ) - (sys_hz : ℚ) / f)
    ((sys_hz : ℚ) / f - (sys_hz : ℚ) / g)
    (-(((total_cycles_of ieee sys_hz (.fin g) : ℕ) : ℚ) - (sys_hz : ℚ) / g))
  rw [abs_neg, hqa] at t
  linarith

/-- The pair of a step written by `build_s_curve_cycles` is the pair that
`build_constant_cycles_pair` computes from the frequency of the step. -/
theorem build_s_curve_cycles_pair_eq (A : Arith) (sys_hz : ℕ) (out_words : ℕ → ℕ)
    {steps k : ℕ} (f0 f1 duty : Fp) (h2 : 2 ≤ steps) (hmax : steps ≤ 256) (hk : k < steps) :
    (build_s_curve_cycles A sys_hz out_words steps f0 f1 duty (2 * k),
      build_s_curve_cycles A sys_hz out_words steps f0 f1 duty (2 * k + 1))
      = build_constant_cycles_pair A sys_hz (s_curve_f_hz A steps f0 f1 k) duty := by
  rw [build_s_curve_cycles_high A sys_hz out_words steps f0 f1 duty h2 (by norm_num; omega) k hk,
    build_s_curve_cycles_low A sys_hz out_words steps f0 f1 duty h2 (by norm_num; omega) k hk]
  rfl

/-- C6, as amended: in binary32 the time-reversal symmetry of the ramp holds up to
rounding.  For every `steps` in `[2, MAX_STEPS]`, every `k < steps`, every duty and all
`f0`, `f1` with `|f0|, |f1| ≤ 2 ^ e`, `-126 ≤ e ≤ 126`: the `k`-th pair of
`build_s_curve_cycles(steps, f0, f1, duty)` is `build_constant_cycles_pair(f, duty)` and
the `(steps - 1 - k)`-th pair of `build_s_curve_cycles(steps, f1, f0, duty)` is
`build_constant_cycles_pair(g, duty)`, for two finite step frequencies `f`, `g` with
`|f - g| ≤ 2 ^ (e - 16)`; when `f` and `g` are at least `0.1f` with quotients
`clock / f`, `clock / g` in `[3, 0x7fffffff]`, the two periods `high + low` differ by less
than `2 + clock * |f - g| / (f * g)`.  The binary32 smoothstep of the step fractions of `k`
and `steps - 1 - k` add up to 1 within `2 ^ -18`.  The pairs are equal, and
`s(t) = 1 - s(1 - t)` for every `t`, when the arithmetic is taken over exact rationals. -/
theorem build_s_curve_cycles_reversal_near (sys_hz : ℕ) (out_a out_b : ℕ → ℕ) (steps k : ℕ)
    (q0 q1 : ℚ) (e : ℤ) (duty : Fp)
    (h2 : 2 ≤ steps) (hmax : steps ≤ STEPGEN_DMA_MAX_STEPS) (hk : k < steps)
    (he1 : -126 ≤ e) (he2 : e ≤ 126) (h0 : |q0| ≤ pow2 e) (h1 : |q1| ≤ pow2 e) :
    (∃ f g : ℚ,
      s_curve_f_hz ieee steps (.fin q0) (.fin q1) k = .fin f ∧
      s_curve_f_hz ieee steps (.fin q1) (.fin q0) (steps - 1 - k) = .fin g ∧
      |f - g| ≤ pow2 (e - 16) ∧
      (build_s_curve_cycles ieee sys_hz out_a steps (.fin q0) (.fin q1) duty (2 * k),
        build_s_curve_cycles ieee sys_hz out_a steps (.fin q0) (.fin q1) duty (2 * k + 1))
        = build_constant_cycles_pair ieee sys_hz (.fin f) duty ∧
      (build_s_curve_cycles ieee sys_hz out_b steps (.fin q1) (.fin q0) duty
          (2 * (steps - 1 - k)),
        build_s_curve_cycles ieee sys_hz out_b steps (.fin q1) (.fin q0) duty
          (2 * (steps - 1 - k) + 1))
        = build_constant_cycles_pair ieee sys_hz (.fin g) duty ∧
      (Fp.lt (.fin f) (ieee.rf (1 / 10)) = false →
        3 ≤ (sys_hz : ℚ) / f → (sys_hz : ℚ) / f ≤ 0x7fffffff →
        Fp.lt (.fin g) (ieee.rf (1 / 10)) = false →
        3 ≤ (sys_hz : ℚ) / g → (sys_hz : ℚ) / g ≤ 0x7fffffff →
        |((pair_period
              (build_s_curve_cycles ieee sys_hz out_a steps (.fin q0) (.fin q1) duty) k : ℕ) : ℚ)
          - ((pair_period
              (build_s_curve_cycles ieee sys_hz out_b steps (.fin q1) (.fin q0) duty)
              (steps - 1 - k) : ℕ) : ℚ)|
          < 2 + (sys_hz : ℚ) * |f - g| / (f * g))) ∧
    (∃ s s' : ℚ,
      smoothstep ieee
        (Fp.div ieee.rf (u32_to_float ieee k) (u32_to_float ieee (u32_sub steps 1))) = .fin s ∧
      smoothstep ieee
        (Fp.div ieee.rf (u32_to_float ieee (steps - 1 - k))
          (u32_to_float ieee (u32_sub steps 1))) = .fin s' ∧
      0 ≤ s ∧ s ≤ 1 ∧ 0 ≤ s' ∧ s' ≤ 1 ∧ |s + s' - 1| ≤ 1 / 2 ^ 18) ∧
    (build_s_curve_cycles exact sys_hz out_a steps (.fin q0) (.fin q1) duty (2 * k)
        = build_s_curve_cycles exact sys_hz out_b steps (.fin q1) (.fin q0) duty
            (2 * (steps - 1 - k)) ∧
      build_s_curve_cycles exact sys_hz out_a steps (.fin q0) (.fin q1) duty (2 * k + 1)
        = build_s_curve_cycles exact sys_hz out_b steps (.fin q1) (.fin q0) duty
            (2 * (steps - 1 - k) + 1) ∧
      (∀ t : ℚ, ∃ a b : ℚ, smoothstep exact (.fin t) = .fin a ∧
        smoothstep exact (.fin (1 - t)) = .fin b ∧ a = 1 - b)) := by
  have hmax' : steps ≤ 256 := hmax
  have hj : steps - 1 - k < steps := by omega
  refine ⟨?_, smoothstep_sample_symm h2 hmax' hk,
    build_s_curve_cycles_reversal_exact sys_hz out_a out_b steps k q0 q1 duty h2 hmax hk⟩
  obtain ⟨f, g, hf, hg, hfg⟩ := s_curve_f_hz_reversal_near h2 hmax' hk he1 he2 h0 h1
  refine ⟨f, g, hf, hg, hfg, ?_, ?_, ?_⟩
  · rw [build_s_curve_cycles_pair_eq ieee sys_hz out_a (.fin q0) (.fin q1) duty h2 hmax' hk, hf]
  · rw [build_s_curve_cycles_pair_eq ieee sys_hz out_b (.fin q1) (.fin q0) duty h2 hmax' hj, hg]
  · intro hf1 hf3 hfm hg1 hg3 hgm
    rw [pair_period_eq ieee sys_hz out_a (.fin q0) (.fin q1) duty h2 hmax' hk,
      pair_period_eq ieee sys_hz out_b (.fin q1) (.fin q0) duty h2 hmax' hj, hf, hg]
    exact total_cycles_of_close sys_hz hf1 hf3 hfm hg1 hg3 hgm

/-- Witness of the amended C6: step 1 of a 4-step ramp from 10 Hz to 1000 Hz and step 2
of the reversed ramp, both frequencies being at most `2 ^ 10`. -/
theorem build_s_curve_cycles_reversal_near_witness :
    ∃ f g : ℚ,
      s_curve_f_hz ieee 4 (.fin 10) (.fin 1000) 1 = .fin f ∧
      s_curve_f_hz ieee 4 (.fin 1000) (.fin 10) (4 - 1 - 1) = .fin g ∧
      |f - g| ≤ pow2 (10 - 16) ∧
      (build_s_curve_cycles ieee 125000000 (fun _ => 0) 4 (.fin 10) (.fin 1000) (.fin (1 / 2))
          (2 * 1),
        build_s_curve_cycles ieee 125000000 (fun _ => 0) 4 (.fin 10) (.fin 1000) (.fin (1 / 2))
          (2 * 1 + 1))
        = build_constant_cycles_pair ieee 125000000 (.fin f) (.fin (1 / 2)) :=
  (build_s_curve_cycles_reversal_near 125000000 (fun _ => 0) (fun _ => 7) 4 1 10 1000 10
    (.fin (1 / 2)) (by decide) (by decide) (by decide) (by norm_num) (by norm_num)
    (by unfold pow2; norm_num [abs_of_nonneg])
    (by unfold pow2; norm_num [abs_of_nonneg])).1.imp
    fun _ h => h.imp fun _ h => ⟨h.1, h.2.1, h.2.2.1, h.2.2.2.1⟩

/-- Counterexample to C6 as stated.  In binary32, at a clock of 125 MHz and duty `0.5`,
the 4-step ramp from 10 Hz to 1000 Hz has the frequency `4369067 / 16384` and the pair
`(234374, 234375)` at step 1, while the reversed ramp has the frequency `2184533 / 8192`
and the pair `(234375, 234375)` at step 2; and the binary32 smoothstep of the floats
`62381 / 2 ^ 18` and `1 - 62381 / 2 ^ 18` add up to `1 - 2 ^ -26`, not to 1. -/
theorem reversed_ramp_differs :
    (ieee.rf 10 = .fin 10 ∧ ieee.rf 1000 = .fin 1000 ∧
      s_curve_f_hz ieee 4 (.fin 10) (.fin 1000) 1 = .fin (4369067 / 16384) ∧
      s_curve_f_hz ieee 4 (.fin 1000) (.fin 10) (4 - 1 - 1) = .fin (2184533 / 8192) ∧
      build_s_curve_cycles ieee 125000000 (fun _ => 0) 4 (.fin 10) (.fin 1000) (.fin (1 / 2))
        (2 * 1) = 234374 ∧
      build_s_curve_cycles ieee 125000000 (fun _ => 0) 4 (.fin 10) (.fin 1000) (.fin (1 / 2))
        (2 * 1 + 1) = 234375 ∧
      build_s_curve_cycles ieee 125000000 (fun _ => 0) 4 (.fin 1000) (.fin 10) (.fin (1 / 2))
        (2 * (4 - 1 - 1)) = 234375 ∧
      build_s_curve_cycles ieee 125000000 (fun _ => 0) 4 (.fin 1000) (.fin 10) (.fin (1 / 2))
        (2 * (4 - 1 - 1) + 1) = 234375) ∧
    (ieee.rf (62381 / 262144) = .fin (62381 / 262144) ∧
      ieee.rf (1 - 62381 / 262144) = .fin (1 - 62381 / 262144) ∧
      smoothstep ieee (.fin (62381 / 262144)) = .fin (9591935 / 67108864) ∧
      smoothstep ieee (.fin (1 - 62381 / 262144)) = .fin (449351 / 524288) ∧
      (9591935 / 67108864 : ℚ) ≠ 1 - 449351 / 524288) := by
  refine ⟨⟨by decide!, by decide!, by decide!, by decide!, by decide!, by decide!, by decide!,
    by decide!⟩, ⟨by decide!, by decide!, by decide!, by decide!, by norm_num⟩⟩

end Stepgen
